import Mathlib

/-!
# A shallow embedding of `collection/skipmap/skipmap_str.go`

The Go file implements a concurrent skip-list map from strings to arbitrary
values. We embed it sequentially: the node heap is a list of nodes addressed
by position (pointers become node ids), every public operation is a function
from map states to map states, and the optimistic retry loops of `Store`,
`Delete` and `LoadAndDelete` are modelled by `Option`: a `none` result means
the operation hit a branch that, executed alone (no concurrent helpers),
retries forever without changing the state. Atomic loads/stores of pointers
and of the value slot collapse to plain reads/writes in this sequential
model; the per-node mutexes guard nothing and are dropped.

Declarations outside `skipmap_str.go` (`maxLevel`, `randomLevel`, the
`bitflag` word, `cmpstring`, the `wyhash` score function) are modelled from
the spec and marked as such at their definition sites.
-/

namespace Skipmap

/-- Values stored in the map. Go stores `interface{}` values; a small
representative universe suffices for the embedding, with `nil` standing for
Go's untyped nil (what `Load` returns on a miss). -/
inductive GoVal where
  | nil
  | str (s : String)
  | int (n : Int)
deriving DecidableEq, Repr

/-- Modelled from the spec: the fixed ceiling on node heights (§4.3,
"`maxHeight` is a fixed ceiling (commonly 32)"). The Go constant `maxLevel`
is declared outside `skipmap_str.go`. -/
def maxLevel : Nat := 32

/-- Lexicographic comparison of code-point sequences. -/
def cmpchars : List Char → List Char → Int
  | [], [] => 0
  | [], _ :: _ => -1
  | _ :: _, [] => 1
  | a :: as, b :: bs =>
    if a.toNat < b.toNat then -1
    else if b.toNat < a.toNat then 1
    else cmpchars as bs

/-- Modelled from the spec: `cmpstring` (declared outside `skipmap_str.go`)
is the exact lexicographic comparison of §4.2. Go compares strings bytewise;
UTF-8 byte order coincides with code-point order, so we compare the
code-point sequences. -/
def cmpstring (a b : String) : Int := cmpchars a.data b.data

/-- A skip-list node (`stringNode`). The `flags` bit word is declared outside
`skipmap_str.go` and is modelled from the spec (§4.1) as its two bits
`fullyLinked` and `marked`; `next` holds one successor id per level (`none`
is Go's nil), `value` is the atomically replaceable value slot, and the
mutex is dropped by the sequential embedding. -/
structure stringNode where
  key : String
  score : Nat
  value : GoVal
  next : List (Option Nat)
  fullyLinked : Bool
  marked : Bool
deriving DecidableEq, Repr

/-- `cmp` returns 1 if `n` is bigger, 0 if equal, else -1. -/
def stringNode.cmp (n : stringNode) (score : Nat) (key : String) : Int :=
  if n.score > score then 1
  else if n.score = score then cmpstring n.key key
  else -1

/-- The composite flag read `flags.MGet(fullyLinked|marked, fullyLinked)`:
fully linked and not marked, read as one unit. -/
def stringNode.observable (n : stringNode) : Bool :=
  n.fullyLinked && !n.marked

/-- The map handle (`StringMap`): the node heap (ids are list positions),
the id of the sentinel header, and the `length` counter. -/
structure StringMap where
  nodes : List stringNode
  header : Nat
  length : Int
deriving DecidableEq, Repr

/-- `newStringNode`: a fresh node with the given height; `score` is the hash
of the key, all successor slots start nil, flags start clear. The score
function is passed explicitly (the spec treats `hash` as an opaque 64-bit
oracle; `wyhash` is outside `skipmap_str.go`). -/
def newStringNode (hash : String → Nat) (key : String) (value : GoVal) (level : Nat) :
    stringNode :=
  { key := key, score := hash key, value := value,
    next := List.replicate level none, fullyLinked := false, marked := false }

/-- `NewString`: a map holding only the header node
(`newStringNode("", "", maxLevel)` with `fullyLinked` set). -/
def NewString (hash : String → Nat) : StringMap :=
  { nodes := [{ newStringNode hash "" (.str "") maxLevel with fullyLinked := true }],
    header := 0, length := 0 }

/-- Dereference a node id. -/
def nodeAt (s : StringMap) (i : Nat) : Option stringNode := s.nodes[i]?

/-- `loadNext`: the successor id of node `i` at level `lvl` (`none` = nil). -/
def nextOf (s : StringMap) (i lvl : Nat) : Option Nat :=
  match nodeAt s i with
  | none => none
  | some n => (n.next[lvl]?).join

/-- `cmp` lifted to node ids. A dangling id compares as `+∞` (never reached
on well-formed states). -/
def cmpAt (s : StringMap) (i : Nat) (score : Nat) (key : String) : Int :=
  match nodeAt s i with
  | none => 1
  | some n => n.cmp score key

/-- The inner loop shared by every search routine: starting at `x`, follow
level-`lvl` successors while they compare below the target; return the final
`(pred, succ)` pair. `fuel` bounds the walk (the Go loop needs none; on
well-formed states the chain length bounds the steps). -/
def walkLevel (s : StringMap) (score : Nat) (key : String) (lvl : Nat) :
    Nat → Nat → Nat × Option Nat
  | 0, x => (x, nextOf s x lvl)
  | fuel+1, x =>
    match nextOf s x lvl with
    | none => (x, none)
    | some succ =>
      if cmpAt s succ score key < 0 then walkLevel s score key lvl fuel succ
      else (x, some succ)

/-- The per-level match test `succ != nil && succ.cmp(score, key) == 0`. -/
def isEqMatch (s : StringMap) (o : Option Nat) (score : Nat) (key : String) : Bool :=
  match o with
  | some j => cmpAt s j score key == 0
  | none => false

/-- `findNode`, descending the remaining `lvls` levels from `x`: on an equal
match return it at once (`.inl`, lower levels unfilled); otherwise return
the full `preds`/`succs` arrays (`.inr`, indexed by level). -/
def findNodeAux (s : StringMap) (score : Nat) (key : String) :
    Nat → Nat → Nat ⊕ List (Nat × Option Nat)
  | 0, _ => .inr []
  | lvl+1, x =>
    let ps := walkLevel s score key lvl s.nodes.length x
    if isEqMatch s ps.2 score key then .inl (ps.2.getD 0)
    else
      match findNodeAux s score key lvl ps.1 with
      | .inl j => .inl j
      | .inr rest => .inr (rest ++ [ps])

def findNode (hash : String → Nat) (s : StringMap) (key : String) :
    Nat ⊕ List (Nat × Option Nat) :=
  findNodeAux s (hash key) key maxLevel s.header

/-- `findNodeDelete`: always descends to level 0, returning the full
`preds`/`succs` arrays and `lFound`, the level of the first equal match
encountered on the way down (`none` for Go's -1). -/
def findNodeDeleteAux (s : StringMap) (score : Nat) (key : String) :
    Nat → Nat → List (Nat × Option Nat) × Option Nat
  | 0, _ => ([], none)
  | lvl+1, x =>
    let ps := walkLevel s score key lvl s.nodes.length x
    let r := findNodeDeleteAux s score key lvl ps.1
    (r.1 ++ [ps], if isEqMatch s ps.2 score key then some lvl else r.2)

def findNodeDelete (hash : String → Nat) (s : StringMap) (key : String) :
    List (Nat × Option Nat) × Option Nat :=
  findNodeDeleteAux s (hash key) key maxLevel s.header

/-- `Load`: lock-free search; on the first equal match, answer from the
composite flag read (a match that is not fully linked or already marked
reports a miss at once). -/
def LoadAux (s : StringMap) (score : Nat) (key : String) :
    Nat → Nat → GoVal × Bool
  | 0, _ => (.nil, false)
  | lvl+1, x =>
    let ps := walkLevel s score key lvl s.nodes.length x
    match ps.2 with
    | some j =>
      match nodeAt s j with
      | some n =>
        if n.cmp score key = 0 then
          if n.observable then (n.value, true) else (.nil, false)
        else LoadAux s score key lvl ps.1
      | none => LoadAux s score key lvl ps.1
    | none => LoadAux s score key lvl ps.1

def Load (hash : String → Nat) (s : StringMap) (key : String) : GoVal × Bool :=
  LoadAux s (hash key) key maxLevel s.header

/-- Replace the node stored at id `i` (out-of-range ids leave the heap
unchanged, matching `List.set`). -/
def setNode (s : StringMap) (i : Nat) (n : stringNode) : StringMap :=
  { s with nodes := s.nodes.set i n }

/-- `storeNext`: `n.next[lvl] = v` for the node at id `i`. -/
def setNextOf (s : StringMap) (i lvl : Nat) (v : Option Nat) : StringMap :=
  match nodeAt s i with
  | none => s
  | some n => setNode s i { n with next := n.next.set lvl v }

/-- The insertion validation of `Store`: at every layer below `level`, the
predecessor is unmarked, the recorded successor (if any) is unmarked, and
the predecessor still links to the recorded successor. -/
def insertValid (s : StringMap) (ps : List (Nat × Option Nat)) (level : Nat) : Bool :=
  (List.range level).all fun layer =>
    match ps[layer]? with
    | none => false
    | some pr =>
      (match nodeAt s pr.1 with
       | some p => !p.marked
       | none => false)
      && (match pr.2 with
          | none => true
          | some j =>
            match nodeAt s j with
            | some q => !q.marked
            | none => true)
      && (nextOf s pr.1 layer == pr.2)

/-- The splice loop of `Store`: for each layer below `level`, point the
recorded predecessor at the new node `m`. -/
def spliceAll (s : StringMap) (ps : List (Nat × Option Nat)) (m : Nat) :
    Nat → StringMap
  | 0 => s
  | layer+1 =>
    setNextOf (spliceAll s ps m layer) ((ps[layer]?.map Prod.fst).getD 0) layer (some m)

/-- `Store`. The height drawn by `randomLevel` (outside `skipmap_str.go`;
modelled from the spec §4.3 as an arbitrary draw in `[1, maxLevel]`) is the
explicit `level` argument. An equal unmarked match gets its value slot
replaced in place; otherwise the new node is built with the recorded
successors, spliced in below `level`, published fully linked, and the
counter incremented. `none` models the retry branches (marked match, failed
validation), which sequentially loop forever. -/
def Store (hash : String → Nat) (s : StringMap) (key : String) (value : GoVal)
    (level : Nat) : Option StringMap :=
  match findNode hash s key with
  | .inl j =>
    match nodeAt s j with
    | some n => if !n.marked then some (setNode s j { n with value := value }) else none
    | none => none
  | .inr ps =>
    if insertValid s ps level then
      let m := s.nodes.length
      let nn : stringNode :=
        { key := key, score := hash key, value := value,
          next := (List.range level).map fun layer => ps[layer]?.bind Prod.snd,
          fullyLinked := true, marked := false }
      let s2 := spliceAll { s with nodes := s.nodes ++ [nn] } ps m level
      some { s2 with length := s2.length + 1 }
    else none

/-- The deletion validation: at every layer up to `topLayer`, the
predecessor is unmarked and still links to the recorded successor. -/
def deleteValid (s : StringMap) (ps : List (Nat × Option Nat)) (topLayer : Nat) : Bool :=
  (List.range (topLayer+1)).all fun layer =>
    match ps[layer]? with
    | none => false
    | some pr =>
      (match nodeAt s pr.1 with
       | some p => !p.marked
       | none => false)
      && (nextOf s pr.1 layer == pr.2)

/-- The unlink loop of the deletions: for layer `topLayer` down to 0, point
the recorded predecessor at the victim's recorded successor (`ndNext` is the
victim's `next` array, which the deleter owns). -/
def unspliceAll (s : StringMap) (ps : List (Nat × Option Nat))
    (ndNext : List (Option Nat)) : Nat → StringMap
  | 0 => s
  | i+1 =>
    let s1 := setNextOf s ((ps[i]?.map Prod.fst).getD 0) i ((ndNext[i]?).join)
    unspliceAll s1 ps ndNext i

/-- `LoadAndDelete`: the two-phase deletion. A candidate is eligible only if
found fully-linked-and-unmarked with the search having reached its true top
layer; it is then marked (the logical deletion) and physically unlinked,
and the counter decremented. Ineligible or missing keys report
`(nil, false)` with the state untouched. `none` models the retry branch
(failed physical validation), which sequentially loops forever. -/
def LoadAndDelete (hash : String → Nat) (s : StringMap) (key : String) :
    Option (GoVal × Bool × StringMap) :=
  let r := findNodeDelete hash s key
  match r.2 with
  | none => some (.nil, false, s)
  | some lF =>
    match r.1[lF]?.bind Prod.snd with
    | none => some (.nil, false, s)
    | some j =>
      match nodeAt s j with
      | none => some (.nil, false, s)
      | some nd =>
        if nd.observable && (nd.next.length - 1 == lF) then
          if nd.marked then some (.nil, false, s)
          else
            let s1 := setNode s j { nd with marked := true }
            if deleteValid s1 r.1 lF then
              let s2 := unspliceAll s1 r.1 nd.next (lF+1)
              some (nd.value, true, { s2 with length := s2.length - 1 })
            else none
        else some (.nil, false, s)

/-- `Delete`: textually the same protocol as `LoadAndDelete` but with no
return values (the Go source carries them only in comments). -/
def Delete (hash : String → Nat) (s : StringMap) (key : String) : Option StringMap :=
  let r := findNodeDelete hash s key
  match r.2 with
  | none => some s
  | some lF =>
    match r.1[lF]?.bind Prod.snd with
    | none => some s
    | some j =>
      match nodeAt s j with
      | none => some s
      | some nd =>
        if nd.observable && (nd.next.length - 1 == lF) then
          if nd.marked then some s
          else
            let s1 := setNode s j { nd with marked := true }
            if deleteValid s1 r.1 lF then
              let s2 := unspliceAll s1 r.1 nd.next (lF+1)
              some { s2 with length := s2.length - 1 }
            else none
        else some s

/-- `LoadOrStore`: `Load`, then `Store` on a miss — and on the miss path the
source returns the literal `nil`, not the value just stored. -/
def LoadOrStore (hash : String → Nat) (s : StringMap) (key : String) (value : GoVal)
    (level : Nat) : Option (GoVal × Bool × StringMap) :=
  let lr := Load hash s key
  if lr.2 then some (lr.1, true, s)
  else (Store hash s key value level).map fun s' => (.nil, false, s')

/-- `Range`: walk the level-0 chain from the header's first successor,
skipping nodes that fail the composite flag read, calling `f` on the rest
until it returns false. The result is the list of visits (the `(key, value)`
pairs `f` was called on), which is what the claims are about. -/
def RangeAux (s : StringMap) (f : String → GoVal → Bool) :
    Nat → Option Nat → List (String × GoVal)
  | 0, _ => []
  | _+1, none => []
  | fuel+1, some i =>
    match nodeAt s i with
    | none => []
    | some n =>
      if !n.observable then RangeAux s f fuel ((n.next[0]?).join)
      else if f n.key n.value then (n.key, n.value) :: RangeAux s f fuel ((n.next[0]?).join)
      else [(n.key, n.value)]

def Range (s : StringMap) (f : String → GoVal → Bool) : List (String × GoVal) :=
  RangeAux s f s.nodes.length (nextOf s s.header 0)

/-- A completed `Range` call: the visitor always continues. -/
def RangeList (s : StringMap) : List (String × GoVal) :=
  Range s fun _ _ => true

/-- `Len`: the counter, read directly. -/
def Len (s : StringMap) : Int := s.length

/-! ## The well-formedness invariant

The state predicates below are ours (the verification side), not the
source's. `Inv hash s L` says that `L` lists the ids of the physically
linked real nodes in ascending `(score, key)` order and that every level's
successor chain threads the header through exactly the members of `L` tall
enough for that level; `clean` additionally rules out logically deleted
(marked) chain nodes, which sequential execution removes physically before
an operation returns. -/

def keyAt (s : StringMap) (i : Nat) : String :=
  match nodeAt s i with
  | some n => n.key
  | none => ""

def scoreAt (s : StringMap) (i : Nat) : Nat :=
  match nodeAt s i with
  | some n => n.score
  | none => 0

def valueAt (s : StringMap) (i : Nat) : GoVal :=
  match nodeAt s i with
  | some n => n.value
  | none => .nil

def markedAt (s : StringMap) (i : Nat) : Bool :=
  match nodeAt s i with
  | some n => n.marked
  | none => true

/-- A node's height (the length of its `next` array). -/
def heightOf (s : StringMap) (i : Nat) : Nat :=
  match nodeAt s i with
  | some n => n.next.length
  | none => 0

/-- The strict `(score, key)` order that sorts the list (score first, then
the tie-breaking string comparison the source uses). -/
def pairLt (a b : Nat × String) : Prop :=
  a.1 < b.1 ∨ (a.1 = b.1 ∧ cmpstring a.2 b.2 < 0)

instance (a b : Nat × String) : Decidable (pairLt a b) := by
  unfold pairLt; infer_instance

def scoreKeyAt (s : StringMap) (i : Nat) : Nat × String := (scoreAt s i, keyAt s i)

def nodeLt (s : StringMap) (a b : Nat) : Prop :=
  pairLt (scoreKeyAt s a) (scoreKeyAt s b)

instance (s : StringMap) (a b : Nat) : Decidable (nodeLt s a b) := by
  unfold nodeLt; infer_instance

/-- `chainSeg s lvl c stop`: the ids `c` are consecutively linked at level
`lvl` and the last one points to `stop`. -/
def chainSeg (s : StringMap) (lvl : Nat) : List Nat → Option Nat → Prop
  | [], _ => True
  | [a], stop => nextOf s a lvl = stop
  | a :: b :: rest, stop => nextOf s a lvl = some b ∧ chainSeg s lvl (b :: rest) stop

instance chainSeg.dec (s : StringMap) (lvl : Nat) :
    (c : List Nat) → (stop : Option Nat) → Decidable (chainSeg s lvl c stop)
  | [], _ => .isTrue trivial
  | [a], stop => (inferInstance : Decidable (nextOf s a lvl = stop))
  | _ :: b :: rest, stop =>
    have : Decidable (chainSeg s lvl (b :: rest) stop) := chainSeg.dec s lvl (b :: rest) stop
    instDecidableAnd

/-- A nil-terminated chain at level `lvl`. -/
def linked (s : StringMap) (lvl : Nat) (c : List Nat) : Prop := chainSeg s lvl c none

instance (s : StringMap) (lvl : Nat) (c : List Nat) : Decidable (linked s lvl c) :=
  chainSeg.dec s lvl c none

/-- The members of `L` tall enough to appear at level `lvl`. -/
def chainAt (s : StringMap) (L : List Nat) (lvl : Nat) : List Nat :=
  L.filter fun i => decide (lvl < heightOf s i)

def headerOk (hash : String → Nat) (s : StringMap) : Prop :=
  match nodeAt s 0 with
  | some hd =>
    hd.key = "" ∧ hd.score = hash "" ∧ hd.fullyLinked = true ∧ hd.marked = false ∧
      hd.next.length = maxLevel
  | none => False

instance (hash : String → Nat) (s : StringMap) : Decidable (headerOk hash s) := by
  unfold headerOk; cases nodeAt s 0 <;> infer_instance

def nodeOk (hash : String → Nat) (s : StringMap) (i : Nat) : Prop :=
  match nodeAt s i with
  | some n =>
    n.score = hash n.key ∧ n.fullyLinked = true ∧ 1 ≤ n.next.length ∧
      n.next.length ≤ maxLevel
  | none => False

instance (hash : String → Nat) (s : StringMap) (i : Nat) : Decidable (nodeOk hash s i) := by
  unfold nodeOk; cases nodeAt s i <;> infer_instance

/-- The well-formedness invariant tying a state to the sorted id list `L` of
its real nodes. -/
def Inv (hash : String → Nat) (s : StringMap) (L : List Nat) : Prop :=
  s.header = 0 ∧ headerOk hash s ∧
  (∀ i ∈ L, i < s.nodes.length ∧ i ≠ 0) ∧
  (∀ i ∈ L, nodeOk hash s i) ∧
  L.Pairwise (nodeLt s) ∧
  (∀ lvl, lvl < maxLevel → linked s lvl (0 :: chainAt s L lvl)) ∧
  s.length = (L.length : Int)

instance (hash : String → Nat) (s : StringMap) (L : List Nat) : Decidable (Inv hash s L) := by
  unfold Inv; infer_instance

/-- No chain node is marked (true between operations of any sequential
execution). -/
def clean (s : StringMap) (L : List Nat) : Prop := ∀ i ∈ L, markedAt s i = false

instance (s : StringMap) (L : List Nat) : Decidable (clean s L) := by
  unfold clean; infer_instance

/-- States reachable from `NewString` by completed `Store`, `Delete` and
`LoadAndDelete` calls, the height draws staying in `randomLevel`'s range. -/
inductive Reachable (hash : String → Nat) : StringMap → Prop where
  | init : Reachable hash (NewString hash)
  | store {s s' : StringMap} {key : String} {value : GoVal} {level : Nat} :
      Reachable hash s → 1 ≤ level → level ≤ maxLevel →
      Store hash s key value level = some s' → Reachable hash s'
  | del {s s' : StringMap} {key : String} :
      Reachable hash s → Delete hash s key = some s' → Reachable hash s'
  | loadAndDelete {s s' : StringMap} {key : String} {value : GoVal} {loaded : Bool} :
      Reachable hash s → LoadAndDelete hash s key = some (value, loaded, s') →
      Reachable hash s'

/-- A concrete score oracle for closed witnesses (any function works; the
spec treats the hash as opaque). -/
def hashZero : String → Nat := fun _ => 0

/-! ## Order theory of the comparison -/

theorem cmpchars_self : ∀ as, cmpchars as as = 0
  | [] => rfl
  | a :: as => by simp [cmpchars, cmpchars_self as]

theorem cmpchars_eq_zero_iff : ∀ as bs, cmpchars as bs = 0 ↔ as = bs
  | [], [] => by simp [cmpchars]
  | [], _ :: _ => by simp [cmpchars]
  | _ :: _, [] => by simp [cmpchars]
  | a :: as, b :: bs => by
    simp only [cmpchars]
    split_ifs with h1 h2
    · have hne : a ≠ b := fun h => by subst h; omega
      simp [hne]
    · have hne : a ≠ b := fun h => by subst h; omega
      simp [hne]
    · have hab : a = b := by
        have h3 : a.toNat = b.toNat := by omega
        calc a = Char.ofNat a.toNat := (Char.ofNat_toNat a).symm
        _ = Char.ofNat b.toNat := by rw [h3]
        _ = b := Char.ofNat_toNat b
      subst hab
      simp [cmpchars_eq_zero_iff as bs]

theorem cmpchars_swap : ∀ as bs, cmpchars bs as = -cmpchars as bs
  | [], [] => by simp [cmpchars]
  | [], _ :: _ => by simp [cmpchars]
  | _ :: _, [] => by simp [cmpchars]
  | a :: as, b :: bs => by
    simp only [cmpchars]
    split_ifs <;> first
      | omega
      | exact cmpchars_swap as bs

theorem cmpchars_trans_neg :
    ∀ as bs cs, cmpchars as bs < 0 → cmpchars bs cs < 0 → cmpchars as cs < 0
  | [], [], cs => by simp [cmpchars]
  | [], _ :: _, [] => by simp [cmpchars]
  | [], _ :: _, _ :: _ => by simp [cmpchars]
  | _ :: _, [], _ => by simp [cmpchars]
  | _ :: _, _ :: _, [] => by simp [cmpchars]
  | a :: as, b :: bs, c :: cs => by
    simp only [cmpchars]
    split_ifs <;>
      first
        | omega
        | (intro hab hbc; exact cmpchars_trans_neg as bs cs hab hbc)

theorem cmpstring_self (a : String) : cmpstring a a = 0 := cmpchars_self a.data

theorem cmpstring_eq_zero_iff (a b : String) : cmpstring a b = 0 ↔ a = b := by
  rw [cmpstring, cmpchars_eq_zero_iff, String.ext_iff]

theorem cmpstring_swap (a b : String) : cmpstring b a = -cmpstring a b :=
  cmpchars_swap a.data b.data

theorem cmpstring_empty_lt {k : String} (hk : k ≠ "") : cmpstring "" k < 0 := by
  rw [cmpstring]
  show cmpchars [] k.data < 0
  cases hd : k.data with
  | nil =>
    exact absurd (by cases k; cases hd; rfl) hk
  | cons c cs =>
    show (-1 : Int) < 0
    decide

theorem cmpstring_trans_neg (a b c : String) :
    cmpstring a b < 0 → cmpstring b c < 0 → cmpstring a c < 0 :=
  cmpchars_trans_neg a.data b.data c.data

theorem pairLt_irrefl (a : Nat × String) : ¬ pairLt a a := by
  simp [pairLt, cmpstring_self]

theorem pairLt_trans {a b c : Nat × String} :
    pairLt a b → pairLt b c → pairLt a c := by
  rcases a with ⟨sa, ka⟩; rcases b with ⟨sb, kb⟩; rcases c with ⟨sc, kc⟩
  rintro (h1 | ⟨h1, h1'⟩) (h2 | ⟨h2, h2'⟩)
  · exact Or.inl (Nat.lt_trans h1 h2)
  · exact Or.inl (h2 ▸ h1)
  · exact Or.inl (h1 ▸ h2)
  · exact Or.inr ⟨h1.trans h2, cmpstring_trans_neg _ _ _ h1' h2'⟩

theorem pairLt_asymm {a b : Nat × String} (h : pairLt a b) : ¬ pairLt b a :=
  fun h' => pairLt_irrefl a (pairLt_trans h h')

theorem eq_of_not_pairLt {a b : Nat × String}
    (h1 : ¬ pairLt a b) (h2 : ¬ pairLt b a) : a = b := by
  rcases a with ⟨sa, ka⟩; rcases b with ⟨sb, kb⟩
  simp only [pairLt, not_or, not_and] at h1 h2
  have hs : sa = sb := by omega
  subst hs
  have k1 : ¬ cmpstring ka kb < 0 := h1.2 rfl
  have k2 : ¬ cmpstring kb ka < 0 := h2.2 rfl
  rw [cmpstring_swap] at k2
  have : cmpstring ka kb = 0 := by omega
  rw [cmpstring_eq_zero_iff] at this
  simp [this]

/-- `cmp` answers below zero exactly when the node's pair is below the
target pair. -/
theorem cmp_lt_iff (n : stringNode) (score : Nat) (key : String) :
    n.cmp score key < 0 ↔ pairLt (n.score, n.key) (score, key) := by
  simp only [stringNode.cmp, pairLt]
  split_ifs with h1 h2
  · constructor
    · intro h; exact absurd h (by decide)
    · rintro (h | ⟨h, _⟩) <;> omega
  · constructor
    · intro h; exact Or.inr ⟨h2, h⟩
    · rintro (h | ⟨_, h⟩)
      · omega
      · exact h
  · constructor
    · intro _; exact Or.inl (by omega)
    · intro _; decide

theorem cmp_eq_zero_iff (n : stringNode) (score : Nat) (key : String) :
    n.cmp score key = 0 ↔ n.score = score ∧ n.key = key := by
  simp only [stringNode.cmp]
  split_ifs with h1 h2
  · constructor
    · intro h; exact absurd h (by decide)
    · rintro ⟨h, _⟩; omega
  · simp [h2, cmpstring_eq_zero_iff]
  · constructor
    · intro h; exact absurd h (by decide)
    · rintro ⟨h, _⟩; omega

theorem cmp_pos_iff (n : stringNode) (score : Nat) (key : String) :
    0 < n.cmp score key ↔ pairLt (score, key) (n.score, n.key) := by
  simp only [stringNode.cmp, pairLt]
  split_ifs with h1 h2
  · constructor
    · intro _; exact Or.inl h1
    · intro _; decide
  · constructor
    · intro h
      refine Or.inr ⟨h2.symm, ?_⟩
      rw [cmpstring_swap]; omega
    · rintro (h | ⟨_, h⟩)
      · omega
      · rw [cmpstring_swap] at h; omega
  · constructor
    · intro h; exact absurd h (by decide)
    · rintro (h | ⟨h, _⟩) <;> omega

/-! ## Generic list helpers -/

theorem takeWhile_append_all {α : Type} {p : α → Bool} :
    ∀ {A B : List α}, (∀ a ∈ A, p a = true) →
      (A ++ B).takeWhile p = A ++ B.takeWhile p
  | [], _, _ => rfl
  | a :: A, B, h => by
    rw [List.cons_append, List.takeWhile_cons_of_pos (h a (.head _)), List.cons_append,
      takeWhile_append_all fun x hx => h x (.tail _ hx)]

theorem dropWhile_append_all {α : Type} {p : α → Bool} :
    ∀ {A B : List α}, (∀ a ∈ A, p a = true) → (A ++ B).dropWhile p = B.dropWhile p
  | [], _, _ => rfl
  | a :: A, B, h => by
    rw [List.cons_append, List.dropWhile_cons_of_pos (h a (.head _)),
      dropWhile_append_all fun x hx => h x (.tail _ hx)]

theorem takeWhile_dropWhile_nil {α : Type} {p : α → Bool} :
    ∀ (l : List α), (l.dropWhile p).takeWhile p = []
  | [] => rfl
  | a :: l => by
    by_cases h : p a
    · rw [List.dropWhile_cons_of_pos h]; exact takeWhile_dropWhile_nil l
    · rw [List.dropWhile_cons_of_neg h, List.takeWhile_cons_of_neg h]

theorem dropWhile_dropWhile {α : Type} {p : α → Bool} :
    ∀ (l : List α), (l.dropWhile p).dropWhile p = l.dropWhile p
  | [] => rfl
  | a :: l => by
    by_cases h : p a
    · rw [List.dropWhile_cons_of_pos h]; exact dropWhile_dropWhile l
    · rw [List.dropWhile_cons_of_neg h, List.dropWhile_cons_of_neg h]

theorem getLastD_append_cons {α : Type} :
    ∀ (A : List α) (b : α) (B : List α) (d : α), (A ++ b :: B).getLastD d = B.getLastD b
  | [], b, B, d => List.getLastD_cons d b B
  | a :: A, b, B, d => by
    rw [List.cons_append, List.getLastD_cons]
    exact getLastD_append_cons A b B a

theorem getLastD_cases {α : Type} :
    ∀ (l : List α) (d : α), l.getLastD d = d ∨ l.getLastD d ∈ l
  | [], _ => .inl rfl
  | a :: l, d => by
    rw [List.getLastD_cons]
    rcases getLastD_cases l a with h | h
    · rw [h]; exact .inr (.head _)
    · exact .inr (.tail _ h)

theorem length_le_of_nodup_bound {l : List Nat} {n : Nat}
    (hn : l.Nodup) (hb : ∀ i ∈ l, i < n) : l.length ≤ n := by
  have h1 : l.toFinset.card = l.length := List.toFinset_card_of_nodup hn
  have h2 : l.toFinset ⊆ Finset.range n := by
    intro i hi
    rw [List.mem_toFinset] at hi
    exact Finset.mem_range.mpr (hb i hi)
  have := Finset.card_le_card h2
  rw [h1, Finset.card_range] at this
  exact this

/-! ## Chain segments -/

/-- The link target contributed by the head of `c` (`stop` if `c` is empty). -/
def headStop (c : List Nat) (stop : Option Nat) : Option Nat :=
  match c with
  | [] => stop
  | b :: _ => some b

theorem headStop_none (c : List Nat) : headStop c none = c.head? := by
  cases c <;> rfl

theorem chainSeg_cons_iff {s : StringMap} {lvl a : Nat} {c : List Nat} {stop : Option Nat} :
    chainSeg s lvl (a :: c) stop ↔
      nextOf s a lvl = headStop c stop ∧ chainSeg s lvl c stop := by
  cases c <;> simp [chainSeg, headStop]

theorem chainSeg_append {s : StringMap} {lvl : Nat} :
    ∀ (A B : List Nat) (stop : Option Nat),
      chainSeg s lvl (A ++ B) stop ↔
        chainSeg s lvl A (headStop B stop) ∧ chainSeg s lvl B stop
  | [], B, stop => by simp [chainSeg]
  | a :: A, B, stop => by
    rw [List.cons_append, chainSeg_cons_iff, chainSeg_append A B stop, chainSeg_cons_iff,
      show headStop (A ++ B) stop = headStop A (headStop B stop) by cases A <;> rfl]
    tauto

theorem chainSeg_congr {s s' : StringMap} {lvl : Nat} {stop : Option Nat} :
    ∀ {c : List Nat}, (∀ i ∈ c, nextOf s' i lvl = nextOf s i lvl) →
      chainSeg s lvl c stop → chainSeg s' lvl c stop
  | [], _, _ => trivial
  | a :: c, h, hc => by
    rw [chainSeg_cons_iff] at hc ⊢
    exact ⟨(h a (.head _)).trans hc.1,
      chainSeg_congr (fun i hi => h i (.tail _ hi)) hc.2⟩

theorem chainSeg_last {s : StringMap} {lvl : Nat} :
    ∀ (c : List Nat) (a : Nat) {stop : Option Nat}, chainSeg s lvl (a :: c) stop →
      nextOf s (c.getLastD a) lvl = stop
  | [], _, _, h => h
  | b :: c, a, stop, h => by
    rw [chainSeg_cons_iff] at h
    rw [List.getLastD_cons]
    exact chainSeg_last c b h.2

/-- Retarget a segment: if only the final node's level-`lvl` pointer changed,
the segment holds with the new stop. -/
theorem chainSeg_retarget {s s' : StringMap} {lvl : Nat} :
    ∀ (c : List Nat) (a : Nat) {stop stop' : Option Nat},
      chainSeg s lvl (a :: c) stop →
      (∀ i ∈ (a :: c).dropLast, nextOf s' i lvl = nextOf s i lvl) →
      nextOf s' (c.getLastD a) lvl = stop' →
      chainSeg s' lvl (a :: c) stop'
  | [], a, _, _, _, _, hlast => hlast
  | b :: c, a, stop, stop', h, hmid, hlast => by
    rw [chainSeg_cons_iff] at h ⊢
    refine ⟨?_, ?_⟩
    · rw [hmid a (by rw [List.dropLast_cons₂]; exact .head _)]
      exact h.1
    · refine chainSeg_retarget c b h.2 (fun i hi => hmid i ?_) ?_
      · rw [List.dropLast_cons₂]; exact .tail _ hi
      · rw [List.getLastD_cons] at hlast; exact hlast

/-! ## The walk lemma -/

/-- The Boolean test steering every walk: the node at `i` compares strictly
below the target. -/
def belowTarget (s : StringMap) (score : Nat) (key : String) (i : Nat) : Bool :=
  decide (cmpAt s i score key < 0)

theorem walkLevel_seg {s : StringMap} {score : Nat} {key : String} {lvl : Nat} :
    ∀ (S : List Nat) (x fuel : Nat), chainSeg s lvl (x :: S) none →
      S.length ≤ fuel →
      walkLevel s score key lvl fuel x =
        ((S.takeWhile (belowTarget s score key)).getLastD x,
         (S.dropWhile (belowTarget s score key)).head?)
  | [], x, fuel, hc, _ => by
    have hnx : nextOf s x lvl = none := hc
    cases fuel <;> simp [walkLevel, hnx]
  | b :: S, x, fuel, hc, hf => by
    rw [chainSeg_cons_iff] at hc
    obtain ⟨fuel, rfl⟩ : ∃ f, fuel = f + 1 := ⟨fuel - 1, by simp at hf; omega⟩
    have hx : nextOf s x lvl = some b := hc.1
    by_cases hpb : cmpAt s b score key < 0
    · have hb : belowTarget s score key b = true := decide_eq_true hpb
      rw [show walkLevel s score key lvl (fuel+1) x = walkLevel s score key lvl fuel b by
        simp only [walkLevel, hx]; rw [if_pos hpb]]
      rw [walkLevel_seg S b fuel hc.2 (by simp at hf; omega)]
      rw [List.takeWhile_cons_of_pos hb, List.dropWhile_cons_of_pos hb,
        List.getLastD_cons]
    · have hb : belowTarget s score key b = false := decide_eq_false hpb
      rw [show walkLevel s score key lvl (fuel+1) x = (x, some b) by
        simp only [walkLevel, hx]; rw [if_neg hpb]]
      rw [List.takeWhile_cons_of_neg (by simp [hb]), List.dropWhile_cons_of_neg (by simp [hb])]
      simp

/-! ## Projections of the invariant -/

theorem Inv.header0 {hash : String → Nat} {s : StringMap} {L : List Nat}
    (h : Inv hash s L) : s.header = 0 := h.1

theorem Inv.hdOk {hash : String → Nat} {s : StringMap} {L : List Nat}
    (h : Inv hash s L) : headerOk hash s := h.2.1

theorem Inv.memBound {hash : String → Nat} {s : StringMap} {L : List Nat}
    (h : Inv hash s L) : ∀ i ∈ L, i < s.nodes.length ∧ i ≠ 0 := h.2.2.1

theorem Inv.nodesOk {hash : String → Nat} {s : StringMap} {L : List Nat}
    (h : Inv hash s L) : ∀ i ∈ L, nodeOk hash s i := h.2.2.2.1

theorem Inv.sorted {hash : String → Nat} {s : StringMap} {L : List Nat}
    (h : Inv hash s L) : L.Pairwise (nodeLt s) := h.2.2.2.2.1

theorem Inv.chains {hash : String → Nat} {s : StringMap} {L : List Nat}
    (h : Inv hash s L) :
    ∀ lvl, lvl < maxLevel → linked s lvl (0 :: chainAt s L lvl) := h.2.2.2.2.2.1

theorem Inv.size {hash : String → Nat} {s : StringMap} {L : List Nat}
    (h : Inv hash s L) : s.length = (L.length : Int) := h.2.2.2.2.2.2

theorem Inv.hd_node {hash : String → Nat} {s : StringMap} {L : List Nat}
    (h : Inv hash s L) :
    ∃ hd, nodeAt s 0 = some hd ∧ hd.key = "" ∧ hd.score = hash "" ∧
      hd.fullyLinked = true ∧ hd.marked = false ∧ hd.next.length = maxLevel := by
  have hh := h.hdOk
  unfold headerOk at hh
  rcases hnd : nodeAt s 0 with _ | hd
  · rw [hnd] at hh; exact hh.elim
  · rw [hnd] at hh
    exact ⟨hd, rfl, hh.1, hh.2.1, hh.2.2.1, hh.2.2.2.1, hh.2.2.2.2⟩

theorem Inv.node_mem {hash : String → Nat} {s : StringMap} {L : List Nat}
    (h : Inv hash s L) {i : Nat} (hi : i ∈ L) :
    ∃ n, nodeAt s i = some n ∧ n.score = hash n.key ∧ n.fullyLinked = true ∧
      1 ≤ n.next.length ∧ n.next.length ≤ maxLevel := by
  have hh := h.nodesOk i hi
  unfold nodeOk at hh
  rcases hnd : nodeAt s i with _ | n
  · rw [hnd] at hh; exact hh.elim
  · rw [hnd] at hh
    exact ⟨n, rfl, hh⟩

theorem mem_chainAt {s : StringMap} {L : List Nat} {lvl i : Nat} :
    i ∈ chainAt s L lvl ↔ i ∈ L ∧ lvl < heightOf s i := by
  simp [chainAt, List.mem_filter]

theorem chainAt_sublist (s : StringMap) (L : List Nat) (lvl : Nat) :
    List.Sublist (chainAt s L lvl) L := List.filter_sublist L

theorem Inv.chain_sorted {hash : String → Nat} {s : StringMap} {L : List Nat}
    (h : Inv hash s L) (lvl : Nat) : (chainAt s L lvl).Pairwise (nodeLt s) :=
  List.Pairwise.sublist (chainAt_sublist s L lvl) h.sorted

theorem pairwise_nodeLt_nodup {s : StringMap} {c : List Nat}
    (h : c.Pairwise (nodeLt s)) : c.Nodup := by
  refine h.imp ?_
  intro a b hab heq
  subst heq
  exact pairLt_irrefl _ hab

theorem Inv.chain_len {hash : String → Nat} {s : StringMap} {L : List Nat}
    (h : Inv hash s L) (lvl : Nat) : (chainAt s L lvl).length ≤ s.nodes.length :=
  length_le_of_nodup_bound (pairwise_nodeLt_nodup (h.chain_sorted lvl))
    fun i hi => (h.memBound i (mem_chainAt.mp hi).1).1

theorem Inv.chain_present {hash : String → Nat} {s : StringMap} {L : List Nat}
    (h : Inv hash s L) (lvl : Nat) :
    ∀ i ∈ chainAt s L lvl, ∃ n, nodeAt s i = some n := fun i hi =>
  (h.node_mem (mem_chainAt.mp hi).1).imp fun _ hn => hn.1

theorem Inv.chainAt_zero {hash : String → Nat} {s : StringMap} {L : List Nat}
    (h : Inv hash s L) : chainAt s L 0 = L := by
  unfold chainAt
  apply List.filter_eq_self.mpr
  intro i hi
  obtain ⟨n, hn, _, _, h1, _⟩ := h.node_mem hi
  simp only [heightOf, hn, decide_eq_true_eq]
  omega

/-! ## Sorted-chain facts about the target -/

theorem belowTarget_iff {s : StringMap} {i score : Nat} {key : String} {n : stringNode}
    (hn : nodeAt s i = some n) :
    belowTarget s score key i = true ↔ pairLt (scoreKeyAt s i) (score, key) := by
  rw [belowTarget, decide_eq_true_eq]
  simp only [cmpAt, hn, scoreKeyAt, scoreAt, keyAt]
  exact cmp_lt_iff n score key

theorem cmpAt_zero_iff {s : StringMap} {i score : Nat} {key : String} {n : stringNode}
    (hn : nodeAt s i = some n) :
    cmpAt s i score key = 0 ↔ scoreKeyAt s i = (score, key) := by
  simp only [cmpAt, hn, scoreKeyAt, scoreAt, keyAt, Prod.mk.injEq]
  exact cmp_eq_zero_iff n score key

theorem pairwise_mem_cases {α : Type} {R : α → α → Prop} :
    ∀ {c : List α} {a b : α}, c.Pairwise R → a ∈ c → b ∈ c → a = b ∨ R a b ∨ R b a := by
  intro c
  induction c with
  | nil => intro a b _ ha _; cases ha
  | cons x c ih =>
    intro a b h ha hb
    rw [List.pairwise_cons] at h
    rcases List.mem_cons.mp ha with rfl | ha2
    · rcases List.mem_cons.mp hb with rfl | hb2
      · exact .inl rfl
      · exact .inr (.inl (h.1 b hb2))
    · rcases List.mem_cons.mp hb with rfl | hb2
      · exact .inr (.inr (h.1 a ha2))
      · exact ih h.2 ha2 hb2

theorem dropWhile_not_below {s : StringMap} {score : Nat} {key : String} {c : List Nat}
    (hs : c.Pairwise (nodeLt s)) (hpres : ∀ i ∈ c, ∃ n, nodeAt s i = some n) :
    ∀ i ∈ c.dropWhile (belowTarget s score key),
      belowTarget s score key i = false := by
  intro i hi
  cases hdw : c.dropWhile (belowTarget s score key) with
  | nil => rw [hdw] at hi; cases hi
  | cons h t =>
    have hsub : List.Sublist (c.dropWhile (belowTarget s score key)) c :=
      List.dropWhile_sublist _
    have hh : belowTarget s score key h = false := by
      have hx := List.head?_dropWhile_not (belowTarget s score key) c
      rw [hdw] at hx; simp at hx; exact hx
    rw [hdw] at hi
    rcases List.mem_cons.mp hi with rfl | hi
    · exact hh
    · have hps : (h :: t).Pairwise (nodeLt s) := hdw ▸ List.Pairwise.sublist hsub hs
      have hlt : nodeLt s h i := (List.pairwise_cons.mp hps).1 i hi
      obtain ⟨nh, hnh⟩ := hpres h (hsub.subset (hdw ▸ List.mem_cons_self h t))
      obtain ⟨ni, hni⟩ := hpres i (hsub.subset (hdw ▸ List.mem_cons.mpr (.inr hi)))
      rw [belowTarget, decide_eq_false_iff_not]
      intro hcmp
      have h1 : pairLt (scoreKeyAt s i) (score, key) := by
        rw [← belowTarget_iff hni, belowTarget, decide_eq_true_eq]; exact hcmp
      have h2 : pairLt (scoreKeyAt s h) (score, key) := pairLt_trans hlt h1
      rw [← belowTarget_iff hnh] at h2
      rw [hh] at h2
      cases h2

theorem mem_takeWhile_of_below {s : StringMap} {score : Nat} {key : String}
    {c : List Nat} {i : Nat}
    (hs : c.Pairwise (nodeLt s)) (hpres : ∀ j ∈ c, ∃ n, nodeAt s j = some n)
    (hi : i ∈ c) (hb : belowTarget s score key i = true) :
    i ∈ c.takeWhile (belowTarget s score key) := by
  have hsplit := List.takeWhile_append_dropWhile (p := belowTarget s score key) (l := c)
  rcases List.mem_append.mp (by rw [hsplit]; exact hi) with h | h
  · exact h
  · rw [dropWhile_not_below hs hpres i h] at hb
    cases hb

theorem head_dropWhile_match {s : StringMap} {score : Nat} {key : String}
    {c : List Nat} {j : Nat}
    (hs : c.Pairwise (nodeLt s)) (hpres : ∀ i ∈ c, ∃ n, nodeAt s i = some n)
    (hj : j ∈ c) (hcmp : cmpAt s j score key = 0) :
    (c.dropWhile (belowTarget s score key)).head? = some j := by
  obtain ⟨nj, hnj⟩ := hpres j hj
  have hjpair : scoreKeyAt s j = (score, key) := (cmpAt_zero_iff hnj).mp hcmp
  have hjnb : belowTarget s score key j = false := by
    rw [← Bool.not_eq_true, belowTarget_iff hnj, hjpair]
    exact pairLt_irrefl (score, key)
  have hsplit := List.takeWhile_append_dropWhile (p := belowTarget s score key) (l := c)
  have hjdw : j ∈ c.dropWhile (belowTarget s score key) := by
    rcases List.mem_append.mp (by rw [hsplit]; exact hj) with h | h
    · rw [List.mem_takeWhile_imp h] at hjnb; cases hjnb
    · exact h
  cases hdw : c.dropWhile (belowTarget s score key) with
  | nil => rw [hdw] at hjdw; cases hjdw
  | cons h t =>
    rw [hdw] at hjdw
    rcases List.mem_cons.mp hjdw with rfl | hjt
    · rfl
    · exfalso
      have hsub : List.Sublist (c.dropWhile (belowTarget s score key)) c :=
      List.dropWhile_sublist _
      have hps : (h :: t).Pairwise (nodeLt s) := hdw ▸ List.Pairwise.sublist hsub hs
      have hlt : nodeLt s h j := (List.pairwise_cons.mp hps).1 j hjt
      obtain ⟨nh, hnh⟩ := hpres h (hsub.subset (hdw ▸ List.mem_cons_self h t))
      have hhb : belowTarget s score key h = true := by
        rw [belowTarget_iff hnh, ← hjpair]; exact hlt
      have hhf : belowTarget s score key h = false := by
        have hx := List.head?_dropWhile_not (belowTarget s score key) c
        rw [hdw] at hx; simp at hx; exact hx
      rw [hhb] at hhf; cases hhf

theorem dropWhile_gt_of_noMatch {s : StringMap} {score : Nat} {key : String}
    {c : List Nat}
    (hs : c.Pairwise (nodeLt s)) (hpres : ∀ i ∈ c, ∃ n, nodeAt s i = some n)
    (hnm : ∀ j ∈ c, cmpAt s j score key ≠ 0) :
    ∀ i ∈ c.dropWhile (belowTarget s score key),
      pairLt (score, key) (scoreKeyAt s i) := by
  intro i hi
  have hsub : List.Sublist (c.dropWhile (belowTarget s score key)) c :=
    List.dropWhile_sublist _
  obtain ⟨ni, hni⟩ := hpres i (hsub.subset hi)
  have h1 : belowTarget s score key i = false := dropWhile_not_below hs hpres i hi
  have h2 : ¬ pairLt (scoreKeyAt s i) (score, key) := by
    rw [← belowTarget_iff hni, h1]; simp
  have h3 : scoreKeyAt s i ≠ (score, key) := by
    intro hEq
    exact hnm i (hsub.subset hi) ((cmpAt_zero_iff hni).mpr hEq)
  rcases Classical.em (pairLt (score, key) (scoreKeyAt s i)) with h | h
  · exact h
  · exact absurd (eq_of_not_pairLt h2 h) h3

theorem match_unique {s : StringMap} {score : Nat} {key : String} {c : List Nat}
    {j j' : Nat}
    (hs : c.Pairwise (nodeLt s)) (hpres : ∀ i ∈ c, ∃ n, nodeAt s i = some n)
    (hj : j ∈ c) (hj' : j' ∈ c)
    (h1 : cmpAt s j score key = 0) (h2 : cmpAt s j' score key = 0) : j = j' := by
  obtain ⟨nj, hnj⟩ := hpres j hj
  obtain ⟨nj', hnj'⟩ := hpres j' hj'
  have e1 : scoreKeyAt s j = (score, key) := (cmpAt_zero_iff hnj).mp h1
  have e2 : scoreKeyAt s j' = (score, key) := (cmpAt_zero_iff hnj').mp h2
  rcases pairwise_mem_cases hs hj hj' with h | h | h
  · exact h
  · exfalso; rw [nodeLt, e1, e2] at h; exact pairLt_irrefl _ h
  · exfalso; rw [nodeLt, e1, e2] at h; exact pairLt_irrefl _ h

/-! ## The walk on a well-formed state, and the level descent -/

theorem walk_at_level {hash : String → Nat} {s : StringMap} {L : List Nat}
    {score : Nat} {key : String} {lvl x : Nat}
    (hI : Inv hash s L) (hlvl : lvl < maxLevel)
    (hx : x = 0 ∨ x ∈ (chainAt s L lvl).takeWhile (belowTarget s score key)) :
    walkLevel s score key lvl s.nodes.length x =
      (((chainAt s L lvl).takeWhile (belowTarget s score key)).getLastD 0,
       ((chainAt s L lvl).dropWhile (belowTarget s score key)).head?) := by
  have hchain : chainSeg s lvl (0 :: chainAt s L lvl) none := hI.chains lvl hlvl
  rcases hx with rfl | hx
  · exact walkLevel_seg (chainAt s L lvl) 0 s.nodes.length hchain (hI.chain_len lvl)
  · obtain ⟨T₁, T₂, htw⟩ := List.append_of_mem hx
    have hsplit : chainAt s L lvl =
        T₁ ++ x :: (T₂ ++ (chainAt s L lvl).dropWhile (belowTarget s score key)) := by
      conv_lhs => rw [← List.takeWhile_append_dropWhile
        (p := belowTarget s score key) (l := chainAt s L lvl)]
      rw [htw]
      simp
    have h1 : chainSeg s lvl ((0 :: T₁) ++
        (x :: (T₂ ++ (chainAt s L lvl).dropWhile (belowTarget s score key)))) none := by
      rw [show (0 :: T₁) ++
          (x :: (T₂ ++ (chainAt s L lvl).dropWhile (belowTarget s score key))) =
          0 :: chainAt s L lvl by rw [List.cons_append, ← hsplit]]
      exact hchain
    have h2 := ((chainSeg_append (0 :: T₁) _ none).mp h1).2
    have hlen : (T₂ ++ (chainAt s L lvl).dropWhile (belowTarget s score key)).length ≤
        s.nodes.length := by
      have hc := hI.chain_len lvl
      have he : (chainAt s L lvl).length =
          T₁.length + 1 +
            (T₂ ++ (chainAt s L lvl).dropWhile (belowTarget s score key)).length := by
        conv_lhs => rw [hsplit]
        simp
        omega
      omega
    rw [walkLevel_seg _ x _ h2 hlen]
    have hT₂ : ∀ a ∈ T₂, belowTarget s score key a = true := by
      intro a ha
      apply List.mem_takeWhile_imp (l := chainAt s L lvl)
      rw [htw]
      exact List.mem_append.mpr (.inr (.tail _ ha))
    rw [takeWhile_append_all hT₂, takeWhile_dropWhile_nil, List.append_nil,
      dropWhile_append_all hT₂, dropWhile_dropWhile]
    congr 1
    rw [htw, getLastD_append_cons]

theorem pred_transfer {hash : String → Nat} {s : StringMap} {L : List Nat}
    {score : Nat} {key : String} {lvl₁ lvl₂ : Nat}
    (hI : Inv hash s L) (hle : lvl₂ ≤ lvl₁) :
    ((chainAt s L lvl₁).takeWhile (belowTarget s score key)).getLastD 0 = 0 ∨
      ((chainAt s L lvl₁).takeWhile (belowTarget s score key)).getLastD 0 ∈
        (chainAt s L lvl₂).takeWhile (belowTarget s score key) := by
  rcases getLastD_cases ((chainAt s L lvl₁).takeWhile (belowTarget s score key)) 0
    with h | h
  · exact .inl h
  · right
    generalize hy : ((chainAt s L lvl₁).takeWhile (belowTarget s score key)).getLastD 0 = y
      at h ⊢
    have hb : belowTarget s score key y = true := List.mem_takeWhile_imp h
    have hmemc : y ∈ chainAt s L lvl₁ := (List.takeWhile_sublist _).subset h
    have hm := mem_chainAt.mp hmemc
    exact mem_takeWhile_of_below (hI.chain_sorted lvl₂) (hI.chain_present lvl₂)
      (mem_chainAt.mpr ⟨hm.1, by omega⟩) hb

/-- The predecessor/successor pair the search records at each level below
`lvl`, on a well-formed state. -/
def psArr (s : StringMap) (score : Nat) (key : String) (L : List Nat) (lvl : Nat) :
    List (Nat × Option Nat) :=
  (List.range lvl).map fun l =>
    (((chainAt s L l).takeWhile (belowTarget s score key)).getLastD 0,
     ((chainAt s L l).dropWhile (belowTarget s score key)).head?)

theorem psArr_succ (s : StringMap) (score : Nat) (key : String) (L : List Nat)
    (lvl : Nat) :
    psArr s score key L (lvl+1) = psArr s score key L lvl ++
      [(((chainAt s L lvl).takeWhile (belowTarget s score key)).getLastD 0,
        ((chainAt s L lvl).dropWhile (belowTarget s score key)).head?)] := by
  rw [psArr, psArr, List.range_succ, List.map_append, List.map_singleton]

theorem isEqMatch_noMatch {hash : String → Nat} {s : StringMap} {L : List Nat}
    {score : Nat} {key : String}
    (hI : Inv hash s L) (lvl : Nat)
    (hnm : ∀ j ∈ chainAt s L lvl, cmpAt s j score key ≠ 0) :
    isEqMatch s ((chainAt s L lvl).dropWhile (belowTarget s score key)).head?
      score key = false := by
  cases hdw : ((chainAt s L lvl).dropWhile (belowTarget s score key)).head? with
  | none => rfl
  | some j =>
    have hj : j ∈ chainAt s L lvl :=
      (List.dropWhile_sublist _).subset (List.mem_of_mem_head? hdw)
    simp only [isEqMatch, beq_eq_false_iff_ne, ne_eq]
    exact hnm j hj

theorem isEqMatch_some_true {s : StringMap} {j score : Nat} {key : String}
    (h : cmpAt s j score key = 0) : isEqMatch s (some j) score key = true := by
  simp [isEqMatch, h]

/-- Above the unique match's top layer, no chain node compares equal. -/
theorem chain_noMatch_high {hash : String → Nat} {s : StringMap} {L : List Nat}
    {score j : Nat} {key : String} {nj : stringNode}
    (hI : Inv hash s L) (hj : j ∈ L) (hnj : nodeAt s j = some nj)
    (hcmp : cmpAt s j score key = 0) (lvl : Nat) (hlv : nj.next.length ≤ lvl) :
    ∀ i ∈ chainAt s L lvl, cmpAt s i score key ≠ 0 := by
  intro i hi hcmpi
  have hiL := (mem_chainAt.mp hi).1
  have hij : i = j :=
    match_unique hI.sorted (fun a ha => (hI.node_mem ha).imp fun _ h => h.1)
      hiL hj hcmpi hcmp
  subst hij
  have hh := (mem_chainAt.mp hi).2
  simp only [heightOf, hnj] at hh
  omega

theorem match_mem_chain_low {hash : String → Nat} {s : StringMap} {L : List Nat}
    {lvl j : Nat} {nj : stringNode}
    (hI : Inv hash s L) (hj : j ∈ L) (hnj : nodeAt s j = some nj)
    (hlv : lvl < nj.next.length) : j ∈ chainAt s L lvl :=
  mem_chainAt.mpr ⟨hj, by simp only [heightOf, hnj]; omega⟩

theorem dw_head_match {hash : String → Nat} {s : StringMap} {L : List Nat}
    {score j : Nat} {key : String} {nj : stringNode}
    (hI : Inv hash s L) (hj : j ∈ L) (hnj : nodeAt s j = some nj)
    (hcmp : cmpAt s j score key = 0) (lvl : Nat) (hlv : lvl < nj.next.length) :
    ((chainAt s L lvl).dropWhile (belowTarget s score key)).head? = some j :=
  head_dropWhile_match (hI.chain_sorted lvl) (hI.chain_present lvl)
    (match_mem_chain_low hI hj hnj hlv) hcmp

theorem match_height_pos {hash : String → Nat} {s : StringMap} {L : List Nat}
    {j : Nat} {nj : stringNode}
    (hI : Inv hash s L) (hj : j ∈ L) (hnj : nodeAt s j = some nj) :
    1 ≤ nj.next.length ∧ nj.next.length ≤ maxLevel ∧ nj.fullyLinked = true ∧
      nj.score = hash nj.key := by
  obtain ⟨n, hn, hsc, hfl, h1, h2⟩ := hI.node_mem hj
  rw [hn] at hnj
  injection hnj with he
  subst he
  exact ⟨h1, h2, hfl, hsc⟩

/-! ### One-step unfoldings of the level descents -/

theorem findNodeAux_step (s : StringMap) (score : Nat) (key : String) (lvl x : Nat) :
    findNodeAux s score key (lvl+1) x =
      (let ps := walkLevel s score key lvl s.nodes.length x
       if isEqMatch s ps.2 score key then .inl (ps.2.getD 0)
       else
         match findNodeAux s score key lvl ps.1 with
         | .inl j => .inl j
         | .inr rest => .inr (rest ++ [ps])) := rfl

theorem findNodeDeleteAux_step (s : StringMap) (score : Nat) (key : String) (lvl x : Nat) :
    findNodeDeleteAux s score key (lvl+1) x =
      (let ps := walkLevel s score key lvl s.nodes.length x
       let r := findNodeDeleteAux s score key lvl ps.1
       (r.1 ++ [ps], if isEqMatch s ps.2 score key then some lvl else r.2)) := rfl

theorem LoadAux_step (s : StringMap) (score : Nat) (key : String) (lvl x : Nat) :
    LoadAux s score key (lvl+1) x =
      (let ps := walkLevel s score key lvl s.nodes.length x
       match ps.2 with
       | some j =>
         match nodeAt s j with
         | some n =>
           if n.cmp score key = 0 then
             if n.observable then (n.value, true) else (.nil, false)
           else LoadAux s score key lvl ps.1
         | none => LoadAux s score key lvl ps.1
       | none => LoadAux s score key lvl ps.1) := rfl

/-! ### `findNode` -/

theorem findNodeAux_noMatch {hash : String → Nat} {s : StringMap} {L : List Nat}
    {score : Nat} {key : String}
    (hI : Inv hash s L) (hnm : ∀ j ∈ L, cmpAt s j score key ≠ 0) :
    ∀ lvl, lvl < maxLevel → ∀ x,
      (x = 0 ∨ x ∈ (chainAt s L lvl).takeWhile (belowTarget s score key)) →
      findNodeAux s score key (lvl+1) x = .inr (psArr s score key L (lvl+1)) := by
  intro lvl
  induction lvl with
  | zero =>
    intro h0 x hx
    have hw := walk_at_level hI h0 hx
    have hme := isEqMatch_noMatch hI 0 fun j hj => hnm j (mem_chainAt.mp hj).1
    rw [findNodeAux_step]
    simp only [hw, hme, Bool.false_eq_true, if_false]
    rw [psArr_succ]
    rfl
  | succ lvl ih =>
    intro hlt x hx
    have hw := walk_at_level hI hlt hx
    have hme := isEqMatch_noMatch hI (lvl+1) fun j hj => hnm j (mem_chainAt.mp hj).1
    rw [findNodeAux_step]
    simp only [hw, hme, Bool.false_eq_true, if_false]
    rw [ih (by omega) _ (pred_transfer hI (Nat.le_succ lvl)),
      psArr_succ s score key L (lvl+1)]

theorem findNodeAux_match {hash : String → Nat} {s : StringMap} {L : List Nat}
    {score : Nat} {key : String} {j : Nat} {nj : stringNode}
    (hI : Inv hash s L) (hj : j ∈ L) (hnj : nodeAt s j = some nj)
    (hcmp : cmpAt s j score key = 0) :
    ∀ lvl, nj.next.length - 1 ≤ lvl → lvl < maxLevel → ∀ x,
      (x = 0 ∨ x ∈ (chainAt s L lvl).takeWhile (belowTarget s score key)) →
      findNodeAux s score key (lvl+1) x = .inl j := by
  have hx1 := (match_height_pos hI hj hnj).1
  intro lvl hge
  induction lvl, hge using Nat.le_induction with
  | base =>
    intro hlt x hx
    have hw := walk_at_level hI hlt hx
    have hdw := dw_head_match hI hj hnj hcmp (nj.next.length - 1) (by omega)
    rw [findNodeAux_step]
    simp only [hw, hdw, isEqMatch_some_true hcmp, if_true, Option.getD_some]
  | succ lvl hge ih =>
    intro hlt x hx
    have hw := walk_at_level hI hlt hx
    have hme := isEqMatch_noMatch hI (lvl+1)
      (chain_noMatch_high hI hj hnj hcmp (lvl+1) (by omega))
    rw [findNodeAux_step]
    simp only [hw, hme, Bool.false_eq_true, if_false]
    rw [ih (by omega) _ (pred_transfer hI (Nat.le_succ lvl))]

theorem findNode_noMatch {hash : String → Nat} {s : StringMap} {L : List Nat}
    {key : String}
    (hI : Inv hash s L) (hnm : ∀ j ∈ L, cmpAt s j (hash key) key ≠ 0) :
    findNode hash s key = .inr (psArr s (hash key) key L maxLevel) := by
  rw [findNode, hI.header0, show maxLevel = (maxLevel - 1) + 1 from rfl]
  exact findNodeAux_noMatch hI hnm (maxLevel - 1) (by decide) 0 (.inl rfl)

theorem findNode_match {hash : String → Nat} {s : StringMap} {L : List Nat}
    {key : String} {j : Nat} {nj : stringNode}
    (hI : Inv hash s L) (hj : j ∈ L) (hnj : nodeAt s j = some nj)
    (hcmp : cmpAt s j (hash key) key = 0) :
    findNode hash s key = .inl j := by
  have hb := (match_height_pos hI hj hnj).2.1
  rw [findNode, hI.header0, show maxLevel = (maxLevel - 1) + 1 from rfl]
  exact findNodeAux_match hI hj hnj hcmp (maxLevel - 1)
    (by simp only [maxLevel] at hb ⊢; omega) (by decide) 0 (.inl rfl)

/-! ### `findNodeDelete` -/

theorem findNodeDeleteAux_noMatch {hash : String → Nat} {s : StringMap} {L : List Nat}
    {score : Nat} {key : String}
    (hI : Inv hash s L) (hnm : ∀ j ∈ L, cmpAt s j score key ≠ 0) :
    ∀ lvl, lvl < maxLevel → ∀ x,
      (x = 0 ∨ x ∈ (chainAt s L lvl).takeWhile (belowTarget s score key)) →
      findNodeDeleteAux s score key (lvl+1) x = (psArr s score key L (lvl+1), none) := by
  intro lvl
  induction lvl with
  | zero =>
    intro h0 x hx
    have hw := walk_at_level hI h0 hx
    have hme := isEqMatch_noMatch hI 0 fun j hj => hnm j (mem_chainAt.mp hj).1
    rw [findNodeDeleteAux_step]
    simp only [hw, hme, Bool.false_eq_true, if_false]
    rw [psArr_succ]
    exact rfl
  | succ lvl ih =>
    intro hlt x hx
    have hw := walk_at_level hI hlt hx
    have hme := isEqMatch_noMatch hI (lvl+1) fun j hj => hnm j (mem_chainAt.mp hj).1
    rw [findNodeDeleteAux_step]
    simp only [hw, hme, Bool.false_eq_true, if_false]
    rw [ih (by omega) _ (pred_transfer hI (Nat.le_succ lvl)),
      psArr_succ s score key L (lvl+1)]

theorem findNodeDeleteAux_matchLow {hash : String → Nat} {s : StringMap} {L : List Nat}
    {score : Nat} {key : String} {j : Nat} {nj : stringNode}
    (hI : Inv hash s L) (hj : j ∈ L) (hnj : nodeAt s j = some nj)
    (hcmp : cmpAt s j score key = 0) :
    ∀ lvl, lvl ≤ nj.next.length - 1 → ∀ x,
      (x = 0 ∨ x ∈ (chainAt s L lvl).takeWhile (belowTarget s score key)) →
      findNodeDeleteAux s score key (lvl+1) x = (psArr s score key L (lvl+1), some lvl) := by
  have hx1 := (match_height_pos hI hj hnj).1
  intro lvl
  induction lvl with
  | zero =>
    intro h0 x hx
    have hw := walk_at_level hI (by simp [maxLevel]) hx
    have hdw := dw_head_match hI hj hnj hcmp 0 (by omega)
    rw [findNodeDeleteAux_step]
    simp only [hw, hdw, isEqMatch_some_true hcmp, if_true]
    rw [psArr_succ, hdw]
    rfl
  | succ lvl ih =>
    intro hle x hx
    have hb := (match_height_pos hI hj hnj).2.1
    have hw := walk_at_level hI (by simp only [maxLevel] at hb ⊢; omega) hx
    have hdw := dw_head_match hI hj hnj hcmp (lvl+1) (by omega)
    rw [findNodeDeleteAux_step]
    simp only [hw, hdw, isEqMatch_some_true hcmp, if_true]
    rw [ih (by omega) _ (pred_transfer hI (Nat.le_succ lvl)),
      psArr_succ s score key L (lvl+1), hdw]

theorem findNodeDeleteAux_matchHigh {hash : String → Nat} {s : StringMap} {L : List Nat}
    {score : Nat} {key : String} {j : Nat} {nj : stringNode}
    (hI : Inv hash s L) (hj : j ∈ L) (hnj : nodeAt s j = some nj)
    (hcmp : cmpAt s j score key = 0) :
    ∀ lvl, nj.next.length - 1 ≤ lvl → lvl < maxLevel → ∀ x,
      (x = 0 ∨ x ∈ (chainAt s L lvl).takeWhile (belowTarget s score key)) →
      findNodeDeleteAux s score key (lvl+1) x =
        (psArr s score key L (lvl+1), some (nj.next.length - 1)) := by
  intro lvl hge
  induction lvl, hge using Nat.le_induction with
  | base =>
    intro hlt x hx
    exact findNodeDeleteAux_matchLow hI hj hnj hcmp _ (le_refl _) x hx
  | succ lvl hge ih =>
    intro hlt x hx
    have hw := walk_at_level hI hlt hx
    have hme := isEqMatch_noMatch hI (lvl+1)
      (chain_noMatch_high hI hj hnj hcmp (lvl+1) (by omega))
    rw [findNodeDeleteAux_step]
    simp only [hw, hme, Bool.false_eq_true, if_false]
    rw [ih (by omega) _ (pred_transfer hI (Nat.le_succ lvl)),
      psArr_succ s score key L (lvl+1)]

theorem findNodeDelete_noMatch {hash : String → Nat} {s : StringMap} {L : List Nat}
    {key : String}
    (hI : Inv hash s L) (hnm : ∀ j ∈ L, cmpAt s j (hash key) key ≠ 0) :
    findNodeDelete hash s key = (psArr s (hash key) key L maxLevel, none) := by
  rw [findNodeDelete, hI.header0, show maxLevel = (maxLevel - 1) + 1 from rfl]
  exact findNodeDeleteAux_noMatch hI hnm (maxLevel - 1) (by decide) 0 (.inl rfl)

theorem findNodeDelete_match {hash : String → Nat} {s : StringMap} {L : List Nat}
    {key : String} {j : Nat} {nj : stringNode}
    (hI : Inv hash s L) (hj : j ∈ L) (hnj : nodeAt s j = some nj)
    (hcmp : cmpAt s j (hash key) key = 0) :
    findNodeDelete hash s key =
      (psArr s (hash key) key L maxLevel, some (nj.next.length - 1)) := by
  have hb := (match_height_pos hI hj hnj).2.1
  rw [findNodeDelete, hI.header0, show maxLevel = (maxLevel - 1) + 1 from rfl]
  exact findNodeDeleteAux_matchHigh hI hj hnj hcmp (maxLevel - 1)
    (by simp only [maxLevel] at hb ⊢; omega) (by decide) 0 (.inl rfl)

/-! ### `Load` -/

theorem LoadAux_noMatch {hash : String → Nat} {s : StringMap} {L : List Nat}
    {score : Nat} {key : String}
    (hI : Inv hash s L) (hnm : ∀ j ∈ L, cmpAt s j score key ≠ 0) :
    ∀ lvl, lvl < maxLevel → ∀ x,
      (x = 0 ∨ x ∈ (chainAt s L lvl).takeWhile (belowTarget s score key)) →
      LoadAux s score key (lvl+1) x = (.nil, false) := by
  intro lvl
  induction lvl with
  | zero =>
    intro h0 x hx
    have hw := walk_at_level hI h0 hx
    rw [LoadAux_step]
    simp only [hw]
    cases hdw : ((chainAt s L 0).dropWhile (belowTarget s score key)).head? with
    | none => rfl
    | some i =>
      have hic : i ∈ chainAt s L 0 :=
        (List.dropWhile_sublist _).subset (List.mem_of_mem_head? hdw)
      obtain ⟨n, hn⟩ := hI.chain_present 0 i hic
      have hnc : ¬ n.cmp score key = 0 := by
        have := hnm i (mem_chainAt.mp hic).1
        simpa [cmpAt, hn] using this
      simp only [hn, hnc, if_false]
      rfl
  | succ lvl ih =>
    intro hlt x hx
    have hw := walk_at_level hI hlt hx
    have hih := ih (by omega) _ (pred_transfer hI (Nat.le_succ lvl))
    rw [LoadAux_step]
    simp only [hw]
    cases hdw : ((chainAt s L (lvl+1)).dropWhile (belowTarget s score key)).head? with
    | none => exact hih
    | some i =>
      have hic : i ∈ chainAt s L (lvl+1) :=
        (List.dropWhile_sublist _).subset (List.mem_of_mem_head? hdw)
      obtain ⟨n, hn⟩ := hI.chain_present (lvl+1) i hic
      have hnc : ¬ n.cmp score key = 0 := by
        have := hnm i (mem_chainAt.mp hic).1
        simpa [cmpAt, hn] using this
      simp only [hn, hnc, if_false]
      exact hih

theorem LoadAux_match {hash : String → Nat} {s : StringMap} {L : List Nat}
    {score : Nat} {key : String} {j : Nat} {nj : stringNode}
    (hI : Inv hash s L) (hj : j ∈ L) (hnj : nodeAt s j = some nj)
    (hcmp : cmpAt s j score key = 0) :
    ∀ lvl, nj.next.length - 1 ≤ lvl → lvl < maxLevel → ∀ x,
      (x = 0 ∨ x ∈ (chainAt s L lvl).takeWhile (belowTarget s score key)) →
      LoadAux s score key (lvl+1) x =
        (if nj.observable then (nj.value, true) else (.nil, false)) := by
  have hx1 := (match_height_pos hI hj hnj).1
  intro lvl hge
  induction lvl, hge using Nat.le_induction with
  | base =>
    intro hlt x hx
    have hw := walk_at_level hI hlt hx
    have hdw := dw_head_match hI hj hnj hcmp (nj.next.length - 1) (by omega)
    have hc : nj.cmp score key = 0 := by simpa [cmpAt, hnj] using hcmp
    rw [LoadAux_step]
    simp only [hw, hdw, hnj, hc, if_true]
  | succ lvl hge ih =>
    intro hlt x hx
    have hw := walk_at_level hI hlt hx
    have hnm := chain_noMatch_high hI hj hnj hcmp (lvl+1) (by omega)
    have hih := ih (by omega) _ (pred_transfer hI (Nat.le_succ lvl))
    rw [LoadAux_step]
    simp only [hw]
    cases hdw : ((chainAt s L (lvl+1)).dropWhile (belowTarget s score key)).head? with
    | none => exact hih
    | some i =>
      have hic : i ∈ chainAt s L (lvl+1) :=
        (List.dropWhile_sublist _).subset (List.mem_of_mem_head? hdw)
      obtain ⟨n, hn⟩ := hI.chain_present (lvl+1) i hic
      have hnc : ¬ n.cmp score key = 0 := by
        have := hnm i hic
        simpa [cmpAt, hn] using this
      simp only [hn, hnc, if_false]
      exact hih

theorem Load_noMatch {hash : String → Nat} {s : StringMap} {L : List Nat}
    {key : String}
    (hI : Inv hash s L) (hnm : ∀ j ∈ L, cmpAt s j (hash key) key ≠ 0) :
    Load hash s key = (.nil, false) := by
  rw [Load, hI.header0, show maxLevel = (maxLevel - 1) + 1 from rfl]
  exact LoadAux_noMatch hI hnm (maxLevel - 1) (by decide) 0 (.inl rfl)

theorem Load_match {hash : String → Nat} {s : StringMap} {L : List Nat}
    {key : String} {j : Nat} {nj : stringNode}
    (hI : Inv hash s L) (hj : j ∈ L) (hnj : nodeAt s j = some nj)
    (hcmp : cmpAt s j (hash key) key = 0) :
    Load hash s key = (if nj.observable then (nj.value, true) else (.nil, false)) := by
  have hb := (match_height_pos hI hj hnj).2.1
  rw [Load, hI.header0, show maxLevel = (maxLevel - 1) + 1 from rfl]
  exact LoadAux_match hI hj hnj hcmp (maxLevel - 1)
    (by simp only [maxLevel] at hb ⊢; omega) (by decide) 0 (.inl rfl)

/-! ## Heap updates -/

theorem nodeAt_isSome_iff {s : StringMap} {i : Nat} :
    (nodeAt s i).isSome ↔ i < s.nodes.length := by
  rw [nodeAt, Option.isSome_iff_ne_none, ne_eq, List.getElem?_eq_none_iff]
  omega

theorem bound_of_nodeAt {s : StringMap} {i : Nat} {n : stringNode}
    (h : nodeAt s i = some n) : i < s.nodes.length :=
  nodeAt_isSome_iff.mp (by simp [h])

theorem nodeAt_setNode_self {s : StringMap} {i : Nat} {n : stringNode}
    (h : i < s.nodes.length) : nodeAt (setNode s i n) i = some n := by
  simp [nodeAt, setNode, List.getElem?_set_self h]

theorem nodeAt_setNode_ne {s : StringMap} {i j : Nat} {n : stringNode}
    (h : i ≠ j) : nodeAt (setNode s i n) j = nodeAt s j := by
  simp [nodeAt, setNode, List.getElem?_set_ne h]

theorem setNode_header (s : StringMap) (i : Nat) (n : stringNode) :
    (setNode s i n).header = s.header := rfl

theorem setNode_length (s : StringMap) (i : Nat) (n : stringNode) :
    (setNode s i n).length = s.length := rfl

theorem setNode_nodesLength (s : StringMap) (i : Nat) (n : stringNode) :
    (setNode s i n).nodes.length = s.nodes.length := by simp [setNode]

theorem nodeAt_setNextOf {s : StringMap} {i lvl : Nat} {v : Option Nat} (j : Nat) :
    nodeAt (setNextOf s i lvl v) j =
      if j = i then (nodeAt s i).map fun n => { n with next := n.next.set lvl v }
      else nodeAt s j := by
  cases hni : nodeAt s i with
  | none =>
    have hs : setNextOf s i lvl v = s := by unfold setNextOf; rw [hni]
    rw [hs]
    by_cases hj : j = i <;> simp [hj, hni]
  | some n =>
    have hs : setNextOf s i lvl v =
        setNode s i { n with next := n.next.set lvl v } := by
      unfold setNextOf; rw [hni]
    rw [hs, Option.map_some']
    by_cases hj : j = i
    · subst hj
      rw [if_pos rfl]
      exact nodeAt_setNode_self (bound_of_nodeAt hni)
    · rw [if_neg hj]
      exact nodeAt_setNode_ne fun he => hj he.symm

theorem setNextOf_header (s : StringMap) (i lvl : Nat) (v : Option Nat) :
    (setNextOf s i lvl v).header = s.header := by
  unfold setNextOf; cases nodeAt s i <;> rfl

theorem setNextOf_length (s : StringMap) (i lvl : Nat) (v : Option Nat) :
    (setNextOf s i lvl v).length = s.length := by
  unfold setNextOf; cases nodeAt s i <;> rfl

theorem setNextOf_nodesLength (s : StringMap) (i lvl : Nat) (v : Option Nat) :
    (setNextOf s i lvl v).nodes.length = s.nodes.length := by
  unfold setNextOf
  cases nodeAt s i
  · rfl
  · simp [setNode]

theorem nextOf_setNextOf_ne {s : StringMap} {i lvl : Nat} {v : Option Nat}
    {j lvl' : Nat} (h : j ≠ i ∨ lvl' ≠ lvl) :
    nextOf (setNextOf s i lvl v) j lvl' = nextOf s j lvl' := by
  rw [nextOf, nodeAt_setNextOf, nextOf]
  rcases h with h | h
  · rw [if_neg h]
  · by_cases hj : j = i
    · subst hj
      rw [if_pos rfl]
      cases nodeAt s j with
      | none => rfl
      | some n => simp [List.getElem?_set_ne (fun he => h he.symm)]
    · rw [if_neg hj]

theorem nextOf_setNextOf_self {s : StringMap} {i lvl : Nat} {v : Option Nat}
    {n : stringNode} (hn : nodeAt s i = some n) (hlt : lvl < n.next.length) :
    nextOf (setNextOf s i lvl v) i lvl = v := by
  rw [nextOf, nodeAt_setNextOf, if_pos rfl, hn, Option.map_some']
  simp [List.getElem?_set_self hlt]

/-! ### The shape of a state, ignoring successor pointers -/

/-- Two heap cells agreeing on everything except the contents of their
successor arrays. -/
def nodeShape (a b : stringNode) : Prop :=
  a.key = b.key ∧ a.score = b.score ∧ a.fullyLinked = b.fullyLinked ∧
    a.marked = b.marked ∧ a.next.length = b.next.length

def optShape : Option stringNode → Option stringNode → Prop
  | some a, some b => nodeShape a b
  | none, none => True
  | _, _ => False

/-- Two states identical up to the contents of the successor arrays. -/
def eqExceptNext (s' s : StringMap) : Prop :=
  s'.header = s.header ∧ s'.length = s.length ∧
    s'.nodes.length = s.nodes.length ∧ ∀ j, optShape (nodeAt s' j) (nodeAt s j)

theorem nodeShape_refl (n : stringNode) : nodeShape n n :=
  ⟨rfl, rfl, rfl, rfl, rfl⟩

theorem optShape_none_some {b : stringNode} (h : optShape none (some b)) : False := h

theorem optShape_some_none {a : stringNode} (h : optShape (some a) none) : False := h

theorem optShape_some_some {a b : stringNode} (h : optShape (some a) (some b)) :
    nodeShape a b := h

theorem optShape_refl (o : Option stringNode) : optShape o o := by
  cases o <;> simp [optShape, nodeShape_refl]

theorem nodeShape_trans {a b c : stringNode} (h1 : nodeShape a b)
    (h2 : nodeShape b c) : nodeShape a c := by
  obtain ⟨a1, a2, a3, a4, a5⟩ := h1
  obtain ⟨b1, b2, b3, b4, b5⟩ := h2
  exact ⟨a1.trans b1, a2.trans b2, a3.trans b3, a4.trans b4, a5.trans b5⟩

theorem optShape_trans {a b c : Option stringNode} :
    optShape a b → optShape b c → optShape a c := by
  cases a <;> cases b <;> cases c <;> intro h1 h2 <;>
    first
      | exact trivial
      | exact h1.elim
      | exact h2.elim
      | exact nodeShape_trans h1 h2

theorem eqExceptNext_refl (s : StringMap) : eqExceptNext s s :=
  ⟨rfl, rfl, rfl, fun j => optShape_refl _⟩

theorem eqExceptNext_trans {s₁ s₂ s₃ : StringMap}
    (h1 : eqExceptNext s₁ s₂) (h2 : eqExceptNext s₂ s₃) : eqExceptNext s₁ s₃ :=
  ⟨h1.1.trans h2.1, h1.2.1.trans h2.2.1, h1.2.2.1.trans h2.2.2.1,
    fun j => optShape_trans (h1.2.2.2 j) (h2.2.2.2 j)⟩

theorem setNextOf_eqExceptNext (s : StringMap) (i lvl : Nat) (v : Option Nat) :
    eqExceptNext (setNextOf s i lvl v) s := by
  refine ⟨setNextOf_header s i lvl v, setNextOf_length s i lvl v,
    setNextOf_nodesLength s i lvl v, fun j => ?_⟩
  rw [nodeAt_setNextOf]
  by_cases hj : j = i
  · subst hj
    rw [if_pos rfl]
    cases nodeAt s j with
    | none => exact trivial
    | some n => exact ⟨rfl, rfl, rfl, rfl, by simp⟩
  · rw [if_neg hj]; exact optShape_refl _

theorem eqExceptNext.heightAt {s' s : StringMap} (h : eqExceptNext s' s) (j : Nat) :
    heightOf s' j = heightOf s j := by
  have hs := h.2.2.2 j
  rw [heightOf, heightOf]
  cases ha : nodeAt s' j <;> cases hb : nodeAt s j <;> rw [ha, hb] at hs <;>
    first
      | rfl
      | exact (optShape_none_some hs).elim
      | exact (optShape_some_none hs).elim
      | exact (optShape_some_some hs).2.2.2.2

theorem eqExceptNext.scoreKey {s' s : StringMap} (h : eqExceptNext s' s) (j : Nat) :
    scoreKeyAt s' j = scoreKeyAt s j := by
  have hs := h.2.2.2 j
  rw [scoreKeyAt, scoreKeyAt, scoreAt, scoreAt, keyAt, keyAt]
  cases ha : nodeAt s' j <;> cases hb : nodeAt s j <;> rw [ha, hb] at hs <;>
    first
      | rfl
      | exact (optShape_none_some hs).elim
      | exact (optShape_some_none hs).elim
      | (have hss := optShape_some_some hs
         exact Prod.ext hss.2.1 hss.1)

theorem eqExceptNext.marked {s' s : StringMap} (h : eqExceptNext s' s) (j : Nat) :
    markedAt s' j = markedAt s j := by
  have hs := h.2.2.2 j
  rw [markedAt, markedAt]
  cases ha : nodeAt s' j <;> cases hb : nodeAt s j <;> rw [ha, hb] at hs <;>
    first
      | rfl
      | exact (optShape_none_some hs).elim
      | exact (optShape_some_none hs).elim
      | exact (optShape_some_some hs).2.2.2.1

theorem eqExceptNext.cmpAt_eq {s' s : StringMap} (h : eqExceptNext s' s)
    (j score : Nat) (key : String) : cmpAt s' j score key = cmpAt s j score key := by
  have hs := h.2.2.2 j
  rw [cmpAt, cmpAt]
  cases ha : nodeAt s' j <;> cases hb : nodeAt s j <;> rw [ha, hb] at hs <;>
    first
      | rfl
      | exact (optShape_none_some hs).elim
      | exact (optShape_some_none hs).elim
      | (have hss := optShape_some_some hs
         show stringNode.cmp _ score key = stringNode.cmp _ score key
         rw [stringNode.cmp, stringNode.cmp, hss.1, hss.2.1])

theorem eqExceptNext.chainAt_eq {s' s : StringMap} (h : eqExceptNext s' s)
    (L : List Nat) (lvl : Nat) : chainAt s' L lvl = chainAt s L lvl := by
  unfold chainAt
  apply List.filter_congr
  intro i _
  rw [h.heightAt i]

theorem eqExceptNext.headerOk_iff {hash : String → Nat} {s' s : StringMap}
    (h : eqExceptNext s' s) : headerOk hash s' ↔ headerOk hash s := by
  have hs := h.2.2.2 0
  rw [headerOk, headerOk]
  cases ha : nodeAt s' 0 <;> cases hb : nodeAt s 0 <;> rw [ha, hb] at hs <;>
    first
      | exact Iff.rfl
      | exact (optShape_none_some hs).elim
      | exact (optShape_some_none hs).elim
      | (obtain ⟨h1, h2, h3, h4, h5⟩ := optShape_some_some hs
         show (_ ∧ _) ↔ (_ ∧ _)
         rw [h1, h2, h3, h4, h5])

theorem eqExceptNext.nodeOk_iff {hash : String → Nat} {s' s : StringMap}
    (h : eqExceptNext s' s) (i : Nat) : nodeOk hash s' i ↔ nodeOk hash s i := by
  have hs := h.2.2.2 i
  rw [nodeOk, nodeOk]
  cases ha : nodeAt s' i <;> cases hb : nodeAt s i <;> rw [ha, hb] at hs <;>
    first
      | exact Iff.rfl
      | exact (optShape_none_some hs).elim
      | exact (optShape_some_none hs).elim
      | (obtain ⟨h1, h2, h3, _, h5⟩ := optShape_some_some hs
         show (_ ∧ _) ↔ (_ ∧ _)
         rw [h1, h2, h3, h5])

theorem eqExceptNext.present {s' s : StringMap} (h : eqExceptNext s' s) {i : Nat}
    {n : stringNode} (hn : nodeAt s i = some n) :
    ∃ n', nodeAt s' i = some n' ∧ nodeShape n' n := by
  have hs := h.2.2.2 i
  rw [hn] at hs
  cases hn' : nodeAt s' i with
  | none => rw [hn'] at hs; exact (optShape_none_some hs).elim
  | some n' => rw [hn'] at hs; exact ⟨n', rfl, optShape_some_some hs⟩

/-! ### The splice and unsplice loops -/

theorem spliceAll_step (s : StringMap) (ps : List (Nat × Option Nat)) (m k : Nat) :
    spliceAll s ps m (k+1) =
      setNextOf (spliceAll s ps m k) ((ps[k]?.map Prod.fst).getD 0) k (some m) := rfl

theorem unspliceAll_step (s : StringMap) (ps : List (Nat × Option Nat))
    (nd : List (Option Nat)) (k : Nat) :
    unspliceAll s ps nd (k+1) =
      unspliceAll (setNextOf s ((ps[k]?.map Prod.fst).getD 0) k ((nd[k]?).join))
        ps nd k := rfl

theorem spliceAll_eqExceptNext (s : StringMap) (ps : List (Nat × Option Nat)) (m : Nat) :
    ∀ k, eqExceptNext (spliceAll s ps m k) s
  | 0 => eqExceptNext_refl s
  | k+1 => by
    rw [spliceAll_step]
    exact eqExceptNext_trans (setNextOf_eqExceptNext _ _ _ _)
      (spliceAll_eqExceptNext s ps m k)

theorem unspliceAll_eqExceptNext (ps : List (Nat × Option Nat))
    (nd : List (Option Nat)) :
    ∀ (k : Nat) (s : StringMap), eqExceptNext (unspliceAll s ps nd k) s
  | 0, s => eqExceptNext_refl s
  | k+1, s => by
    rw [unspliceAll_step]
    exact eqExceptNext_trans (unspliceAll_eqExceptNext ps nd k _)
      (setNextOf_eqExceptNext _ _ _ _)

/-- The recorded predecessors exist and are tall enough for their layer. -/
def predsOk (s : StringMap) (ps : List (Nat × Option Nat)) (k : Nat) : Prop :=
  ∀ l, l < k → ∃ pr n, ps[l]? = some pr ∧ nodeAt s pr.1 = some n ∧ l < n.next.length

theorem nextOf_spliceAll (s : StringMap) (ps : List (Nat × Option Nat)) (m : Nat) :
    ∀ k, predsOk s ps k → ∀ j lvl,
      nextOf (spliceAll s ps m k) j lvl =
        if lvl < k ∧ ps[lvl]?.map Prod.fst = some j then some m
        else nextOf s j lvl := by
  intro k
  induction k with
  | zero =>
    intro _ j lvl
    simp [spliceAll]
  | succ k ih =>
    intro hp j lvl
    obtain ⟨pr, n, hpr, hn, hh⟩ := hp k (by omega)
    have hpk : (ps[k]?.map Prod.fst).getD 0 = pr.1 := by rw [hpr]; rfl
    rw [spliceAll_step, hpk]
    have hpO : predsOk s ps k := fun l hl => hp l (by omega)
    have hEE := spliceAll_eqExceptNext s ps m k
    obtain ⟨n', hn', hshape⟩ := hEE.present hn
    by_cases hcase : lvl = k ∧ j = pr.1
    · obtain ⟨rfl, rfl⟩ := hcase
      rw [nextOf_setNextOf_self hn' (by rw [hshape.2.2.2.2]; exact hh)]
      rw [if_pos ⟨by omega, by rw [hpr]; rfl⟩]
    · have hne : j ≠ pr.1 ∨ lvl ≠ k := by tauto
      rw [nextOf_setNextOf_ne hne, ih hpO j lvl]
      by_cases h1 : lvl < k ∧ ps[lvl]?.map Prod.fst = some j
      · rw [if_pos h1, if_pos ⟨by omega, h1.2⟩]
      · rw [if_neg h1, if_neg ?_]
        intro hcon
        rcases Nat.lt_succ_iff_lt_or_eq.mp hcon.1 with h2 | h2
        · exact h1 ⟨h2, hcon.2⟩
        · subst h2
          rw [hpr] at hcon
          have hj : j = pr.1 := by simpa using hcon.2.symm
          rcases hne with hne | hne
          · exact hne hj
          · exact hne rfl

theorem nextOf_unspliceAll (ps : List (Nat × Option Nat)) (nd : List (Option Nat)) :
    ∀ (k : Nat) (s : StringMap), predsOk s ps k → ∀ j lvl,
      nextOf (unspliceAll s ps nd k) j lvl =
        if lvl < k ∧ ps[lvl]?.map Prod.fst = some j then (nd[lvl]?).join
        else nextOf s j lvl := by
  intro k
  induction k with
  | zero =>
    intro s _ j lvl
    simp [unspliceAll]
  | succ k ih =>
    intro s hp j lvl
    obtain ⟨pr, n, hpr, hn, hh⟩ := hp k (by omega)
    have hpk : (ps[k]?.map Prod.fst).getD 0 = pr.1 := by rw [hpr]; rfl
    rw [unspliceAll_step, hpk]
    have hp1 : predsOk (setNextOf s pr.1 k ((nd[k]?).join)) ps k := by
      intro l hl
      obtain ⟨pr', n', hpr', hn', hh'⟩ := hp l (by omega)
      obtain ⟨n'', hn'', hsh⟩ := (setNextOf_eqExceptNext s pr.1 k _).present hn'
      exact ⟨pr', n'', hpr', hn'', by rw [hsh.2.2.2.2]; exact hh'⟩
    rw [ih _ hp1 j lvl]
    by_cases h1 : lvl < k ∧ ps[lvl]?.map Prod.fst = some j
    · rw [if_pos h1, if_pos ⟨by omega, h1.2⟩]
    · rw [if_neg h1]
      by_cases h2 : lvl = k ∧ j = pr.1
      · obtain ⟨rfl, rfl⟩ := h2
        rw [nextOf_setNextOf_self hn hh, if_pos ⟨by omega, by rw [hpr]; rfl⟩]
      · have hne : j ≠ pr.1 ∨ lvl ≠ k := by tauto
        rw [nextOf_setNextOf_ne hne, if_neg ?_]
        intro hcon
        rcases Nat.lt_succ_iff_lt_or_eq.mp hcon.1 with h3 | h3
        · exact h1 ⟨h3, hcon.2⟩
        · subst h3
          rw [hpr] at hcon
          have hj : j = pr.1 := by simpa using hcon.2.symm
          rcases hne with hne | hne
          · exact hne hj
          · exact hne rfl

/-! ### Growing the heap -/

theorem nodeAt_append_lt {s : StringMap} {nn : stringNode} {j : Nat}
    (h : j < s.nodes.length) :
    nodeAt { s with nodes := s.nodes ++ [nn] } j = nodeAt s j := by
  simp [nodeAt, List.getElem?_append_left h]

theorem nodeAt_append_self (s : StringMap) (nn : stringNode) :
    nodeAt { s with nodes := s.nodes ++ [nn] } s.nodes.length = some nn := by
  simp [nodeAt, List.getElem?_append_right (le_refl s.nodes.length)]

theorem nextOf_append_lt {s : StringMap} {nn : stringNode} {j lvl : Nat}
    (h : j < s.nodes.length) :
    nextOf { s with nodes := s.nodes ++ [nn] } j lvl = nextOf s j lvl := by
  rw [nextOf, nodeAt_append_lt h, nextOf]

/-! ### Facts about the recorded predecessor/successor arrays -/

theorem psArr_length (s : StringMap) (score : Nat) (key : String) (L : List Nat)
    (lvl : Nat) : (psArr s score key L lvl).length = lvl := by
  simp [psArr]

theorem psArr_getElem (s : StringMap) (score : Nat) (key : String) (L : List Nat)
    {l lvl : Nat} (h : l < lvl) :
    (psArr s score key L lvl)[l]? =
      some (((chainAt s L l).takeWhile (belowTarget s score key)).getLastD 0,
        ((chainAt s L l).dropWhile (belowTarget s score key)).head?) := by
  simp [psArr, List.getElem?_range h]

/-- The recorded predecessor at each level: either the header or an `L`
member below the target; in both cases present and tall enough. -/
theorem pred_node {hash : String → Nat} {s : StringMap} {L : List Nat}
    (score : Nat) (key : String) (lvl : Nat)
    (hI : Inv hash s L) (hlvl : lvl < maxLevel) :
    ∃ n, nodeAt s (((chainAt s L lvl).takeWhile (belowTarget s score key)).getLastD 0) =
        some n ∧ lvl < n.next.length ∧
      (((chainAt s L lvl).takeWhile (belowTarget s score key)).getLastD 0 = 0 ∨
        ((chainAt s L lvl).takeWhile (belowTarget s score key)).getLastD 0 ∈ L) := by
  rcases getLastD_cases ((chainAt s L lvl).takeWhile (belowTarget s score key)) 0
    with h | h
  · rw [h]
    obtain ⟨hd, hhd, _, _, _, _, hlen⟩ := hI.hd_node
    exact ⟨hd, hhd, by omega, .inl rfl⟩
  · have hmemc := (List.takeWhile_sublist _).subset h
    have hm := mem_chainAt.mp hmemc
    obtain ⟨n, hn, _, _, _, _⟩ := hI.node_mem hm.1
    refine ⟨n, hn, ?_, .inr hm.1⟩
    have := hm.2
    rw [heightOf, hn] at this
    exact this

theorem pred_unmarked {hash : String → Nat} {s : StringMap} {L : List Nat}
    (score : Nat) (key : String) (lvl : Nat)
    (hI : Inv hash s L) (hcl : clean s L) (hlvl : lvl < maxLevel) :
    markedAt s (((chainAt s L lvl).takeWhile (belowTarget s score key)).getLastD 0)
      = false := by
  obtain ⟨n, hn, hh, hca⟩ := pred_node score key lvl hI hlvl
  rcases hca with h | h
  · rw [h]
    obtain ⟨hd, hhd, _, _, _, hmk, _⟩ := hI.hd_node
    rw [markedAt, hhd]
    exact hmk
  · exact hcl _ h

/-- The recorded predecessor still links to the recorded successor. -/
theorem next_pred_eq_succ {hash : String → Nat} {s : StringMap} {L : List Nat}
    (score : Nat) (key : String) (lvl : Nat)
    (hI : Inv hash s L) (hlvl : lvl < maxLevel) :
    nextOf s (((chainAt s L lvl).takeWhile (belowTarget s score key)).getLastD 0) lvl =
      ((chainAt s L lvl).dropWhile (belowTarget s score key)).head? := by
  have hchain : chainSeg s lvl (0 :: chainAt s L lvl) none := hI.chains lvl hlvl
  have hsplit : (0 : Nat) :: chainAt s L lvl =
      (0 :: (chainAt s L lvl).takeWhile (belowTarget s score key)) ++
        (chainAt s L lvl).dropWhile (belowTarget s score key) := by
    rw [List.cons_append, List.takeWhile_append_dropWhile]
  rw [hsplit] at hchain
  have h1 := ((chainSeg_append _ _ _).mp hchain).1
  have h2 := chainSeg_last _ _ h1
  rw [headStop_none] at h2
  exact h2

/-- The recorded predecessors satisfy `predsOk` (present and tall enough). -/
theorem predsOk_psArr {hash : String → Nat} {s : StringMap} {L : List Nat}
    {score : Nat} {key : String}
    (hI : Inv hash s L) {k : Nat} (hk : k ≤ maxLevel) :
    predsOk s (psArr s score key L maxLevel) k := by
  intro l hl
  obtain ⟨n, hn, hh, _⟩ := pred_node score key l hI (by omega)
  exact ⟨_, n, psArr_getElem s score key L (by omega : l < maxLevel), hn, hh⟩

/-! ### Transfer of the invariant across pointer-preserving reshapes -/

theorem Inv_transfer {hash : String → Nat} {s s' : StringMap} {L : List Nat}
    (hI : Inv hash s L) (hE : eqExceptNext s' s)
    (hN : ∀ i lvl, nextOf s' i lvl = nextOf s i lvl) : Inv hash s' L := by
  obtain ⟨h0, hH, hB, hO, hS, hC, hL⟩ := hI
  refine ⟨hE.1.trans h0, hE.headerOk_iff.mpr hH, ?_, ?_, ?_, ?_, ?_⟩
  · intro i hi
    have hb := hB i hi
    exact ⟨by rw [hE.2.2.1]; exact hb.1, hb.2⟩
  · intro i hi
    exact (hE.nodeOk_iff i).mpr (hO i hi)
  · refine hS.imp ?_
    intro a b hab
    rw [nodeLt, hE.scoreKey, hE.scoreKey]
    exact hab
  · intro lvl hlvl
    rw [linked, hE.chainAt_eq]
    exact chainSeg_congr (fun i _ => hN i lvl) (hC lvl hlvl)
  · rw [hE.2.1]
    exact hL

theorem clean_transfer {s s' : StringMap} {L : List Nat}
    (hE : eqExceptNext s' s) (hcl : clean s L) : clean s' L := by
  intro i hi
  rw [hE.marked]
  exact hcl i hi

theorem setNode_shape_eqExceptNext {s : StringMap} {j : Nat} {nj n' : stringNode}
    (hnj : nodeAt s j = some nj) (hsh : nodeShape n' nj) :
    eqExceptNext (setNode s j n') s := by
  refine ⟨rfl, rfl, setNode_nodesLength s j n', fun i => ?_⟩
  by_cases hij : i = j
  · subst hij
    rw [nodeAt_setNode_self (bound_of_nodeAt hnj), hnj]
    exact hsh
  · rw [nodeAt_setNode_ne fun he => hij he.symm]
    exact optShape_refl _

theorem nextOf_setNode_eqnext {s : StringMap} {j : Nat} {nj n' : stringNode}
    (hnj : nodeAt s j = some nj) (hnx : n'.next = nj.next) :
    ∀ i lvl, nextOf (setNode s j n') i lvl = nextOf s i lvl := by
  intro i lvl
  by_cases hij : i = j
  · subst hij
    rw [nextOf, nodeAt_setNode_self (bound_of_nodeAt hnj), nextOf, hnj]
    show (n'.next[lvl]?).join = (nj.next[lvl]?).join
    rw [hnx]
  · rw [nextOf, nodeAt_setNode_ne fun he => hij he.symm, nextOf]

theorem takeWhile_nil_of_false {α : Type} {p : α → Bool} :
    ∀ {l : List α}, (∀ a ∈ l, p a = false) → l.takeWhile p = []
  | [], _ => rfl
  | a :: l, h => by
    rw [List.takeWhile_cons_of_neg]
    rw [h a (.head _)]
    simp

theorem dropWhile_self_of_false {α : Type} {p : α → Bool} :
    ∀ {l : List α}, (∀ a ∈ l, p a = false) → l.dropWhile p = l
  | [], _ => rfl
  | a :: l, h => by
    rw [List.dropWhile_cons_of_neg]
    rw [h a (.head _)]
    simp

/-! ## `Store` on a present, unmarked key -/

theorem Store_found_eq {hash : String → Nat} {s : StringMap} {L : List Nat}
    {key : String} {v : GoVal} {level j : Nat} {nj : stringNode}
    (hI : Inv hash s L) (hj : j ∈ L) (hnj : nodeAt s j = some nj)
    (hcmp : cmpAt s j (hash key) key = 0) (hm : nj.marked = false) :
    Store hash s key v level = some (setNode s j { nj with value := v }) := by
  simp only [Store, findNode_match hI hj hnj hcmp, hnj, hm, Bool.not_false, if_true]

theorem Store_found_spec {hash : String → Nat} {s : StringMap} {L : List Nat}
    {key : String} {v : GoVal} {level j : Nat} {nj : stringNode}
    (hI : Inv hash s L) (hcl : clean s L) (hj : j ∈ L) (hnj : nodeAt s j = some nj)
    (hcmp : cmpAt s j (hash key) key = 0) :
    Store hash s key v level = some (setNode s j { nj with value := v }) ∧
      Inv hash (setNode s j { nj with value := v }) L ∧
      clean (setNode s j { nj with value := v }) L ∧
      Load hash (setNode s j { nj with value := v }) key = (v, true) ∧
      Len (setNode s j { nj with value := v }) = Len s := by
  have hm : nj.marked = false := by
    have := hcl j hj
    rw [markedAt, hnj] at this
    exact this
  have hE : eqExceptNext (setNode s j { nj with value := v }) s :=
    setNode_shape_eqExceptNext hnj ⟨rfl, rfl, rfl, rfl, rfl⟩
  have hN := nextOf_setNode_eqnext hnj (rfl : ({ nj with value := v }).next = nj.next)
  have hI' : Inv hash (setNode s j { nj with value := v }) L := Inv_transfer hI hE hN
  have hcl' := clean_transfer hE hcl
  refine ⟨Store_found_eq hI hj hnj hcmp hm, hI', hcl', ?_, hE.2.1⟩
  have hnj' : nodeAt (setNode s j { nj with value := v }) j =
      some { nj with value := v } := nodeAt_setNode_self (bound_of_nodeAt hnj)
  have hcmp' : cmpAt (setNode s j { nj with value := v }) j (hash key) key = 0 := by
    rw [hE.cmpAt_eq]
    exact hcmp
  rw [Load_match hI' hj hnj' hcmp']
  have hfl := (match_height_pos hI hj hnj).2.2.1
  simp [stringNode.observable, hfl, hm]

/-! ## `Store` on an absent key -/

theorem insertValid_true {hash : String → Nat} {s : StringMap} {L : List Nat}
    {key : String} {level : Nat}
    (hI : Inv hash s L) (hcl : clean s L)
    (hle : level ≤ maxLevel) :
    insertValid s (psArr s (hash key) key L maxLevel) level = true := by
  rw [insertValid, List.all_eq_true]
  intro layer hlayer
  rw [List.mem_range] at hlayer
  have hlm : layer < maxLevel := by omega
  rw [psArr_getElem s (hash key) key L hlm]
  obtain ⟨pn, hpn, _, _⟩ := pred_node (hash key) key layer hI hlm
  have hpm : pn.marked = false := by
    have h := pred_unmarked (hash key) key layer hI hcl hlm
    rw [markedAt, hpn] at h
    exact h
  have hnx := next_pred_eq_succ (hash key) key layer hI hlm
  cases hdw : ((chainAt s L layer).dropWhile (belowTarget s (hash key) key)).head? with
  | none =>
    rw [hdw] at hnx
    simp only [List.getLastD_eq_getLast?] at hpn hnx
    simp [hpn, hpm, hnx]
  | some sj =>
    rw [hdw] at hnx
    have hsjc : sj ∈ chainAt s L layer :=
      (List.dropWhile_sublist _).subset (List.mem_of_mem_head? hdw)
    obtain ⟨qn, hqn⟩ := hI.chain_present layer sj hsjc
    have hqm : qn.marked = false := by
      have h := hcl sj (mem_chainAt.mp hsjc).1
      rw [markedAt, hqn] at h
      exact h
    simp only [List.getLastD_eq_getLast?] at hpn hnx
    simp [hpn, hpm, hnx, hqn, hqm]

/-- The node `Store`'s insertion branch builds (verification-side
abbreviation of the branch's `nn`). -/
def insertedNode (hash : String → Nat) (s : StringMap) (key : String) (v : GoVal)
    (level : Nat) (L : List Nat) : stringNode :=
  { key := key, score := hash key, value := v,
    next := (List.range level).map fun layer =>
      (psArr s (hash key) key L maxLevel)[layer]?.bind Prod.snd,
    fullyLinked := true, marked := false }

/-- The state `Store`'s insertion branch produces (verification-side
abbreviation). -/
def insertedState (hash : String → Nat) (s : StringMap) (key : String) (v : GoVal)
    (level : Nat) (L : List Nat) : StringMap :=
  let s2 := spliceAll { s with nodes := s.nodes ++ [insertedNode hash s key v level L] }
    (psArr s (hash key) key L maxLevel) s.nodes.length level
  { s2 with length := s2.length + 1 }

theorem Store_insert_eq {hash : String → Nat} {s : StringMap} {L : List Nat}
    {key : String} {v : GoVal} {level : Nat}
    (hI : Inv hash s L) (hcl : clean s L)
    (hnm : ∀ j ∈ L, cmpAt s j (hash key) key ≠ 0)
    (hle : level ≤ maxLevel) :
    Store hash s key v level = some (insertedState hash s key v level L) := by
  simp only [Store, findNode_noMatch hI hnm, insertValid_true hI hcl hle, if_true]
  rfl

/-! ### More heap-growth lemmas -/

theorem nodeAt_append_gt {s : StringMap} {nn : stringNode} {j : Nat}
    (h : s.nodes.length < j) :
    nodeAt { s with nodes := s.nodes ++ [nn] } j = nodeAt s j := by
  rw [nodeAt, nodeAt, List.getElem?_eq_none (by simp; omega),
    List.getElem?_eq_none (by omega)]

theorem nodeAt_append_ne {s : StringMap} {nn : stringNode} {j : Nat}
    (h : j ≠ s.nodes.length) :
    nodeAt { s with nodes := s.nodes ++ [nn] } j = nodeAt s j := by
  rcases Nat.lt_or_ge j s.nodes.length with h1 | h1
  · exact nodeAt_append_lt h1
  · exact nodeAt_append_gt (by omega)

theorem nextOf_append_ne {s : StringMap} {nn : stringNode} {j lvl : Nat}
    (h : j ≠ s.nodes.length) :
    nextOf { s with nodes := s.nodes ++ [nn] } j lvl = nextOf s j lvl := by
  rw [nextOf, nodeAt_append_ne h, nextOf]

/-! ### Pointwise consequences of shape agreement -/

theorem heightOf_of_optShape {s' s : StringMap} {j : Nat}
    (hs : optShape (nodeAt s' j) (nodeAt s j)) : heightOf s' j = heightOf s j := by
  rw [heightOf, heightOf]
  cases ha : nodeAt s' j <;> cases hb : nodeAt s j <;> rw [ha, hb] at hs <;>
    first
      | rfl
      | exact (optShape_none_some hs).elim
      | exact (optShape_some_none hs).elim
      | exact (optShape_some_some hs).2.2.2.2

theorem scoreKeyAt_of_optShape {s' s : StringMap} {j : Nat}
    (hs : optShape (nodeAt s' j) (nodeAt s j)) : scoreKeyAt s' j = scoreKeyAt s j := by
  rw [scoreKeyAt, scoreKeyAt, scoreAt, scoreAt, keyAt, keyAt]
  cases ha : nodeAt s' j <;> cases hb : nodeAt s j <;> rw [ha, hb] at hs <;>
    first
      | rfl
      | exact (optShape_none_some hs).elim
      | exact (optShape_some_none hs).elim
      | (have hss := optShape_some_some hs
         exact Prod.ext hss.2.1 hss.1)

theorem markedAt_of_optShape {s' s : StringMap} {j : Nat}
    (hs : optShape (nodeAt s' j) (nodeAt s j)) : markedAt s' j = markedAt s j := by
  rw [markedAt, markedAt]
  cases ha : nodeAt s' j <;> cases hb : nodeAt s j <;> rw [ha, hb] at hs <;>
    first
      | rfl
      | exact (optShape_none_some hs).elim
      | exact (optShape_some_none hs).elim
      | exact (optShape_some_some hs).2.2.2.1

theorem cmpAt_of_optShape {s' s : StringMap} {j score : Nat} {key : String}
    (hs : optShape (nodeAt s' j) (nodeAt s j)) :
    cmpAt s' j score key = cmpAt s j score key := by
  rw [cmpAt, cmpAt]
  cases ha : nodeAt s' j <;> cases hb : nodeAt s j <;> rw [ha, hb] at hs <;>
    first
      | rfl
      | exact (optShape_none_some hs).elim
      | exact (optShape_some_none hs).elim
      | (have hss := optShape_some_some hs
         show stringNode.cmp _ score key = stringNode.cmp _ score key
         rw [stringNode.cmp, stringNode.cmp, hss.1, hss.2.1])

theorem nodeOk_iff_of_optShape {hash : String → Nat} {s' s : StringMap} {i : Nat}
    (hs : optShape (nodeAt s' i) (nodeAt s i)) :
    nodeOk hash s' i ↔ nodeOk hash s i := by
  rw [nodeOk, nodeOk]
  cases ha : nodeAt s' i <;> cases hb : nodeAt s i <;> rw [ha, hb] at hs <;>
    first
      | exact Iff.rfl
      | exact (optShape_none_some hs).elim
      | exact (optShape_some_none hs).elim
      | (obtain ⟨h1, h2, h3, _, h5⟩ := optShape_some_some hs
         show (_ ∧ _) ↔ (_ ∧ _)
         rw [h1, h2, h3, h5])

theorem headerOk_iff_of_optShape {hash : String → Nat} {s' s : StringMap}
    (hs : optShape (nodeAt s' 0) (nodeAt s 0)) :
    headerOk hash s' ↔ headerOk hash s := by
  rw [headerOk, headerOk]
  cases ha : nodeAt s' 0 <;> cases hb : nodeAt s 0 <;> rw [ha, hb] at hs <;>
    first
      | exact Iff.rfl
      | exact (optShape_none_some hs).elim
      | exact (optShape_some_none hs).elim
      | (obtain ⟨h1, h2, h3, h4, h5⟩ := optShape_some_some hs
         show (_ ∧ _) ↔ (_ ∧ _)
         rw [h1, h2, h3, h4, h5])

/-! ### Values survive the splice loops -/

theorem valueAt_setNextOf (s : StringMap) (i lvl : Nat) (w : Option Nat) (j : Nat) :
    valueAt (setNextOf s i lvl w) j = valueAt s j := by
  rw [valueAt, nodeAt_setNextOf j, valueAt]
  by_cases hj : j = i
  · subst hj
    rw [if_pos rfl]
    cases nodeAt s j <;> rfl
  · rw [if_neg hj]

theorem valueAt_spliceAll (s : StringMap) (ps : List (Nat × Option Nat)) (m : Nat) :
    ∀ k j, valueAt (spliceAll s ps m k) j = valueAt s j
  | 0, _ => rfl
  | k+1, j => by
    rw [spliceAll_step, valueAt_setNextOf, valueAt_spliceAll s ps m k]

theorem valueAt_unspliceAll (ps : List (Nat × Option Nat)) (nd : List (Option Nat)) :
    ∀ (k : Nat) (s : StringMap) (j : Nat), valueAt (unspliceAll s ps nd k) j = valueAt s j
  | 0, _, _ => rfl
  | k+1, s, j => by
    rw [unspliceAll_step, valueAt_unspliceAll ps nd k, valueAt_setNextOf]

/-! ### The inserted state, characterised -/

/-- The heap right after the splice loop (the `insertedState` before the
counter bump). -/
def splicedState (hash : String → Nat) (s : StringMap) (key : String) (v : GoVal)
    (level : Nat) (L : List Nat) : StringMap :=
  spliceAll { s with nodes := s.nodes ++ [insertedNode hash s key v level L] }
    (psArr s (hash key) key L maxLevel) s.nodes.length level

theorem insertedNode_nextLength (hash : String → Nat) (s : StringMap) (key : String)
    (v : GoVal) (level : Nat) (L : List Nat) :
    (insertedNode hash s key v level L).next.length = level := by
  simp [insertedNode]

theorem nodeAt_insertedState (hash : String → Nat) (s : StringMap) (key : String)
    (v : GoVal) (level : Nat) (L : List Nat) (j : Nat) :
    nodeAt (insertedState hash s key v level L) j =
      nodeAt (splicedState hash s key v level L) j := rfl

theorem nextOf_insertedState_spliced (hash : String → Nat) (s : StringMap) (key : String)
    (v : GoVal) (level : Nat) (L : List Nat) (j lvl : Nat) :
    nextOf (insertedState hash s key v level L) j lvl =
      nextOf (splicedState hash s key v level L) j lvl := rfl

theorem insertedState_header (hash : String → Nat) (s : StringMap) (key : String)
    (v : GoVal) (level : Nat) (L : List Nat) :
    (insertedState hash s key v level L).header = s.header := by
  show (splicedState hash s key v level L).header = s.header
  exact (spliceAll_eqExceptNext
    { s with nodes := s.nodes ++ [insertedNode hash s key v level L] }
    (psArr s (hash key) key L maxLevel) s.nodes.length level).1

theorem insertedState_length (hash : String → Nat) (s : StringMap) (key : String)
    (v : GoVal) (level : Nat) (L : List Nat) :
    (insertedState hash s key v level L).length = s.length + 1 := by
  have hE : eqExceptNext (splicedState hash s key v level L)
      { s with nodes := s.nodes ++ [insertedNode hash s key v level L] } :=
    spliceAll_eqExceptNext
      { s with nodes := s.nodes ++ [insertedNode hash s key v level L] }
      (psArr s (hash key) key L maxLevel) s.nodes.length level
  show (splicedState hash s key v level L).length + 1 = s.length + 1
  rw [hE.2.1]

theorem insertedState_nodesLength (hash : String → Nat) (s : StringMap) (key : String)
    (v : GoVal) (level : Nat) (L : List Nat) :
    (insertedState hash s key v level L).nodes.length = s.nodes.length + 1 := by
  have hE : eqExceptNext (splicedState hash s key v level L)
      { s with nodes := s.nodes ++ [insertedNode hash s key v level L] } :=
    spliceAll_eqExceptNext
      { s with nodes := s.nodes ++ [insertedNode hash s key v level L] }
      (psArr s (hash key) key L maxLevel) s.nodes.length level
  show (splicedState hash s key v level L).nodes.length = s.nodes.length + 1
  rw [hE.2.2.1]
  simp

theorem insertedState_shape {hash : String → Nat} {s : StringMap} {key : String}
    {v : GoVal} {level : Nat} {L : List Nat} {j : Nat} (hj : j ≠ s.nodes.length) :
    optShape (nodeAt (insertedState hash s key v level L) j) (nodeAt s j) := by
  rw [nodeAt_insertedState]
  have h1 := (spliceAll_eqExceptNext
    { s with nodes := s.nodes ++ [insertedNode hash s key v level L] }
    (psArr s (hash key) key L maxLevel) s.nodes.length level).2.2.2 j
  have h2 : nodeAt { s with nodes := s.nodes ++ [insertedNode hash s key v level L] } j =
      nodeAt s j := nodeAt_append_ne hj
  rw [h2] at h1
  exact h1

theorem insertedState_new_node (hash : String → Nat) (s : StringMap) (key : String)
    (v : GoVal) (level : Nat) (L : List Nat) :
    ∃ nm, nodeAt (insertedState hash s key v level L) s.nodes.length = some nm ∧
      nodeShape nm (insertedNode hash s key v level L) ∧ nm.value = v := by
  have hE := spliceAll_eqExceptNext
    { s with nodes := s.nodes ++ [insertedNode hash s key v level L] }
    (psArr s (hash key) key L maxLevel) s.nodes.length level
  obtain ⟨nm, hnm, hsh⟩ := hE.present (nodeAt_append_self s (insertedNode hash s key v level L))
  refine ⟨nm, ?_, hsh, ?_⟩
  · rw [nodeAt_insertedState]; exact hnm
  · have hv := valueAt_spliceAll
      { s with nodes := s.nodes ++ [insertedNode hash s key v level L] }
      (psArr s (hash key) key L maxLevel) s.nodes.length level s.nodes.length
    simp only [valueAt, hnm, nodeAt_append_self] at hv
    exact hv

/-- Where every successor pointer of the inserted state points: the new node
reads the successors recorded for it, the recorded predecessors point at the
new node below `level`, and every other pointer is untouched. -/
theorem nextOf_insertedState {hash : String → Nat} {s : StringMap} {L : List Nat}
    (key : String) (v : GoVal) (level : Nat)
    (hI : Inv hash s L) (hle : level ≤ maxLevel) (j lvl : Nat) :
    nextOf (insertedState hash s key v level L) j lvl =
      if j = s.nodes.length then
        (if lvl < level then
          ((chainAt s L lvl).dropWhile (belowTarget s (hash key) key)).head?
         else none)
      else if lvl < level ∧
          (psArr s (hash key) key L maxLevel)[lvl]?.map Prod.fst = some j then
        some s.nodes.length
      else nextOf s j lvl := by
  have hpo : predsOk { s with nodes := s.nodes ++ [insertedNode hash s key v level L] }
      (psArr s (hash key) key L maxLevel) level := by
    intro l hl
    obtain ⟨pr, n, hpr, hn, hh⟩ := predsOk_psArr hI hle l hl
    exact ⟨pr, n, hpr, by rw [nodeAt_append_lt (bound_of_nodeAt hn)]; exact hn, hh⟩
  have hmain : nextOf (splicedState hash s key v level L) j lvl =
      if lvl < level ∧ (psArr s (hash key) key L maxLevel)[lvl]?.map Prod.fst = some j
      then some s.nodes.length
      else nextOf { s with nodes := s.nodes ++ [insertedNode hash s key v level L] } j lvl :=
    nextOf_spliceAll { s with nodes := s.nodes ++ [insertedNode hash s key v level L] }
      (psArr s (hash key) key L maxLevel) s.nodes.length level hpo j lvl
  rw [nextOf_insertedState_spliced, hmain]
  by_cases hj : j = s.nodes.length
  · subst hj
    rw [if_pos (rfl : s.nodes.length = s.nodes.length)]
    have hcond : ¬ (lvl < level ∧
        (psArr s (hash key) key L maxLevel)[lvl]?.map Prod.fst = some s.nodes.length) := by
      rintro ⟨hll, hfst⟩
      rw [psArr_getElem s (hash key) key L (by omega : lvl < maxLevel)] at hfst
      obtain ⟨pn, hpn, _, _⟩ := pred_node (hash key) key lvl hI (by omega)
      have hlt := bound_of_nodeAt hpn
      have hpe : (((chainAt s L lvl).takeWhile (belowTarget s (hash key) key)).getLastD 0)
          = s.nodes.length := by simpa using hfst
      omega
    rw [if_neg hcond]
    simp only [nextOf, nodeAt_append_self]
    by_cases hll : lvl < level
    · rw [if_pos hll]
      have hnx : (insertedNode hash s key v level L).next[lvl]? =
          some ((psArr s (hash key) key L maxLevel)[lvl]?.bind Prod.snd) := by
        simp only [insertedNode, List.getElem?_map, List.getElem?_range hll,
          Option.map_some']
      rw [hnx, psArr_getElem s (hash key) key L (by omega : lvl < maxLevel)]
      rfl
    · rw [if_neg hll]
      rw [List.getElem?_eq_none (by rw [insertedNode_nextLength]; omega)]
      rfl
  · rw [if_neg hj]
    by_cases hc : lvl < level ∧
        (psArr s (hash key) key L maxLevel)[lvl]?.map Prod.fst = some j
    · rw [if_pos hc, if_pos hc]
    · rw [if_neg hc, if_neg hc]
      exact nextOf_append_ne hj

/-- No member of a nodup list's `dropLast` equals its last element. -/
theorem ne_getLastD_of_mem_dropLast {a : Nat} {c : List Nat}
    (h : (a :: c).Nodup) : ∀ i ∈ (a :: c).dropLast, i ≠ c.getLastD a := by
  intro i hi heq
  have hne : (a :: c) ≠ [] := List.cons_ne_nil a c
  have hsplit := List.dropLast_concat_getLast hne
  have hlast : (a :: c).getLast hne = c.getLastD a := List.getLast_eq_getLastD a c hne
  rw [hlast] at hsplit
  rw [← hsplit] at h
  exact (List.nodup_append.mp h).2.2 hi (List.mem_singleton.mpr heq)

/-- Full specification of `Store`'s insertion branch: inserting an absent key
splices the new node between the below-target prefix of `L` and the rest,
preserves the invariant and cleanliness, makes the key loadable with the
stored value, and grows the counter by one. -/
theorem Store_insert_spec {hash : String → Nat} {s : StringMap} {L : List Nat}
    {key : String} {v : GoVal} {level : Nat} {L₁ L₂ : List Nat}
    (hI : Inv hash s L) (hcl : clean s L)
    (hnm : ∀ j ∈ L, cmpAt s j (hash key) key ≠ 0)
    (hpos : 1 ≤ level) (hle : level ≤ maxLevel)
    (hL1 : L₁ = L.takeWhile (belowTarget s (hash key) key))
    (hL2 : L₂ = L.dropWhile (belowTarget s (hash key) key)) :
    Inv hash (insertedState hash s key v level L) (L₁ ++ s.nodes.length :: L₂) ∧
      clean (insertedState hash s key v level L) (L₁ ++ s.nodes.length :: L₂) ∧
      Load hash (insertedState hash s key v level L) key = (v, true) ∧
      Len (insertedState hash s key v level L) = Len s + 1 := by
  have hpres : ∀ i ∈ L, ∃ n, nodeAt s i = some n := fun i hi =>
    (hI.node_mem hi).imp fun n hn => hn.1
  have hLsplit : L₁ ++ L₂ = L := by
    rw [hL1, hL2]; exact List.takeWhile_append_dropWhile _ _
  have hmem1 : ∀ i ∈ L₁, i ∈ L := fun i hi => by
    rw [← hLsplit]; exact List.mem_append.mpr (.inl hi)
  have hmem2 : ∀ i ∈ L₂, i ∈ L := fun i hi => by
    rw [← hLsplit]; exact List.mem_append.mpr (.inr hi)
  have hb1 : ∀ i ∈ L₁, belowTarget s (hash key) key i = true := fun i hi =>
    List.mem_takeWhile_imp (hL1 ▸ hi)
  have hb2 : ∀ i ∈ L₂, belowTarget s (hash key) key i = false := fun i hi =>
    dropWhile_not_below hI.sorted hpres i (hL2 ▸ hi)
  have hgt2 : ∀ i ∈ L₂, pairLt (hash key, key) (scoreKeyAt s i) := fun i hi =>
    dropWhile_gt_of_noMatch hI.sorted hpres hnm i (hL2 ▸ hi)
  have hlt1 : ∀ i ∈ L₁, pairLt (scoreKeyAt s i) (hash key, key) := by
    intro i hi
    obtain ⟨n, hn⟩ := hpres i (hmem1 i hi)
    exact (belowTarget_iff hn).mp (hb1 i hi)
  obtain ⟨hd, hhd, hhdk, hhds, hhdf, hhdm, hhdlen⟩ := hI.hd_node
  have hm0 : 0 < s.nodes.length := bound_of_nodeAt hhd
  have hbnd : ∀ i ∈ L, i < s.nodes.length ∧ i ≠ 0 := hI.memBound
  obtain ⟨nm, hnm', hshm, hvm⟩ := insertedState_new_node hash s key v level L
  have hshape : ∀ j, j ≠ s.nodes.length →
      optShape (nodeAt (insertedState hash s key v level L) j) (nodeAt s j) :=
    fun j hj => insertedState_shape hj
  have hhOld : ∀ i ∈ L, heightOf (insertedState hash s key v level L) i = heightOf s i :=
    fun i hi => heightOf_of_optShape (hshape i (by have := (hbnd i hi).1; omega))
  have hhNew : heightOf (insertedState hash s key v level L) s.nodes.length = level := by
    simp only [heightOf, hnm']
    rw [hshm.2.2.2.2, insertedNode_nextLength]
  have hskNew : scoreKeyAt (insertedState hash s key v level L) s.nodes.length =
      (hash key, key) := by
    simp only [scoreKeyAt, scoreAt, keyAt, hnm']
    rw [hshm.2.1, hshm.1]
    rfl
  have hskOld : ∀ i, i ≠ s.nodes.length →
      scoreKeyAt (insertedState hash s key v level L) i = scoreKeyAt s i :=
    fun i hi => scoreKeyAt_of_optShape (hshape i hi)
  have hmkNew : markedAt (insertedState hash s key v level L) s.nodes.length = false := by
    simp only [markedAt, hnm']
    rw [hshm.2.2.2.1]
    rfl
  have hsplitC : ∀ lvl, chainAt s L lvl = chainAt s L₁ lvl ++ chainAt s L₂ lvl := by
    intro lvl
    simp only [chainAt]
    rw [← List.filter_append, hLsplit]
  have htwC : ∀ lvl, (chainAt s L lvl).takeWhile (belowTarget s (hash key) key) =
      chainAt s L₁ lvl := by
    intro lvl
    rw [hsplitC lvl,
      takeWhile_append_all (fun a ha => hb1 a (mem_chainAt.mp ha).1),
      takeWhile_nil_of_false (fun a ha => hb2 a (mem_chainAt.mp ha).1),
      List.append_nil]
  have hdwC : ∀ lvl, (chainAt s L lvl).dropWhile (belowTarget s (hash key) key) =
      chainAt s L₂ lvl := by
    intro lvl
    rw [hsplitC lvl,
      dropWhile_append_all (fun a ha => hb1 a (mem_chainAt.mp ha).1),
      dropWhile_self_of_false (fun a ha => hb2 a (mem_chainAt.mp ha).1)]
  have hchainF : ∀ lvl,
      chainAt (insertedState hash s key v level L) (L₁ ++ s.nodes.length :: L₂) lvl =
        chainAt s L₁ lvl ++
          (if lvl < level then s.nodes.length :: chainAt s L₂ lvl
           else chainAt s L₂ lvl) := by
    intro lvl
    simp only [chainAt, List.filter_append, List.filter_cons]
    congr 1
    · exact List.filter_congr fun i hi => by simp only [hhOld i (hmem1 i hi)]
    · have hfl2 : L₂.filter
          (fun i => decide (lvl < heightOf (insertedState hash s key v level L) i)) =
          L₂.filter (fun i => decide (lvl < heightOf s i)) :=
        List.filter_congr fun i hi => by simp only [hhOld i (hmem2 i hi)]
      rw [hhNew, hfl2]
      by_cases hll : lvl < level
      · rw [if_pos (by simpa using hll), if_pos hll]
      · rw [if_neg (by simpa using hll), if_neg hll]
  have hchNodup : ∀ lvl, (chainAt s L lvl).Nodup := fun lvl =>
    pairwise_nodeLt_nodup (hI.chain_sorted lvl)
  have hzero1 : ∀ lvl, (0 : Nat) ∉ chainAt s L₁ lvl := by
    intro lvl h0
    exact (hbnd 0 (hmem1 0 (mem_chainAt.mp h0).1)).2 rfl
  have hnodup01 : ∀ lvl, ((0 : Nat) :: chainAt s L₁ lvl).Nodup := by
    intro lvl
    rw [List.nodup_cons]
    refine ⟨hzero1 lvl, ?_⟩
    have hnd := hchNodup lvl
    rw [hsplitC lvl] at hnd
    exact (List.nodup_append.mp hnd).1
  have hdisj : ∀ lvl, ∀ i ∈ chainAt s L₁ lvl, i ∈ chainAt s L₂ lvl → False := by
    intro lvl i hi1 hi2
    have hnd := hchNodup lvl
    rw [hsplitC lvl] at hnd
    exact (List.nodup_append.mp hnd).2.2 hi1 hi2
  have hcb1 : ∀ lvl, ∀ i ∈ chainAt s L₁ lvl, i ≠ s.nodes.length := by
    intro lvl i hi
    have := (hbnd i (hmem1 i (mem_chainAt.mp hi).1)).1
    omega
  have hcb2 : ∀ lvl, ∀ i ∈ chainAt s L₂ lvl, i ≠ s.nodes.length := by
    intro lvl i hi
    have := (hbnd i (hmem2 i (mem_chainAt.mp hi).1)).1
    omega
  have hfst : ∀ lvl, lvl < level →
      (psArr s (hash key) key L maxLevel)[lvl]?.map Prod.fst =
        some ((chainAt s L₁ lvl).getLastD 0) := by
    intro lvl hll
    rw [psArr_getElem s (hash key) key L (by omega : lvl < maxLevel), Option.map_some',
      htwC lvl]
  have hnewNext : ∀ lvl, lvl < level →
      nextOf (insertedState hash s key v level L) s.nodes.length lvl =
        (chainAt s L₂ lvl).head? := by
    intro lvl hll
    rw [nextOf_insertedState key v level hI hle s.nodes.length lvl,
      if_pos (rfl : s.nodes.length = s.nodes.length), if_pos hll, hdwC lvl]
  have hnxKeep : ∀ j lvl, j ≠ s.nodes.length →
      ¬ (lvl < level ∧ (psArr s (hash key) key L maxLevel)[lvl]?.map Prod.fst = some j) →
      nextOf (insertedState hash s key v level L) j lvl = nextOf s j lvl := by
    intro j lvl hj hc
    rw [nextOf_insertedState key v level hI hle j lvl, if_neg hj, if_neg hc]
  have hnxPred : ∀ j lvl, j ≠ s.nodes.length → lvl < level →
      (psArr s (hash key) key L maxLevel)[lvl]?.map Prod.fst = some j →
      nextOf (insertedState hash s key v level L) j lvl = some s.nodes.length := by
    intro j lvl hj hll hf
    rw [nextOf_insertedState key v level hI hle j lvl, if_neg hj, if_pos ⟨hll, hf⟩]
  have hlinked : ∀ lvl, lvl < maxLevel →
      linked (insertedState hash s key v level L) lvl
        (0 :: chainAt (insertedState hash s key v level L)
          (L₁ ++ s.nodes.length :: L₂) lvl) := by
    intro lvl hlvl
    rw [linked, hchainF lvl]
    have hold : chainSeg s lvl (0 :: chainAt s L lvl) none := hI.chains lvl hlvl
    rw [hsplitC lvl] at hold
    rw [← List.cons_append] at hold
    obtain ⟨hA, hB⟩ := (chainSeg_append _ _ _).mp hold
    by_cases hll : lvl < level
    · rw [if_pos hll, ← List.cons_append]
      refine (chainSeg_append _ _ _).mpr ⟨?_, ?_⟩
      · refine chainSeg_retarget (chainAt s L₁ lvl) 0 hA ?_ ?_
        · intro i hi
          have hiLast := ne_getLastD_of_mem_dropLast (hnodup01 lvl) i hi
          have hiOld : i ≠ s.nodes.length := by
            have hmem : i ∈ 0 :: chainAt s L₁ lvl := (List.dropLast_sublist _).subset hi
            rcases List.mem_cons.mp hmem with rfl | hmem2
            · omega
            · exact hcb1 lvl i hmem2
          refine hnxKeep i lvl hiOld ?_
          rintro ⟨hll2, hf⟩
          rw [hfst lvl hll2] at hf
          exact hiLast (Option.some.inj hf).symm
        · have hpne : (chainAt s L₁ lvl).getLastD 0 ≠ s.nodes.length := by
            rcases getLastD_cases (chainAt s L₁ lvl) 0 with h | h
            · rw [h]; omega
            · exact hcb1 lvl _ h
          rw [hnxPred _ lvl hpne hll (hfst lvl hll)]
          rfl
      · rw [chainSeg_cons_iff]
        refine ⟨?_, ?_⟩
        · rw [hnewNext lvl hll, headStop_none]
        · refine chainSeg_congr ?_ hB
          intro i hi
          refine hnxKeep i lvl (hcb2 lvl i hi) ?_
          rintro ⟨hll2, hf⟩
          rw [hfst lvl hll2] at hf
          have hieq : i = (chainAt s L₁ lvl).getLastD 0 := (Option.some.inj hf).symm
          rcases getLastD_cases (chainAt s L₁ lvl) 0 with h | h
          · rw [h] at hieq
            exact (hbnd i (hmem2 i (mem_chainAt.mp hi).1)).2 hieq
          · rw [← hieq] at h
            exact hdisj lvl i h hi
    · rw [if_neg hll]
      refine chainSeg_congr ?_ hold
      intro i hi
      have hiOld : i ≠ s.nodes.length := by
        rcases List.mem_cons.mp hi with rfl | hmem2
        · omega
        · rcases List.mem_append.mp hmem2 with h | h
          · exact hcb1 lvl i h
          · exact hcb2 lvl i h
      refine hnxKeep i lvl hiOld ?_
      rintro ⟨hll2, _⟩
      exact hll hll2
  have hnodesLen := insertedState_nodesLength hash s key v level L
  have hBnd' : ∀ i ∈ L₁ ++ s.nodes.length :: L₂,
      i < (insertedState hash s key v level L).nodes.length ∧ i ≠ 0 := by
    intro i hi
    rw [hnodesLen]
    rcases List.mem_append.mp hi with h | h
    · have hb := hbnd i (hmem1 i h)
      exact ⟨by omega, hb.2⟩
    · rcases List.mem_cons.mp h with rfl | h2
      · exact ⟨by omega, by omega⟩
      · have hb := hbnd i (hmem2 i h2)
        exact ⟨by omega, hb.2⟩
  have hOk' : ∀ i ∈ L₁ ++ s.nodes.length :: L₂,
      nodeOk hash (insertedState hash s key v level L) i := by
    intro i hi
    rcases List.mem_append.mp hi with h | h
    · have hiO := (hbnd i (hmem1 i h)).1
      exact (nodeOk_iff_of_optShape (hshape i (by omega))).mpr
        (hI.nodesOk i (hmem1 i h))
    · rcases List.mem_cons.mp h with rfl | h2
      · simp only [nodeOk, hnm']
        refine ⟨?_, ?_, ?_, ?_⟩
        · rw [hshm.2.1, hshm.1]; rfl
        · rw [hshm.2.2.1]; rfl
        · rw [hshm.2.2.2.2, insertedNode_nextLength]; omega
        · rw [hshm.2.2.2.2, insertedNode_nextLength]; exact hle
      · have hiO := (hbnd i (hmem2 i h2)).1
        exact (nodeOk_iff_of_optShape (hshape i (by omega))).mpr
          (hI.nodesOk i (hmem2 i h2))
  have hsorted' : (L₁ ++ s.nodes.length :: L₂).Pairwise
      (nodeLt (insertedState hash s key v level L)) := by
    rw [List.pairwise_append]
    have hsplitP := hI.sorted
    rw [← hLsplit, List.pairwise_append] at hsplitP
    obtain ⟨hP1, hP2, hP12⟩ := hsplitP
    refine ⟨?_, ?_, ?_⟩
    · refine hP1.imp_of_mem ?_
      intro a b ha hb hab
      rw [nodeLt, hskOld a (by have := (hbnd a (hmem1 a ha)).1; omega),
        hskOld b (by have := (hbnd b (hmem1 b hb)).1; omega)]
      exact hab
    · rw [List.pairwise_cons]
      refine ⟨?_, ?_⟩
      · intro b hb
        rw [nodeLt, hskNew, hskOld b (by have := (hbnd b (hmem2 b hb)).1; omega)]
        exact hgt2 b hb
      · refine hP2.imp_of_mem ?_
        intro a b ha hb hab
        rw [nodeLt, hskOld a (by have := (hbnd a (hmem2 a ha)).1; omega),
          hskOld b (by have := (hbnd b (hmem2 b hb)).1; omega)]
        exact hab
    · intro a ha b hb
      rcases List.mem_cons.mp hb with rfl | hb2
      · rw [nodeLt, hskOld a (by have := (hbnd a (hmem1 a ha)).1; omega), hskNew]
        exact hlt1 a ha
      · rw [nodeLt, hskOld a (by have := (hbnd a (hmem1 a ha)).1; omega),
          hskOld b (by have := (hbnd b (hmem2 b hb2)).1; omega)]
        exact pairLt_trans (hlt1 a ha) (hgt2 b hb2)
  have hhdr' : (insertedState hash s key v level L).header = 0 :=
    (insertedState_header hash s key v level L).trans hI.header0
  have hHOk' : headerOk hash (insertedState hash s key v level L) :=
    (headerOk_iff_of_optShape (hshape 0 (by omega))).mpr hI.hdOk
  have hlen12 : L₁.length + L₂.length = L.length := by
    have hc := congrArg List.length hLsplit
    rw [List.length_append] at hc
    exact hc
  have hsize' : (insertedState hash s key v level L).length =
      ((L₁ ++ s.nodes.length :: L₂).length : Int) := by
    rw [insertedState_length, hI.size, List.length_append, List.length_cons]
    push_cast
    omega
  have hI' : Inv hash (insertedState hash s key v level L)
      (L₁ ++ s.nodes.length :: L₂) :=
    ⟨hhdr', hHOk', hBnd', hOk', hsorted', hlinked, hsize'⟩
  have hcl' : clean (insertedState hash s key v level L)
      (L₁ ++ s.nodes.length :: L₂) := by
    intro i hi
    rcases List.mem_append.mp hi with h | h
    · rw [markedAt_of_optShape (hshape i
        (by have := (hbnd i (hmem1 i h)).1; omega))]
      exact hcl i (hmem1 i h)
    · rcases List.mem_cons.mp h with rfl | h2
      · exact hmkNew
      · rw [markedAt_of_optShape (hshape i
          (by have := (hbnd i (hmem2 i h2)).1; omega))]
        exact hcl i (hmem2 i h2)
  have hmmem : s.nodes.length ∈ L₁ ++ s.nodes.length :: L₂ :=
    List.mem_append.mpr (.inr (.head _))
  have hcmp' : cmpAt (insertedState hash s key v level L) s.nodes.length
      (hash key) key = 0 := by
    simp only [cmpAt, hnm']
    rw [cmp_eq_zero_iff, hshm.2.1, hshm.1]
    exact ⟨rfl, rfl⟩
  have hobs : nm.observable = true := by
    rw [stringNode.observable, hshm.2.2.1, hshm.2.2.2.1]
    rfl
  have hload : Load hash (insertedState hash s key v level L) key = (v, true) := by
    rw [Load_match hI' hmmem hnm' hcmp']
    simp [hobs, hvm]
  have hlen' : Len (insertedState hash s key v level L) = Len s + 1 := by
    rw [Len, Len, insertedState_length]
  exact ⟨hI', hcl', hload, hlen'⟩

/-! ## The deletions on a present, unmarked key -/

/-- The state a successful `Delete`/`LoadAndDelete` produces (verification-side
abbreviation of the mark + unlink + decrement sequence). -/
def deletedState (hash : String → Nat) (s : StringMap) (key : String) (L : List Nat)
    (j : Nat) (nd : stringNode) : StringMap :=
  let s2 := unspliceAll (setNode s j { nd with marked := true })
    (psArr s (hash key) key L maxLevel) nd.next (nd.next.length - 1 + 1)
  { s2 with length := s2.length - 1 }

/-- The heap right after the unlink loop (the `deletedState` before the
counter decrement). -/
def unsplicedState (hash : String → Nat) (s : StringMap) (key : String) (L : List Nat)
    (j : Nat) (nd : stringNode) : StringMap :=
  unspliceAll (setNode s j { nd with marked := true })
    (psArr s (hash key) key L maxLevel) nd.next (nd.next.length - 1 + 1)

theorem nodeAt_deletedState (hash : String → Nat) (s : StringMap) (key : String)
    (L : List Nat) (j : Nat) (nd : stringNode) (i : Nat) :
    nodeAt (deletedState hash s key L j nd) i =
      nodeAt (unsplicedState hash s key L j nd) i := rfl

theorem nextOf_deletedState_unspliced (hash : String → Nat) (s : StringMap) (key : String)
    (L : List Nat) (j : Nat) (nd : stringNode) (i lvl : Nat) :
    nextOf (deletedState hash s key L j nd) i lvl =
      nextOf (unsplicedState hash s key L j nd) i lvl := rfl

theorem deletedState_header (hash : String → Nat) (s : StringMap) (key : String)
    (L : List Nat) (j : Nat) (nd : stringNode) :
    (deletedState hash s key L j nd).header = s.header := by
  have hE : eqExceptNext (unsplicedState hash s key L j nd)
      (setNode s j { nd with marked := true }) :=
    unspliceAll_eqExceptNext (psArr s (hash key) key L maxLevel) nd.next
      (nd.next.length - 1 + 1) (setNode s j { nd with marked := true })
  show (unsplicedState hash s key L j nd).header = s.header
  rw [hE.1, setNode_header]

theorem deletedState_length (hash : String → Nat) (s : StringMap) (key : String)
    (L : List Nat) (j : Nat) (nd : stringNode) :
    (deletedState hash s key L j nd).length = s.length - 1 := by
  have hE : eqExceptNext (unsplicedState hash s key L j nd)
      (setNode s j { nd with marked := true }) :=
    unspliceAll_eqExceptNext (psArr s (hash key) key L maxLevel) nd.next
      (nd.next.length - 1 + 1) (setNode s j { nd with marked := true })
  show (unsplicedState hash s key L j nd).length - 1 = s.length - 1
  rw [hE.2.1, setNode_length]

theorem deletedState_nodesLength (hash : String → Nat) (s : StringMap) (key : String)
    (L : List Nat) (j : Nat) (nd : stringNode) :
    (deletedState hash s key L j nd).nodes.length = s.nodes.length := by
  have hE : eqExceptNext (unsplicedState hash s key L j nd)
      (setNode s j { nd with marked := true }) :=
    unspliceAll_eqExceptNext (psArr s (hash key) key L maxLevel) nd.next
      (nd.next.length - 1 + 1) (setNode s j { nd with marked := true })
  show (unsplicedState hash s key L j nd).nodes.length = s.nodes.length
  rw [hE.2.2.1, setNode_nodesLength]

theorem deletedState_shape {hash : String → Nat} {s : StringMap} {key : String}
    {L : List Nat} {j : Nat} {nd : stringNode} {i : Nat} (hi : i ≠ j) :
    optShape (nodeAt (deletedState hash s key L j nd) i) (nodeAt s i) := by
  rw [nodeAt_deletedState]
  have hE : eqExceptNext (unsplicedState hash s key L j nd)
      (setNode s j { nd with marked := true }) :=
    unspliceAll_eqExceptNext (psArr s (hash key) key L maxLevel) nd.next
      (nd.next.length - 1 + 1) (setNode s j { nd with marked := true })
  have h1 := hE.2.2.2 i
  rw [nodeAt_setNode_ne (fun he => hi he.symm)] at h1
  exact h1

theorem deletedState_victim {hash : String → Nat} (s : StringMap) (key : String)
    (L : List Nat) {j : Nat} {nd : stringNode} (hnd : nodeAt s j = some nd) :
    ∃ nj, nodeAt (deletedState hash s key L j nd) j = some nj ∧
      nodeShape nj { nd with marked := true } := by
  have hE : eqExceptNext (unsplicedState hash s key L j nd)
      (setNode s j { nd with marked := true }) :=
    unspliceAll_eqExceptNext (psArr s (hash key) key L maxLevel) nd.next
      (nd.next.length - 1 + 1) (setNode s j { nd with marked := true })
  obtain ⟨nj, hnj, hsh⟩ := hE.present (nodeAt_setNode_self (bound_of_nodeAt hnd))
  exact ⟨nj, by rw [nodeAt_deletedState]; exact hnj, hsh⟩

/-- The deletion validation passes on a clean well-formed state. -/
theorem deleteValid_true {hash : String → Nat} {s : StringMap} {L : List Nat}
    {key : String} {j : Nat} {nd : stringNode}
    (hI : Inv hash s L) (hcl : clean s L)
    (hj : j ∈ L) (hnd : nodeAt s j = some nd)
    (hcmp : cmpAt s j (hash key) key = 0) :
    deleteValid (setNode s j { nd with marked := true })
      (psArr s (hash key) key L maxLevel) (nd.next.length - 1) = true := by
  have hhm : nd.next.length ≤ maxLevel := (match_height_pos hI hj hnd).2.1
  have hh1 : 1 ≤ nd.next.length := (match_height_pos hI hj hnd).1
  have hbj : belowTarget s (hash key) key j = false := by
    simp [belowTarget, hcmp]
  rw [deleteValid, List.all_eq_true]
  intro layer hlayer
  rw [List.mem_range] at hlayer
  have hlm : layer < maxLevel := by omega
  rw [psArr_getElem s (hash key) key L hlm]
  obtain ⟨pn, hpn, _, hp0L⟩ := pred_node (hash key) key layer hI hlm
  have hpj : j ≠ ((chainAt s L layer).takeWhile (belowTarget s (hash key) key)).getLastD 0 := by
    rcases getLastD_cases ((chainAt s L layer).takeWhile (belowTarget s (hash key) key)) 0
      with h | h
    · rw [h]
      exact (hI.memBound j hj).2
    · intro he
      have hb := List.mem_takeWhile_imp h
      rw [← he, hbj] at hb
      cases hb
  have hpn1 : nodeAt (setNode s j { nd with marked := true })
      (((chainAt s L layer).takeWhile (belowTarget s (hash key) key)).getLastD 0) =
      some pn := by
    rw [nodeAt_setNode_ne hpj]
    exact hpn
  have hpm : pn.marked = false := by
    have h := pred_unmarked (hash key) key layer hI hcl hlm
    rw [markedAt, hpn] at h
    exact h
  have hnx : nextOf (setNode s j { nd with marked := true })
      (((chainAt s L layer).takeWhile (belowTarget s (hash key) key)).getLastD 0) layer =
      ((chainAt s L layer).dropWhile (belowTarget s (hash key) key)).head? := by
    rw [nextOf_setNode_eqnext hnd
      (rfl : ({ nd with marked := true }).next = nd.next)]
    exact next_pred_eq_succ (hash key) key layer hI hlm
  simp only [List.getLastD_eq_getLast?] at hpn1 hnx
  simp [hpn1, hpm, hnx]

/-- The recorded successor at every layer below the match's height is the
match itself. -/
theorem succ_is_match {hash : String → Nat} {s : StringMap} {L : List Nat}
    {key : String} {j : Nat} {nd : stringNode}
    (hI : Inv hash s L) (hj : j ∈ L) (hnd : nodeAt s j = some nd)
    (hcmp : cmpAt s j (hash key) key = 0) {lvl : Nat} (hlvl : lvl < nd.next.length) :
    ((chainAt s L lvl).dropWhile (belowTarget s (hash key) key)).head? = some j := by
  have hjc : j ∈ chainAt s L lvl := by
    refine mem_chainAt.mpr ⟨hj, ?_⟩
    simp only [heightOf, hnd]
    omega
  exact head_dropWhile_match (hI.chain_sorted lvl) (hI.chain_present lvl) hjc hcmp

theorem LoadAndDelete_found_eq {hash : String → Nat} {s : StringMap} {L : List Nat}
    {key : String} {j : Nat} {nd : stringNode}
    (hI : Inv hash s L) (hcl : clean s L)
    (hj : j ∈ L) (hnd : nodeAt s j = some nd)
    (hcmp : cmpAt s j (hash key) key = 0) :
    LoadAndDelete hash s key =
      some (nd.value, true, deletedState hash s key L j nd) := by
  have hmk : nd.marked = false := by
    have h := hcl j hj
    rw [markedAt, hnd] at h
    exact h
  have hfl : nd.fullyLinked = true := (match_height_pos hI hj hnd).2.2.1
  have hhm : nd.next.length ≤ maxLevel := (match_height_pos hI hj hnd).2.1
  have hh1 : 1 ≤ nd.next.length := (match_height_pos hI hj hnd).1
  have hsucc : (psArr s (hash key) key L maxLevel)[nd.next.length - 1]?.bind Prod.snd =
      some j := by
    rw [psArr_getElem s (hash key) key L (by omega : nd.next.length - 1 < maxLevel)]
    exact succ_is_match hI hj hnd hcmp (by omega)
  have hdv := deleteValid_true hI hcl hj hnd hcmp
  have hcond : (nd.observable && (nd.next.length - 1 == nd.next.length - 1)) = true := by
    simp [stringNode.observable, hfl, hmk]
  simp only [LoadAndDelete, findNodeDelete_match hI hj hnd hcmp, hsucc, hnd, hcond,
    hmk, hdv, Bool.false_eq_true, if_true, if_false, eq_self_iff_true]
  rfl

theorem Delete_found_eq {hash : String → Nat} {s : StringMap} {L : List Nat}
    {key : String} {j : Nat} {nd : stringNode}
    (hI : Inv hash s L) (hcl : clean s L)
    (hj : j ∈ L) (hnd : nodeAt s j = some nd)
    (hcmp : cmpAt s j (hash key) key = 0) :
    Delete hash s key = some (deletedState hash s key L j nd) := by
  have hmk : nd.marked = false := by
    have h := hcl j hj
    rw [markedAt, hnd] at h
    exact h
  have hfl : nd.fullyLinked = true := (match_height_pos hI hj hnd).2.2.1
  have hhm : nd.next.length ≤ maxLevel := (match_height_pos hI hj hnd).2.1
  have hh1 : 1 ≤ nd.next.length := (match_height_pos hI hj hnd).1
  have hsucc : (psArr s (hash key) key L maxLevel)[nd.next.length - 1]?.bind Prod.snd =
      some j := by
    rw [psArr_getElem s (hash key) key L (by omega : nd.next.length - 1 < maxLevel)]
    exact succ_is_match hI hj hnd hcmp (by omega)
  have hdv := deleteValid_true hI hcl hj hnd hcmp
  have hcond : (nd.observable && (nd.next.length - 1 == nd.next.length - 1)) = true := by
    simp [stringNode.observable, hfl, hmk]
  simp only [Delete, findNodeDelete_match hI hj hnd hcmp, hsucc, hnd, hcond,
    hmk, hdv, Bool.false_eq_true, if_true, if_false, eq_self_iff_true]
  rfl

theorem LoadAndDelete_noMatch {hash : String → Nat} {s : StringMap} {L : List Nat}
    {key : String}
    (hI : Inv hash s L) (hnm : ∀ j ∈ L, cmpAt s j (hash key) key ≠ 0) :
    LoadAndDelete hash s key = some (.nil, false, s) := by
  simp only [LoadAndDelete, findNodeDelete_noMatch hI hnm]

theorem Delete_noMatch {hash : String → Nat} {s : StringMap} {L : List Nat}
    {key : String}
    (hI : Inv hash s L) (hnm : ∀ j ∈ L, cmpAt s j (hash key) key ≠ 0) :
    Delete hash s key = some s := by
  simp only [Delete, findNodeDelete_noMatch hI hnm]

theorem LoadAndDelete_marked {hash : String → Nat} {s : StringMap} {L : List Nat}
    {key : String} {j : Nat} {nd : stringNode}
    (hI : Inv hash s L) (hj : j ∈ L) (hnd : nodeAt s j = some nd)
    (hcmp : cmpAt s j (hash key) key = 0) (hmk : nd.marked = true) :
    LoadAndDelete hash s key = some (.nil, false, s) := by
  have hhm : nd.next.length ≤ maxLevel := (match_height_pos hI hj hnd).2.1
  have hh1 : 1 ≤ nd.next.length := (match_height_pos hI hj hnd).1
  have hsucc : (psArr s (hash key) key L maxLevel)[nd.next.length - 1]?.bind Prod.snd =
      some j := by
    rw [psArr_getElem s (hash key) key L (by omega : nd.next.length - 1 < maxLevel)]
    exact succ_is_match hI hj hnd hcmp (by omega)
  simp only [LoadAndDelete, findNodeDelete_match hI hj hnd hcmp, hsucc, hnd,
    stringNode.observable, hmk, Bool.not_true, Bool.and_false, Bool.false_and,
    Bool.false_eq_true, if_false]

theorem Delete_marked {hash : String → Nat} {s : StringMap} {L : List Nat}
    {key : String} {j : Nat} {nd : stringNode}
    (hI : Inv hash s L) (hj : j ∈ L) (hnd : nodeAt s j = some nd)
    (hcmp : cmpAt s j (hash key) key = 0) (hmk : nd.marked = true) :
    Delete hash s key = some s := by
  have hhm : nd.next.length ≤ maxLevel := (match_height_pos hI hj hnd).2.1
  have hh1 : 1 ≤ nd.next.length := (match_height_pos hI hj hnd).1
  have hsucc : (psArr s (hash key) key L maxLevel)[nd.next.length - 1]?.bind Prod.snd =
      some j := by
    rw [psArr_getElem s (hash key) key L (by omega : nd.next.length - 1 < maxLevel)]
    exact succ_is_match hI hj hnd hcmp (by omega)
  simp only [Delete, findNodeDelete_match hI hj hnd hcmp, hsucc, hnd,
    stringNode.observable, hmk, Bool.not_true, Bool.and_false, Bool.false_and,
    Bool.false_eq_true, if_false]

/-- Where every successor pointer of the deleted state points: below the
victim's height the recorded predecessors are rerouted to the victim's own
successors; everything else is untouched. -/
theorem nextOf_deletedState {hash : String → Nat} {s : StringMap} {L : List Nat}
    {key : String} {j : Nat} {nd : stringNode}
    (hI : Inv hash s L) (hj : j ∈ L) (hnd : nodeAt s j = some nd) (i lvl : Nat) :
    nextOf (deletedState hash s key L j nd) i lvl =
      if lvl < nd.next.length ∧
          (psArr s (hash key) key L maxLevel)[lvl]?.map Prod.fst = some i then
        nextOf s j lvl
      else nextOf s i lvl := by
  have hhm : nd.next.length ≤ maxLevel := (match_height_pos hI hj hnd).2.1
  have hh1 : 1 ≤ nd.next.length := (match_height_pos hI hj hnd).1
  have hpo : predsOk (setNode s j { nd with marked := true })
      (psArr s (hash key) key L maxLevel) (nd.next.length - 1 + 1) := by
    intro l hl
    obtain ⟨pr, n, hpr, hn, hh⟩ := predsOk_psArr hI (by omega) l hl
    by_cases hpj : pr.1 = j
    · refine ⟨pr, { nd with marked := true }, hpr, ?_, ?_⟩
      · rw [hpj]
        exact nodeAt_setNode_self (bound_of_nodeAt hnd)
      · have hnnd : n = nd := by
          rw [hpj, hnd] at hn
          exact (Option.some.inj hn).symm
        show l < nd.next.length
        rw [hnnd] at hh
        exact hh
    · refine ⟨pr, n, hpr, ?_, hh⟩
      rw [nodeAt_setNode_ne (fun he => hpj he.symm)]
      exact hn
  have hmain : nextOf (unsplicedState hash s key L j nd) i lvl =
      if lvl < nd.next.length - 1 + 1 ∧
          (psArr s (hash key) key L maxLevel)[lvl]?.map Prod.fst = some i then
        ((nd.next[lvl]?).join)
      else nextOf (setNode s j { nd with marked := true }) i lvl :=
    nextOf_unspliceAll (psArr s (hash key) key L maxLevel) nd.next
      (nd.next.length - 1 + 1) (setNode s j { nd with marked := true }) hpo i lvl
  rw [nextOf_deletedState_unspliced, hmain,
    nextOf_setNode_eqnext hnd (rfl : ({ nd with marked := true }).next = nd.next)]
  have hlenEq : nd.next.length - 1 + 1 = nd.next.length := by omega
  rw [hlenEq]
  have hjn : nextOf s j lvl = (nd.next[lvl]?).join := by
    simp only [nextOf, hnd]
  rw [hjn]

/-- A present key splits the list at itself: the drop-while suffix starts
with the match. -/
theorem delete_split {hash : String → Nat} {s : StringMap} {L : List Nat}
    {key : String} {j : Nat}
    (hI : Inv hash s L) (hj : j ∈ L) (hcmp : cmpAt s j (hash key) key = 0) :
    ∃ L₂, L.dropWhile (belowTarget s (hash key) key) = j :: L₂ := by
  have hpres : ∀ i ∈ L, ∃ n, nodeAt s i = some n := fun i hi =>
    (hI.node_mem hi).imp fun n hn => hn.1
  have hh := head_dropWhile_match hI.sorted hpres hj hcmp
  cases hdw : L.dropWhile (belowTarget s (hash key) key) with
  | nil =>
    rw [hdw] at hh
    exact absurd hh (by simp)
  | cons a t =>
    rw [hdw] at hh
    have haj : a = j := by simpa using hh
    exact ⟨t, by rw [haj]⟩

/-- Full specification of the successful deletion: removing the match drops
it from the sorted list, preserves the invariant and cleanliness, makes the
key unloadable, and shrinks the counter by one. -/
theorem delete_spec {hash : String → Nat} {s : StringMap} {L : List Nat}
    {key : String} {j : Nat} {nd : stringNode} {L₁ L₂ : List Nat}
    (hI : Inv hash s L) (hcl : clean s L)
    (hj : j ∈ L) (hnd : nodeAt s j = some nd)
    (hcmp : cmpAt s j (hash key) key = 0)
    (hL1 : L₁ = L.takeWhile (belowTarget s (hash key) key))
    (hL2 : L.dropWhile (belowTarget s (hash key) key) = j :: L₂) :
    Inv hash (deletedState hash s key L j nd) (L₁ ++ L₂) ∧
      clean (deletedState hash s key L j nd) (L₁ ++ L₂) ∧
      Load hash (deletedState hash s key L j nd) key = (.nil, false) ∧
      Len (deletedState hash s key L j nd) = Len s - 1 := by
  have hpres : ∀ i ∈ L, ∃ n, nodeAt s i = some n := fun i hi =>
    (hI.node_mem hi).imp fun n hn => hn.1
  have hhm : nd.next.length ≤ maxLevel := (match_height_pos hI hj hnd).2.1
  have hh1 : 1 ≤ nd.next.length := (match_height_pos hI hj hnd).1
  have hLsplit : L₁ ++ j :: L₂ = L := by
    rw [hL1, ← hL2]
    exact List.takeWhile_append_dropWhile _ _
  have hmem1 : ∀ i ∈ L₁, i ∈ L := fun i hi => by
    rw [← hLsplit]; exact List.mem_append.mpr (.inl hi)
  have hmem2 : ∀ i ∈ L₂, i ∈ L := fun i hi => by
    rw [← hLsplit]; exact List.mem_append.mpr (.inr (.tail _ hi))
  have hb1 : ∀ i ∈ L₁, belowTarget s (hash key) key i = true := fun i hi =>
    List.mem_takeWhile_imp (hL1 ▸ hi)
  have hbj : belowTarget s (hash key) key j = false := by simp [belowTarget, hcmp]
  have hmemdw : ∀ i ∈ L₂, i ∈ L.dropWhile (belowTarget s (hash key) key) := by
    intro i hi
    rw [hL2]
    exact .tail _ hi
  have hb2 : ∀ i ∈ L₂, belowTarget s (hash key) key i = false := fun i hi =>
    dropWhile_not_below hI.sorted hpres i (hmemdw i hi)
  have hskj : scoreKeyAt s j = (hash key, key) := (cmpAt_zero_iff hnd).mp hcmp
  have hsorJ : (j :: L₂).Pairwise (nodeLt s) := by
    have hsub : List.Sublist (L.dropWhile (belowTarget s (hash key) key)) L :=
      List.dropWhile_sublist _
    have h := List.Pairwise.sublist hsub hI.sorted
    rw [hL2] at h
    exact h
  have hgt2 : ∀ i ∈ L₂, pairLt (hash key, key) (scoreKeyAt s i) := by
    intro i hi
    have h := (List.pairwise_cons.mp hsorJ).1 i hi
    rw [nodeLt, hskj] at h
    exact h
  have hlt1 : ∀ i ∈ L₁, pairLt (scoreKeyAt s i) (hash key, key) := by
    intro i hi
    obtain ⟨n, hn⟩ := hpres i (hmem1 i hi)
    exact (belowTarget_iff hn).mp (hb1 i hi)
  have hbnd : ∀ i ∈ L, i < s.nodes.length ∧ i ≠ 0 := hI.memBound
  have hnodL : L.Nodup := pairwise_nodeLt_nodup hI.sorted
  have hnodSplit : (L₁ ++ j :: L₂).Nodup := by
    rw [hLsplit]
    exact hnodL
  have hjn1 : j ∉ L₁ := by
    intro h
    rw [hb1 j h] at hbj
    cases hbj
  have hjn2 : j ∉ L₂ :=
    (List.nodup_cons.mp (List.nodup_append.mp hnodSplit).2.1).1
  have hne1 : ∀ i ∈ L₁, i ≠ j := fun i hi he => hjn1 (he ▸ hi)
  have hne2 : ∀ i ∈ L₂, i ≠ j := fun i hi he => hjn2 (he ▸ hi)
  have hdisj12 : ∀ i ∈ L₁, i ∈ L₂ → False := fun i hi1 hi2 =>
    (List.nodup_append.mp hnodSplit).2.2 hi1 (.tail _ hi2)
  have hsplitP := hI.sorted
  rw [← hLsplit, List.pairwise_append] at hsplitP
  obtain ⟨hP1, hPj2, hP12⟩ := hsplitP
  have hP2 : L₂.Pairwise (nodeLt s) := (List.pairwise_cons.mp hPj2).2
  have hshape : ∀ i, i ≠ j →
      optShape (nodeAt (deletedState hash s key L j nd) i) (nodeAt s i) :=
    fun i hi => deletedState_shape hi
  have hhOld : ∀ i, i ≠ j →
      heightOf (deletedState hash s key L j nd) i = heightOf s i :=
    fun i hi => heightOf_of_optShape (hshape i hi)
  have hhj : heightOf s j = nd.next.length := by simp only [heightOf, hnd]
  have hchainOld : ∀ lvl, chainAt s L lvl =
      chainAt s L₁ lvl ++
        (if lvl < nd.next.length then j :: chainAt s L₂ lvl
         else chainAt s L₂ lvl) := by
    intro lvl
    conv_lhs => rw [← hLsplit]
    simp only [chainAt, List.filter_append, List.filter_cons]
    congr 1
    rw [hhj]
    by_cases hll : lvl < nd.next.length
    · rw [if_pos (by simpa using hll), if_pos hll]
    · rw [if_neg (by simpa using hll), if_neg hll]
  have htwC : ∀ lvl, (chainAt s L lvl).takeWhile (belowTarget s (hash key) key) =
      chainAt s L₁ lvl := by
    intro lvl
    rw [hchainOld lvl]
    by_cases hll : lvl < nd.next.length
    · rw [if_pos hll,
        takeWhile_append_all (fun a ha => hb1 a (mem_chainAt.mp ha).1),
        List.takeWhile_cons_of_neg (by simp [hbj]), List.append_nil]
    · rw [if_neg hll,
        takeWhile_append_all (fun a ha => hb1 a (mem_chainAt.mp ha).1),
        takeWhile_nil_of_false (fun a ha => hb2 a (mem_chainAt.mp ha).1),
        List.append_nil]
  have hfst : ∀ lvl, lvl < maxLevel →
      (psArr s (hash key) key L maxLevel)[lvl]?.map Prod.fst =
        some ((chainAt s L₁ lvl).getLastD 0) := by
    intro lvl hlm
    rw [psArr_getElem s (hash key) key L hlm, Option.map_some', htwC lvl]
  have hzero1 : ∀ lvl, (0 : Nat) ∉ chainAt s L₁ lvl := by
    intro lvl h0
    exact (hbnd 0 (hmem1 0 (mem_chainAt.mp h0).1)).2 rfl
  have hnodup01 : ∀ lvl, ((0 : Nat) :: chainAt s L₁ lvl).Nodup := by
    intro lvl
    rw [List.nodup_cons]
    exact ⟨hzero1 lvl,
      pairwise_nodeLt_nodup (List.Pairwise.sublist (chainAt_sublist s L₁ lvl) hP1)⟩
  have hdisjC : ∀ lvl, ∀ i ∈ chainAt s L₁ lvl, i ∈ chainAt s L₂ lvl → False := by
    intro lvl i h1 h2
    exact hdisj12 i (mem_chainAt.mp h1).1 (mem_chainAt.mp h2).1
  have hnxKeep : ∀ i lvl, ¬ (lvl < nd.next.length ∧
      (psArr s (hash key) key L maxLevel)[lvl]?.map Prod.fst = some i) →
      nextOf (deletedState hash s key L j nd) i lvl = nextOf s i lvl := by
    intro i lvl hc
    rw [nextOf_deletedState hI hj hnd i lvl, if_neg hc]
  have hnxPred : ∀ i lvl, lvl < nd.next.length →
      (psArr s (hash key) key L maxLevel)[lvl]?.map Prod.fst = some i →
      nextOf (deletedState hash s key L j nd) i lvl = nextOf s j lvl := by
    intro i lvl h1 h2
    rw [nextOf_deletedState hI hj hnd i lvl, if_pos ⟨h1, h2⟩]
  have hchainF : ∀ lvl,
      chainAt (deletedState hash s key L j nd) (L₁ ++ L₂) lvl =
        chainAt s L₁ lvl ++ chainAt s L₂ lvl := by
    intro lvl
    simp only [chainAt, List.filter_append]
    congr 1
    · exact List.filter_congr fun i hi => by simp only [hhOld i (hne1 i hi)]
    · exact List.filter_congr fun i hi => by simp only [hhOld i (hne2 i hi)]
  have hlinked : ∀ lvl, lvl < maxLevel →
      linked (deletedState hash s key L j nd) lvl
        (0 :: chainAt (deletedState hash s key L j nd) (L₁ ++ L₂) lvl) := by
    intro lvl hlvl
    rw [linked, hchainF lvl, ← List.cons_append]
    have hold : chainSeg s lvl (0 :: chainAt s L lvl) none := hI.chains lvl hlvl
    rw [hchainOld lvl] at hold
    by_cases hll : lvl < nd.next.length
    · rw [if_pos hll, ← List.cons_append] at hold
      obtain ⟨hA, hjB⟩ := (chainSeg_append _ _ _).mp hold
      rw [chainSeg_cons_iff] at hjB
      obtain ⟨hjn, hB⟩ := hjB
      refine (chainSeg_append _ _ _).mpr ⟨?_, ?_⟩
      · refine chainSeg_retarget (chainAt s L₁ lvl) 0 hA ?_ ?_
        · intro i hi
          have hiLast := ne_getLastD_of_mem_dropLast (hnodup01 lvl) i hi
          refine hnxKeep i lvl ?_
          rintro ⟨hll2, hf⟩
          rw [hfst lvl hlvl] at hf
          exact hiLast (Option.some.inj hf).symm
        · rw [hnxPred _ lvl hll (hfst lvl hlvl)]
          exact hjn
      · refine chainSeg_congr ?_ hB
        intro i hi
        refine hnxKeep i lvl ?_
        rintro ⟨hll2, hf⟩
        rw [hfst lvl hlvl] at hf
        have hieq : i = (chainAt s L₁ lvl).getLastD 0 := (Option.some.inj hf).symm
        rcases getLastD_cases (chainAt s L₁ lvl) 0 with h | h
        · rw [h] at hieq
          exact (hbnd i (hmem2 i (mem_chainAt.mp hi).1)).2 hieq
        · rw [← hieq] at h
          exact hdisjC lvl i h hi
    · rw [if_neg hll, ← List.cons_append] at hold
      refine chainSeg_congr ?_ hold
      intro i hi
      refine hnxKeep i lvl ?_
      rintro ⟨hll2, _⟩
      exact hll hll2
  have hnodesLen := deletedState_nodesLength hash s key L j nd
  have hBnd' : ∀ i ∈ L₁ ++ L₂,
      i < (deletedState hash s key L j nd).nodes.length ∧ i ≠ 0 := by
    intro i hi
    rw [hnodesLen]
    rcases List.mem_append.mp hi with h | h
    · exact hbnd i (hmem1 i h)
    · exact hbnd i (hmem2 i h)
  have hOk' : ∀ i ∈ L₁ ++ L₂, nodeOk hash (deletedState hash s key L j nd) i := by
    intro i hi
    rcases List.mem_append.mp hi with h | h
    · exact (nodeOk_iff_of_optShape (hshape i (hne1 i h))).mpr
        (hI.nodesOk i (hmem1 i h))
    · exact (nodeOk_iff_of_optShape (hshape i (hne2 i h))).mpr
        (hI.nodesOk i (hmem2 i h))
  have hskOld : ∀ i, i ≠ j →
      scoreKeyAt (deletedState hash s key L j nd) i = scoreKeyAt s i :=
    fun i hi => scoreKeyAt_of_optShape (hshape i hi)
  have hsorted' : (L₁ ++ L₂).Pairwise (nodeLt (deletedState hash s key L j nd)) := by
    rw [List.pairwise_append]
    refine ⟨?_, ?_, ?_⟩
    · refine hP1.imp_of_mem ?_
      intro a b ha hb hab
      rw [nodeLt, hskOld a (hne1 a ha), hskOld b (hne1 b hb)]
      exact hab
    · refine hP2.imp_of_mem ?_
      intro a b ha hb hab
      rw [nodeLt, hskOld a (hne2 a ha), hskOld b (hne2 b hb)]
      exact hab
    · intro a ha b hb
      rw [nodeLt, hskOld a (hne1 a ha), hskOld b (hne2 b hb)]
      exact hP12 a ha b (.tail _ hb)
  have hhdr' : (deletedState hash s key L j nd).header = 0 :=
    (deletedState_header hash s key L j nd).trans hI.header0
  have h0j : (0 : Nat) ≠ j := fun he => (hbnd j hj).2 he.symm
  have hHOk' : headerOk hash (deletedState hash s key L j nd) :=
    (headerOk_iff_of_optShape (hshape 0 h0j)).mpr hI.hdOk
  have hlen12 : L₁.length + L₂.length + 1 = L.length := by
    have hc := congrArg List.length hLsplit
    rw [List.length_append, List.length_cons] at hc
    omega
  have hsize' : (deletedState hash s key L j nd).length =
      ((L₁ ++ L₂).length : Int) := by
    rw [deletedState_length, hI.size, List.length_append]
    push_cast
    omega
  have hI' : Inv hash (deletedState hash s key L j nd) (L₁ ++ L₂) :=
    ⟨hhdr', hHOk', hBnd', hOk', hsorted', hlinked, hsize'⟩
  have hcl' : clean (deletedState hash s key L j nd) (L₁ ++ L₂) := by
    intro i hi
    rcases List.mem_append.mp hi with h | h
    · rw [markedAt_of_optShape (hshape i (hne1 i h))]
      exact hcl i (hmem1 i h)
    · rw [markedAt_of_optShape (hshape i (hne2 i h))]
      exact hcl i (hmem2 i h)
  have hnm' : ∀ i ∈ L₁ ++ L₂,
      cmpAt (deletedState hash s key L j nd) i (hash key) key ≠ 0 := by
    intro i hi hz
    have hij : i ≠ j := by
      rcases List.mem_append.mp hi with h | h
      · exact hne1 i h
      · exact hne2 i h
    have hiL : i ∈ L := by
      rcases List.mem_append.mp hi with h | h
      · exact hmem1 i h
      · exact hmem2 i h
    rw [cmpAt_of_optShape (hshape i hij)] at hz
    exact hij (match_unique hI.sorted hpres hiL hj hz hcmp)
  have hload : Load hash (deletedState hash s key L j nd) key = (.nil, false) :=
    Load_noMatch hI' hnm'
  have hlen' : Len (deletedState hash s key L j nd) = Len s - 1 := by
    rw [Len, Len, deletedState_length]
  exact ⟨hI', hcl', hload, hlen'⟩

/-! ## `Range` on a well-formed clean state -/

theorem RangeAux_chain {s : StringMap} :
    ∀ (c : List Nat) (fuel : Nat), chainSeg s 0 c none →
      (∀ i ∈ c, ∃ n, nodeAt s i = some n ∧ n.observable = true) →
      c.length ≤ fuel →
      RangeAux s (fun _ _ => true) fuel c.head? =
        c.map (fun i => (keyAt s i, valueAt s i))
  | [], fuel, _, _, _ => by cases fuel <;> rfl
  | i :: c, fuel, hc, hobs, hf => by
    obtain ⟨fuel, rfl⟩ : ∃ f, fuel = f + 1 := ⟨fuel - 1, by simp at hf; omega⟩
    obtain ⟨n, hn, ho⟩ := hobs i (.head _)
    rw [chainSeg_cons_iff] at hc
    have hnx : nextOf s i 0 = c.head? := by rw [hc.1, headStop_none]
    have hjoin : (n.next[0]?).join = c.head? := by
      rw [← hnx]
      simp only [nextOf, hn]
    show RangeAux s (fun _ _ => true) (fuel+1) (some i) = _
    simp only [RangeAux, hn, ho, Bool.not_true, Bool.false_eq_true, if_false, if_true,
      eq_self_iff_true, hjoin]
    rw [RangeAux_chain c fuel hc.2 (fun x hx => hobs x (.tail _ hx)) (by simp at hf; omega)]
    simp only [List.map_cons, keyAt, valueAt, hn]

/-- A completed `Range` visits exactly the sorted node list, in order, with
each node's key and value. -/
theorem RangeList_spec {hash : String → Nat} {s : StringMap} {L : List Nat}
    (hI : Inv hash s L) (hcl : clean s L) :
    RangeList s = L.map (fun i => (keyAt s i, valueAt s i)) := by
  have hchain : chainSeg s 0 (0 :: chainAt s L 0) none := hI.chains 0 (by decide)
  rw [chainSeg_cons_iff] at hchain
  have hobs : ∀ i ∈ chainAt s L 0, ∃ n, nodeAt s i = some n ∧ n.observable = true := by
    intro i hi
    obtain ⟨n, hn, _, hfl, _, _⟩ := hI.node_mem (mem_chainAt.mp hi).1
    refine ⟨n, hn, ?_⟩
    have hmk : n.marked = false := by
      have h := hcl i (mem_chainAt.mp hi).1
      rw [markedAt, hn] at h
      exact h
    simp [stringNode.observable, hfl, hmk]
  have hfuel : (chainAt s L 0).length ≤ s.nodes.length := hI.chain_len 0
  have hnx : nextOf s s.header 0 = (chainAt s L 0).head? := by
    rw [hI.header0, hchain.1, headStop_none]
  rw [RangeList, Range, hnx,
    RangeAux_chain (chainAt s L 0) s.nodes.length hchain.2 hobs hfuel,
    hI.chainAt_zero]

theorem RangeList_sorted {hash : String → Nat} {s : StringMap} {L : List Nat}
    (hI : Inv hash s L) (hcl : clean s L) :
    (RangeList s).Pairwise (fun a b => pairLt (hash a.1, a.1) (hash b.1, b.1)) := by
  rw [RangeList_spec hI hcl, List.pairwise_map]
  refine hI.sorted.imp_of_mem ?_
  intro a b ha hb hab
  obtain ⟨na, hna, hsa, _, _, _⟩ := hI.node_mem ha
  obtain ⟨nb, hnb, hsb, _, _, _⟩ := hI.node_mem hb
  show pairLt (hash (keyAt s a), keyAt s a) (hash (keyAt s b), keyAt s b)
  have hka : hash (keyAt s a) = scoreAt s a := by
    rw [keyAt, scoreAt, hna]
    exact hsa.symm
  have hkb : hash (keyAt s b) = scoreAt s b := by
    rw [keyAt, scoreAt, hnb]
    exact hsb.symm
  rw [hka, hkb]
  exact hab

/-! ## Present keys, `Load`, and the counter -/

theorem Load_found_iff {hash : String → Nat} {s : StringMap} {L : List Nat}
    {key : String} (hI : Inv hash s L) (hcl : clean s L) :
    (Load hash s key).2 = true ↔ ∃ j ∈ L, cmpAt s j (hash key) key = 0 := by
  constructor
  · intro h
    by_contra hn
    push_neg at hn
    rw [Load_noMatch hI hn] at h
    exact absurd h (by decide)
  · rintro ⟨j, hj, hcmp⟩
    obtain ⟨nj, hnj, _, hfl, _, _⟩ := hI.node_mem hj
    rw [Load_match hI hj hnj hcmp]
    have hmk : nj.marked = false := by
      have h := hcl j hj
      rw [markedAt, hnj] at h
      exact h
    simp [stringNode.observable, hfl, hmk]

theorem match_key_iff {hash : String → Nat} {s : StringMap} {L : List Nat}
    {key : String} (hI : Inv hash s L) :
    (∃ j ∈ L, cmpAt s j (hash key) key = 0) ↔ key ∈ L.map (keyAt s) := by
  constructor
  · rintro ⟨j, hj, hcmp⟩
    obtain ⟨nj, hnj, _, _, _, _⟩ := hI.node_mem hj
    have hsk := (cmpAt_zero_iff hnj).mp hcmp
    have hk : keyAt s j = key := congrArg Prod.snd hsk
    exact List.mem_map.mpr ⟨j, hj, hk⟩
  · intro h
    obtain ⟨j, hj, hk⟩ := List.mem_map.mp h
    obtain ⟨nj, hnj, hsc, _, _, _⟩ := hI.node_mem hj
    refine ⟨j, hj, ?_⟩
    simp only [keyAt, hnj] at hk
    simp only [cmpAt, hnj]
    rw [cmp_eq_zero_iff]
    exact ⟨by rw [hsc, hk], hk⟩

theorem keys_nodup {hash : String → Nat} {s : StringMap} {L : List Nat}
    (hI : Inv hash s L) : (L.map (keyAt s)).Nodup := by
  show (L.map (keyAt s)).Pairwise (fun a b => a ≠ b)
  rw [List.pairwise_map]
  refine hI.sorted.imp_of_mem ?_
  intro a b ha hb hab heq
  obtain ⟨na, hna, hsa, _, _, _⟩ := hI.node_mem ha
  obtain ⟨nb, hnb, hsb, _, _, _⟩ := hI.node_mem hb
  have hka : scoreAt s a = hash (keyAt s a) := by
    rw [scoreAt, keyAt, hna]
    exact hsa
  have hkb : scoreAt s b = hash (keyAt s b) := by
    rw [scoreAt, keyAt, hnb]
    exact hsb
  have hsk : scoreKeyAt s a = scoreKeyAt s b := by
    rw [scoreKeyAt, scoreKeyAt, hka, hkb, heq]
  rw [nodeLt, hsk] at hab
  exact pairLt_irrefl _ hab

/-! ## The initial state -/

theorem Inv_NewString (hash : String → Nat) :
    Inv hash (NewString hash) [] ∧ clean (NewString hash) [] := by
  constructor
  · refine ⟨rfl, ?_, ?_, ?_, List.Pairwise.nil, ?_, rfl⟩
    · show headerOk hash (NewString hash)
      simp [headerOk, NewString, nodeAt, newStringNode, maxLevel]
    · intro i hi
      cases hi
    · intro i hi
      cases hi
    · intro lvl hlvl
      show nextOf (NewString hash) 0 lvl = none
      by_cases h : lvl < maxLevel <;>
        simp [nextOf, nodeAt, NewString, newStringNode, List.getElem?_replicate, h]
  · intro i hi
    cases hi

/-! ## Dispatching `Store` and the reachability master lemma -/

theorem Store_spec {hash : String → Nat} {s : StringMap} {L : List Nat}
    {key : String} {v : GoVal} {level : Nat} {s' : StringMap}
    (hI : Inv hash s L) (hcl : clean s L)
    (h1 : 1 ≤ level) (h2 : level ≤ maxLevel)
    (hst : Store hash s key v level = some s') :
    (∃ M, Inv hash s' M ∧ clean s' M) ∧ Load hash s' key = (v, true) ∧
      (Len s' = Len s ∨ Len s' = Len s + 1) := by
  by_cases hm : ∃ j ∈ L, cmpAt s j (hash key) key = 0
  · obtain ⟨j, hj, hcmp⟩ := hm
    obtain ⟨nj, hnj, _, _, _, _⟩ := hI.node_mem hj
    have hmk : nj.marked = false := by
      have h := hcl j hj
      rw [markedAt, hnj] at h
      exact h
    have heq : Store hash s key v level = some (setNode s j { nj with value := v }) :=
      Store_found_eq hI hj hnj hcmp hmk
    rw [hst] at heq
    have hs' : s' = setNode s j { nj with value := v } := Option.some.inj heq
    subst hs'
    obtain ⟨_, hI', hcl', hld, hlen⟩ :=
      @Store_found_spec hash s L key v level j nj hI hcl hj hnj hcmp
    exact ⟨⟨L, hI', hcl'⟩, hld, .inl hlen⟩
  · push_neg at hm
    have heq : Store hash s key v level = some (insertedState hash s key v level L) :=
      Store_insert_eq hI hcl hm h2
    rw [hst] at heq
    have hs' : s' = insertedState hash s key v level L := Option.some.inj heq
    subst hs'
    obtain ⟨hI', hcl', hld, hlen⟩ :=
      @Store_insert_spec hash s L key v level _ _ hI hcl hm h1 h2 rfl rfl
    exact ⟨⟨_, hI', hcl'⟩, hld, .inr hlen⟩

/-- Every state reachable by completed operations is well formed and clean. -/
theorem Reachable_Inv {hash : String → Nat} {s : StringMap}
    (hr : Reachable hash s) : ∃ L, Inv hash s L ∧ clean s L := by
  induction hr with
  | init => exact ⟨[], Inv_NewString hash⟩
  | store hr1 h1 h2 hst ih =>
    obtain ⟨L, hI, hcl⟩ := ih
    exact (Store_spec hI hcl h1 h2 hst).1
  | @del s0 s' key hr1 hdel ih =>
    obtain ⟨L, hI, hcl⟩ := ih
    by_cases hm : ∃ j ∈ L, cmpAt s0 j (hash key) key = 0
    · obtain ⟨j, hj, hcmp⟩ := hm
      obtain ⟨nd, hnd, _, _, _, _⟩ := hI.node_mem hj
      have heq := Delete_found_eq hI hcl hj hnd hcmp
      rw [hdel] at heq
      have hs' : s' = deletedState hash s0 key L j nd := Option.some.inj heq
      subst hs'
      obtain ⟨L₂, hL2⟩ := delete_split hI hj hcmp
      obtain ⟨hI', hcl', _, _⟩ := delete_spec hI hcl hj hnd hcmp rfl hL2
      exact ⟨_, hI', hcl'⟩
    · push_neg at hm
      have heq := Delete_noMatch hI hm
      rw [hdel] at heq
      have hs' : s' = s0 := Option.some.inj heq
      subst hs'
      exact ⟨L, hI, hcl⟩
  | @loadAndDelete s0 s' key value loaded hr1 hld ih =>
    obtain ⟨L, hI, hcl⟩ := ih
    by_cases hm : ∃ j ∈ L, cmpAt s0 j (hash key) key = 0
    · obtain ⟨j, hj, hcmp⟩ := hm
      obtain ⟨nd, hnd, _, _, _, _⟩ := hI.node_mem hj
      have heq := LoadAndDelete_found_eq hI hcl hj hnd hcmp
      rw [hld] at heq
      have htr := Option.some.inj heq
      have hs' : s' = deletedState hash s0 key L j nd :=
        congrArg (fun t => t.2.2) htr
      subst hs'
      obtain ⟨L₂, hL2⟩ := delete_split hI hj hcmp
      obtain ⟨hI', hcl', _, _⟩ := delete_spec hI hcl hj hnd hcmp rfl hL2
      exact ⟨_, hI', hcl'⟩
    · push_neg at hm
      have heq := LoadAndDelete_noMatch hI hm
      rw [hld] at heq
      have hs' : s' = s0 := congrArg (fun t => t.2.2) (Option.some.inj heq)
      subst hs'
      exact ⟨L, hI, hcl⟩

/-! ## The claims -/

/-- C1: for every key `k` and value `v`, immediately after a `Store(k, v)`
that completes on a reachable state (with no intervening delete of `k`),
`Load(k)` returns `(v, true)`. -/
theorem claim_C1 {hash : String → Nat} {s : StringMap} {key : String} {v : GoVal}
    {level : Nat} {s' : StringMap}
    (hr : Reachable hash s) (h1 : 1 ≤ level) (h2 : level ≤ maxLevel)
    (hst : Store hash s key v level = some s') :
    Load hash s' key = (v, true) := by
  obtain ⟨L, hI, hcl⟩ := Reachable_Inv hr
  exact (Store_spec hI hcl h1 h2 hst).2.1

theorem claim_C1_witness :
    Store hashZero (NewString hashZero) "a" (.int 5) 1 =
      some (insertedState hashZero (NewString hashZero) "a" (.int 5) 1 []) ∧
    Load hashZero (insertedState hashZero (NewString hashZero) "a" (.int 5) 1 []) "a" =
      (.int 5, true) :=
  ⟨by decide,
   @claim_C1 hashZero (NewString hashZero) "a" (.int 5) 1
     (insertedState hashZero (NewString hashZero) "a" (.int 5) 1 [])
     Reachable.init (by decide) (by decide) (by decide)⟩

/-- C2 (corrected): the sentinel header created by `NewString` carries key
`""`, score `hash ""`, and a `next` array spanning `maxLevel`. Its
`(score, key)` pair sorts strictly before every key whose score exceeds
`hash ""`, and before every distinct key of equal score — but it ties with
the storable key `""` itself, and sorts after any key whose score is below
`hash ""`; so it does not sort strictly before every storable key. -/
theorem claim_C2 (hash : String → Nat) :
    ∃ hd, nodeAt (NewString hash) 0 = some hd ∧
      hd.key = "" ∧ hd.score = hash "" ∧ hd.next.length = maxLevel ∧
      (∀ k, hash "" < hash k → hd.cmp (hash k) k < 0) ∧
      (∀ k, hash "" = hash k → k ≠ "" → hd.cmp (hash k) k < 0) ∧
      hd.cmp (hash "") "" = 0 ∧
      (∀ k, hash k < hash "" → 0 < hd.cmp (hash k) k) := by
  refine ⟨{ newStringNode hash "" (.str "") maxLevel with fullyLinked := true },
    rfl, rfl, rfl, by simp [newStringNode], ?_, ?_, ?_, ?_⟩
  · intro k hk
    rw [cmp_lt_iff]
    exact Or.inl hk
  · intro k hk hne
    rw [cmp_lt_iff]
    exact Or.inr ⟨hk, cmpstring_empty_lt hne⟩
  · rw [cmp_eq_zero_iff]
    exact ⟨rfl, rfl⟩
  · intro k hk
    rw [cmp_pos_iff]
    exact Or.inl hk

/-- C2 counterexample: under the all-zero score oracle the header does not
sort strictly before the storable key `""` — the comparison ties. -/
theorem claim_C2_counterexample :
    (∃ hd, nodeAt (NewString hashZero) 0 = some hd ∧
      ¬ (hd.cmp (hashZero "") "" < 0)) ∧
    (Store hashZero (NewString hashZero) "" (.int 1) 1).isSome = true :=
  ⟨⟨{ newStringNode hashZero "" (.str "") maxLevel with fullyLinked := true },
    rfl, by decide⟩, by decide⟩

/-- C3 (corrected): for a present key, `findNodeDelete` descends to level 0
and returns in `lFound` the height of the match minus one — the HIGHEST
level at which the match appears as the recorded successor (the match is
recorded as successor exactly at the levels below its height), not the
lowest. -/
theorem claim_C3 {hash : String → Nat} {s : StringMap} {L : List Nat}
    {key : String} {j : Nat} {nj : stringNode}
    (hI : Inv hash s L) (hj : j ∈ L) (hnj : nodeAt s j = some nj)
    (hcmp : cmpAt s j (hash key) key = 0) :
    findNodeDelete hash s key =
      (psArr s (hash key) key L maxLevel, some (nj.next.length - 1)) ∧
    (∀ lvl, lvl < maxLevel →
      ((psArr s (hash key) key L maxLevel)[lvl]?.bind Prod.snd = some j ↔
        lvl < nj.next.length)) := by
  refine ⟨findNodeDelete_match hI hj hnj hcmp, ?_⟩
  intro lvl hlvl
  rw [psArr_getElem s (hash key) key L hlvl]
  show ((chainAt s L lvl).dropWhile (belowTarget s (hash key) key)).head? = some j ↔ _
  constructor
  · intro h
    have hjc : j ∈ chainAt s L lvl :=
      (List.dropWhile_sublist _).subset (List.mem_of_mem_head? h)
    have hh := (mem_chainAt.mp hjc).2
    simp only [heightOf, hnj] at hh
    exact hh
  · intro h
    exact succ_is_match hI hj hnj hcmp h

set_option maxRecDepth 8000 in
theorem claim_C3_witness :
    findNodeDelete hashZero
        (insertedState hashZero (NewString hashZero) "a" (.int 5) 2 []) "a" =
      (psArr (insertedState hashZero (NewString hashZero) "a" (.int 5) 2 [])
        (hashZero "a") "a" [1] maxLevel, some 1) :=
  (@claim_C3 hashZero (insertedState hashZero (NewString hashZero) "a" (.int 5) 2 [])
    [1] "a" 1
    { key := "a", score := 0, value := .int 5, next := [none, none],
      fullyLinked := true, marked := false }
    (by decide) (by decide) (by decide) (by decide)).1

set_option maxRecDepth 8000 in
/-- C3 counterexample: in a map holding only a height-2 node for "a",
`findNodeDelete` reports `lFound = 1` even though the matching node also
appears as the recorded successor at the lower level 0 — it records the
highest match level, not the lowest. -/
theorem claim_C3_counterexample :
    (findNodeDelete hashZero
        (insertedState hashZero (NewString hashZero) "a" (.int 5) 2 []) "a").2 =
      some 1 ∧
    (findNodeDelete hashZero
        (insertedState hashZero (NewString hashZero) "a" (.int 5) 2 [])
        "a").1[0]?.bind Prod.snd = some 1 ∧
    cmpAt (insertedState hashZero (NewString hashZero) "a" (.int 5) 2 []) 1
      (hashZero "a") "a" = 0 := by
  decide

/-- C4: on every reachable state a completed `Range` visits keys in strictly
ascending `(score, key)` order (hence non-decreasing and duplicate-free),
and visits exactly the keys `Load` finds. -/
theorem claim_C4 {hash : String → Nat} {s : StringMap}
    (hr : Reachable hash s) :
    (RangeList s).Pairwise (fun a b => pairLt (hash a.1, a.1) (hash b.1, b.1)) ∧
    ((RangeList s).map Prod.fst).Nodup ∧
    (∀ k, (Load hash s k).2 = true ↔ k ∈ (RangeList s).map Prod.fst) := by
  obtain ⟨L, hI, hcl⟩ := Reachable_Inv hr
  have hmapfst : (RangeList s).map Prod.fst = L.map (keyAt s) := by
    rw [RangeList_spec hI hcl, List.map_map]
    rfl
  refine ⟨RangeList_sorted hI hcl, ?_, ?_⟩
  · rw [hmapfst]
    exact keys_nodup hI
  · intro k
    rw [hmapfst, Load_found_iff hI hcl]
    exact match_key_iff hI

theorem claim_C4_witness :
    Reachable hashZero (NewString hashZero) ∧
    (∀ k, (Load hashZero (NewString hashZero) k).2 = true ↔
      k ∈ (RangeList (NewString hashZero)).map Prod.fst) :=
  ⟨Reachable.init, (@claim_C4 hashZero (NewString hashZero) Reachable.init).2.2⟩

/-- C5: at rest `Len` equals the number of present keys (the keys `Load`
finds, which are pairwise distinct); a `Store` of a present key leaves the
counter unchanged, a `Store` of an absent key increases it by exactly 1, and
a successful `LoadAndDelete` decreases it by exactly 1. -/
theorem claim_C5 {hash : String → Nat} {s : StringMap} {L : List Nat}
    (hI : Inv hash s L) (hcl : clean s L) :
    (Len s = ((L.map (keyAt s)).length : Int) ∧ (L.map (keyAt s)).Nodup ∧
      ∀ k, (Load hash s k).2 = true ↔ k ∈ L.map (keyAt s)) ∧
    (∀ key v level s', 1 ≤ level → level ≤ maxLevel →
        Store hash s key v level = some s' →
        (((∃ j ∈ L, cmpAt s j (hash key) key = 0) → Len s' = Len s) ∧
         ((∀ j ∈ L, cmpAt s j (hash key) key ≠ 0) → Len s' = Len s + 1))) ∧
    (∀ key v s', LoadAndDelete hash s key = some (v, true, s') →
        Len s' = Len s - 1) := by
  refine ⟨⟨?_, keys_nodup hI, ?_⟩, ?_, ?_⟩
  · rw [Len, hI.size, List.length_map]
  · intro k
    rw [Load_found_iff hI hcl]
    exact match_key_iff hI
  · intro key v level s' h1 h2 hst
    constructor
    · rintro ⟨j, hj, hcmp⟩
      obtain ⟨nj, hnj, _, _, _, _⟩ := hI.node_mem hj
      have hmk : nj.marked = false := by
        have h := hcl j hj
        rw [markedAt, hnj] at h
        exact h
      have heq : Store hash s key v level =
          some (setNode s j { nj with value := v }) :=
        Store_found_eq hI hj hnj hcmp hmk
      rw [hst] at heq
      rw [Option.some.inj heq, Len, Len, setNode_length]
    · intro hnm
      have heq : Store hash s key v level =
          some (insertedState hash s key v level L) :=
        Store_insert_eq hI hcl hnm h2
      rw [hst] at heq
      rw [Option.some.inj heq]
      exact (@Store_insert_spec hash s L key v level _ _ hI hcl hnm h1 h2 rfl rfl).2.2.2
  · intro key v s' hld
    by_cases hm : ∃ j ∈ L, cmpAt s j (hash key) key = 0
    · obtain ⟨j, hj, hcmp⟩ := hm
      obtain ⟨nd, hnd, _, _, _, _⟩ := hI.node_mem hj
      have heq := LoadAndDelete_found_eq hI hcl hj hnd hcmp
      rw [hld] at heq
      have hs' : s' = deletedState hash s key L j nd :=
        congrArg (fun t => t.2.2) (Option.some.inj heq)
      rw [hs']
      obtain ⟨L₂, hL2⟩ := delete_split hI hj hcmp
      exact (delete_spec hI hcl hj hnd hcmp rfl hL2).2.2.2
    · push_neg at hm
      have heq := LoadAndDelete_noMatch hI hm
      rw [hld] at heq
      have hb : (true : Bool) = false :=
        congrArg (fun t => t.2.1) (Option.some.inj heq)
      exact absurd hb (by decide)

theorem claim_C5_witness :
    Inv hashZero (NewString hashZero) [] ∧
    Len (NewString hashZero) =
      ((([] : List Nat).map (keyAt (NewString hashZero))).length : Int) :=
  ⟨by decide,
   (@claim_C5 hashZero (NewString hashZero) [] (by decide) (by decide)).1.1⟩

/-- C6: after a successful `Delete(k)` on a reachable state (with no
intervening `Store(k, _)`), `Load(k)` reports not found. -/
theorem claim_C6 {hash : String → Nat} {s : StringMap} {key : String}
    {s' : StringMap}
    (hr : Reachable hash s) (hdel : Delete hash s key = some s') :
    (Load hash s' key).2 = false := by
  obtain ⟨L, hI, hcl⟩ := Reachable_Inv hr
  by_cases hm : ∃ j ∈ L, cmpAt s j (hash key) key = 0
  · obtain ⟨j, hj, hcmp⟩ := hm
    obtain ⟨nd, hnd, _, _, _, _⟩ := hI.node_mem hj
    have heq := Delete_found_eq hI hcl hj hnd hcmp
    rw [hdel] at heq
    obtain ⟨L₂, hL2⟩ := delete_split hI hj hcmp
    have hld := (delete_spec hI hcl hj hnd hcmp rfl hL2).2.2.1
    rw [Option.some.inj heq, hld]
  · push_neg at hm
    have heq := Delete_noMatch hI hm
    rw [hdel] at heq
    rw [Option.some.inj heq, Load_noMatch hI hm]

theorem claim_C6_witness :
    (Load hashZero
      (deletedState hashZero
        (insertedState hashZero (NewString hashZero) "a" (.int 5) 1 []) "a" [1] 1
        { key := "a", score := 0, value := .int 5, next := [none],
          fullyLinked := true, marked := false }) "a").2 = false :=
  @claim_C6 hashZero (insertedState hashZero (NewString hashZero) "a" (.int 5) 1 [])
    "a"
    (deletedState hashZero
      (insertedState hashZero (NewString hashZero) "a" (.int 5) 1 []) "a" [1] 1
      { key := "a", score := 0, value := .int 5, next := [none],
        fullyLinked := true, marked := false })
    (@Reachable.store hashZero (NewString hashZero)
      (insertedState hashZero (NewString hashZero) "a" (.int 5) 1 []) "a" (.int 5) 1
      Reachable.init (by decide) (by decide) (by decide))
    (by decide)

/-- C7: a key that is not observably present — no match in the list, or the
match already marked — makes `Delete` and `LoadAndDelete` report not found
(`(nil, false)`) with the state returned completely unchanged. -/
theorem claim_C7 {hash : String → Nat} {s : StringMap} (L : List Nat)
    {key : String}
    (hI : Inv hash s L)
    (h : (∀ j ∈ L, cmpAt s j (hash key) key ≠ 0) ∨
         (∃ j ∈ L, cmpAt s j (hash key) key = 0 ∧ markedAt s j = true)) :
    Delete hash s key = some s ∧
    LoadAndDelete hash s key = some (.nil, false, s) := by
  rcases h with h | ⟨j, hj, hcmp, hmk⟩
  · exact ⟨Delete_noMatch hI h, LoadAndDelete_noMatch hI h⟩
  · obtain ⟨nd, hnd, _, _, _, _⟩ := hI.node_mem hj
    have hm : nd.marked = true := by
      rw [markedAt, hnd] at hmk
      exact hmk
    exact ⟨Delete_marked hI hj hnd hcmp hm, LoadAndDelete_marked hI hj hnd hcmp hm⟩

theorem claim_C7_witness :
    Delete hashZero
      (setNode (insertedState hashZero (NewString hashZero) "a" (.int 5) 1 []) 1
        { key := "a", score := 0, value := .int 5, next := [none],
          fullyLinked := true, marked := true }) "a" =
      some (setNode (insertedState hashZero (NewString hashZero) "a" (.int 5) 1 []) 1
        { key := "a", score := 0, value := .int 5, next := [none],
          fullyLinked := true, marked := true }) ∧
    LoadAndDelete hashZero
      (setNode (insertedState hashZero (NewString hashZero) "a" (.int 5) 1 []) 1
        { key := "a", score := 0, value := .int 5, next := [none],
          fullyLinked := true, marked := true }) "a" =
      some (.nil, false,
        setNode (insertedState hashZero (NewString hashZero) "a" (.int 5) 1 []) 1
          { key := "a", score := 0, value := .int 5, next := [none],
            fullyLinked := true, marked := true }) :=
  @claim_C7 hashZero
    (setNode (insertedState hashZero (NewString hashZero) "a" (.int 5) 1 []) 1
      { key := "a", score := 0, value := .int 5, next := [none],
        fullyLinked := true, marked := true })
    [1] "a" (by decide) (Or.inr ⟨1, by decide, by decide, by decide⟩)

/-- C8: storing onto a present unmarked key replaces only that node's value
slot — every other heap cell, every successor pointer at every level, every
height, and the counter are unchanged, and the new value is loadable. -/
theorem claim_C8 {hash : String → Nat} {s : StringMap} {L : List Nat}
    {key : String} {v : GoVal} {level j : Nat} {nj : stringNode} {s' : StringMap}
    (hI : Inv hash s L) (hcl : clean s L)
    (hj : j ∈ L) (hnj : nodeAt s j = some nj)
    (hcmp : cmpAt s j (hash key) key = 0)
    (hst : Store hash s key v level = some s') :
    nodeAt s' j = some { nj with value := v } ∧
    (∀ i, i ≠ j → nodeAt s' i = nodeAt s i) ∧
    (∀ i lvl, nextOf s' i lvl = nextOf s i lvl) ∧
    (∀ i, heightOf s' i = heightOf s i) ∧
    Len s' = Len s ∧
    Load hash s' key = (v, true) := by
  have hmk : nj.marked = false := by
    have h := hcl j hj
    rw [markedAt, hnj] at h
    exact h
  have heq : Store hash s key v level = some (setNode s j { nj with value := v }) :=
    Store_found_eq hI hj hnj hcmp hmk
  rw [hst] at heq
  have hs' : s' = setNode s j { nj with value := v } := Option.some.inj heq
  subst hs'
  have hE : eqExceptNext (setNode s j { nj with value := v }) s :=
    setNode_shape_eqExceptNext hnj ⟨rfl, rfl, rfl, rfl, rfl⟩
  refine ⟨nodeAt_setNode_self (bound_of_nodeAt hnj), ?_,
    nextOf_setNode_eqnext hnj (rfl : ({ nj with value := v }).next = nj.next),
    fun i => hE.heightAt i, ?_, ?_⟩
  · intro i hi
    exact nodeAt_setNode_ne (fun he => hi he.symm)
  · rw [Len, Len, setNode_length]
  · exact (@Store_found_spec hash s L key v level j nj hI hcl hj hnj hcmp).2.2.2.1

theorem claim_C8_witness :
    Load hashZero
      (setNode (insertedState hashZero (NewString hashZero) "a" (.int 5) 1 []) 1
        { key := "a", score := 0, value := .int 9, next := [none],
          fullyLinked := true, marked := false }) "a" = (.int 9, true) :=
  (@claim_C8 hashZero (insertedState hashZero (NewString hashZero) "a" (.int 5) 1 [])
    [1] "a" (.int 9) 1 1
    { key := "a", score := 0, value := .int 5, next := [none],
      fullyLinked := true, marked := false }
    (setNode (insertedState hashZero (NewString hashZero) "a" (.int 5) 1 []) 1
      { key := "a", score := 0, value := .int 9, next := [none],
        fullyLinked := true, marked := false })
    (by decide) (by decide) (by decide) (by decide) (by decide) (by decide)).2.2.2.2.2

/-- C9: `LoadOrStore` on an absent key stores the value — a subsequent
`Load` returns `(v, true)` — yet reports `loaded = false` with
`actual = nil`, the literal nil rather than the value just stored. -/
theorem claim_C9 {hash : String → Nat} {s : StringMap} {L : List Nat}
    {key : String} {v : GoVal} {level : Nat}
    (hI : Inv hash s L) (hcl : clean s L)
    (hnm : ∀ j ∈ L, cmpAt s j (hash key) key ≠ 0)
    (h1 : 1 ≤ level) (h2 : level ≤ maxLevel) :
    LoadOrStore hash s key v level =
      some (.nil, false, insertedState hash s key v level L) ∧
    Load hash (insertedState hash s key v level L) key = (v, true) := by
  have hld := Load_noMatch hI hnm
  have hst : Store hash s key v level = some (insertedState hash s key v level L) :=
    Store_insert_eq hI hcl hnm h2
  refine ⟨?_,
    (@Store_insert_spec hash s L key v level _ _ hI hcl hnm h1 h2 rfl rfl).2.2.1⟩
  simp only [LoadOrStore, hld, hst, Bool.false_eq_true, if_false, Option.map_some']

theorem claim_C9_witness :
    LoadOrStore hashZero (NewString hashZero) "a" (.int 7) 1 =
      some (.nil, false, insertedState hashZero (NewString hashZero) "a" (.int 7) 1 []) ∧
    Load hashZero (insertedState hashZero (NewString hashZero) "a" (.int 7) 1 []) "a" =
      (.int 7, true) :=
  @claim_C9 hashZero (NewString hashZero) [] "a" (.int 7) 1
    (by decide) (by decide) (by decide) (by decide) (by decide)

/-- C10: the empty-string key behaves like any other key — storing `""` on a
reachable state and loading it back returns `(v, true)`, even though the
header itself carries key `""` and score `hash ""`, because the searches
only ever compare the target against successors of the header. -/
theorem claim_C10 {hash : String → Nat} {s : StringMap} {v : GoVal}
    {level : Nat} {s' : StringMap}
    (hr : Reachable hash s) (h1 : 1 ≤ level) (h2 : level ≤ maxLevel)
    (hst : Store hash s "" v level = some s') :
    Load hash s' "" = (v, true) := by
  obtain ⟨L, hI, hcl⟩ := Reachable_Inv hr
  exact (Store_spec hI hcl h1 h2 hst).2.1

theorem claim_C10_witness :
    Load hashZero (insertedState hashZero (NewString hashZero) "" (.int 3) 1 []) "" =
      (.int 3, true) :=
  @claim_C10 hashZero (NewString hashZero) (.int 3) 1
    (insertedState hashZero (NewString hashZero) "" (.int 3) 1 [])
    Reachable.init (by decide) (by decide) (by decide)

end Skipmap
